import Mathlib

/-! # toxjc: format detection and the tabular record model

A shallow embedding of `lib/toxjc.go`.

Go strings and byte slices are sequences of bytes; they are modelled as
`List Nat` (a byte is a natural number below 256).  Nothing in the embedding
does arithmetic on a byte that could overflow: bytes are only compared and,
inside the UTF-8 decoder, masked and shifted into a rune, which is a `Nat` as
well.

The functions of the Go standard library that the code calls
(`strings.TrimSpace`, `strings.ReplaceAll`, `strings.Contains`,
`utf8.DecodeRuneInString`, `utf8.DecodeLastRuneInString`, `unicode.IsSpace`)
are modelled after their implementation in the Go distribution.  The
spreadsheet libraries and the JSON decoder are external collaborators: the
readers take what those libraries hand back as their input, and so does
`ReadCSV` with the CSV reader.  For writing a record set and reading it back,
`encoding/csv` as `WriteCSV` and `ReadCSV` set it up, and the document that
`encoding/json` writes for a slice of string maps, are modelled after their
implementation as well.  The order of a `range` over a map, which Go leaves
open, is decided by a parameter that stands for the run.
-/

namespace Toxjc

/-- A Go `string` or `[]byte`: a sequence of bytes. -/
abbrev Bytes := List Nat

/-- The bytes of an ASCII text, for writing examples. -/
def ascii (s : String) : Bytes := s.toList.map Char.toNat

/-! ## unicode/utf8 -/

/-- `utf8.RuneError`, the replacement character U+FFFD. -/
def RuneError : Nat := 0xFFFD

/-- A continuation byte: `locb <= b && b <= hicb` (0x80 .. 0xBF). -/
def isCont (b : Nat) : Bool := 0x80 ≤ b && b ≤ 0xBF

/-- The tail of `utf8.DecodeRuneInString` for a first byte `s0` of a two-byte
encoding: `rune(s0&mask2)<<6 | rune(s1&maskx)`.  `b & mask` is written
`b % 2^k`, and the shifts and ors of disjoint bit fields `* 2^k` and `+`. -/
def decode2 (s0 : Nat) : Bytes → Nat × Nat
  | s1 :: _ => if isCont s1 then ((s0 % 32) * 64 + s1 % 64, 2) else (RuneError, 1)
  | [] => (RuneError, 1)

/-- The tail of `utf8.DecodeRuneInString` for a first byte `s0` of a
three-byte encoding whose second byte has to lie in `lo .. hi`. -/
def decode3 (s0 lo hi : Nat) : Bytes → Nat × Nat
  | s1 :: s2 :: _ =>
    if s1 < lo || hi < s1 then (RuneError, 1)
    else if !isCont s2 then (RuneError, 1)
    else ((s0 % 16) * 4096 + (s1 % 64) * 64 + s2 % 64, 3)
  | _ => (RuneError, 1)

/-- The tail of `utf8.DecodeRuneInString` for a first byte `s0` of a
four-byte encoding whose second byte has to lie in `lo .. hi`. -/
def decode4 (s0 lo hi : Nat) : Bytes → Nat × Nat
  | s1 :: s2 :: s3 :: _ =>
    if s1 < lo || hi < s1 then (RuneError, 1)
    else if !isCont s2 then (RuneError, 1)
    else if !isCont s3 then (RuneError, 1)
    else ((s0 % 8) * 262144 + (s1 % 64) * 4096 + (s2 % 64) * 64 + s3 % 64, 4)
  | _ => (RuneError, 1)

/-- `utf8.DecodeRuneInString`: the first rune of `s` and its width in bytes.
An empty input gives `(RuneError, 0)`, an invalid or truncated encoding
`(RuneError, 1)`.  The cases on the first byte are the rows of the `first`
table, each with the accept range of its second byte. -/
def DecodeRune : Bytes → Nat × Nat
  | [] => (RuneError, 0)
  | s0 :: rest =>
    if s0 < 0x80 then (s0, 1)
    else if s0 < 0xC2 then (RuneError, 1)
    else if s0 ≤ 0xDF then decode2 s0 rest
    else if s0 = 0xE0 then decode3 s0 0xA0 0xBF rest
    else if s0 = 0xED then decode3 s0 0x80 0x9F rest
    else if s0 ≤ 0xEF then decode3 s0 0x80 0xBF rest
    else if s0 = 0xF0 then decode4 s0 0x90 0xBF rest
    else if s0 ≤ 0xF3 then decode4 s0 0x80 0xBF rest
    else if s0 = 0xF4 then decode4 s0 0x80 0x8F rest
    else (RuneError, 1)

/-- `utf8.RuneStart`: the byte is not a continuation byte (`b&0xC0 != 0x80`). -/
def RuneStart (b : Nat) : Bool := !isCont b

/-- The backwards scan of `DecodeLastRuneInString`: `rev` holds the bytes
before the last one, nearest first.  The result is how many bytes before the
last one the decoding starts: the scan stops at the first rune start among
the three bytes before the last, and otherwise runs one byte past them (or to
the start of the string). -/
def lastRuneBack : Nat → Bytes → Nat
  | 0, [] => 0
  | 0, _ :: _ => 1
  | _ + 1, [] => 0
  | k + 1, b :: rev => if RuneStart b then 1 else 1 + lastRuneBack k rev

/-- `utf8.DecodeLastRuneInString`: the last rune of `s` and its width. -/
def DecodeLastRune (s : Bytes) : Nat × Nat :=
  match s.reverse with
  | [] => (RuneError, 0)
  | last :: rev =>
    if last < 0x80 then (last, 1)
    else
      let back := lastRuneBack 3 rev
      let start := s.length - 1 - back
      let (r, size) := DecodeRune (s.drop start)
      if start + size ≠ s.length then (RuneError, 1) else (r, size)

/-! ## unicode and strings -/

/-- `unicode.IsSpace`: the Latin-1 spaces and the `White_Space` table. -/
def IsSpace (r : Nat) : Bool :=
  (0x09 ≤ r && r ≤ 0x0D) || r = 0x20 || r = 0x85 || r = 0xA0 || r = 0x1680 ||
  (0x2000 ≤ r && r ≤ 0x200A) || r = 0x2028 || r = 0x2029 || r = 0x202F ||
  r = 0x205F || r = 0x3000

/-- The `asciiSpace` table of package `strings`. -/
def asciiSpace (c : Nat) : Bool :=
  c = 0x09 || c = 0x0A || c = 0x0B || c = 0x0C || c = 0x0D || c = 0x20

/-- `strings.TrimLeftFunc(s, unicode.IsSpace)`, on a string of at most `fuel`
bytes: `indexFunc` walks over the runes from the left, each decoded as
`DecodeRune` does, up to the first that is not white space; the string from
there on is returned. -/
def trimLeftFuel : Nat → Bytes → Bytes
  | 0, s => s
  | fuel + 1, s =>
    match s with
    | [] => []
    | _ :: _ =>
      if IsSpace (DecodeRune s).1 then trimLeftFuel fuel (s.drop (DecodeRune s).2)
      else s

/-- `strings.TrimLeftFunc(s, unicode.IsSpace)`.  A rune is at least one byte
wide, so the length of the string is fuel enough (`TrimLeftFunc_cons`). -/
def TrimLeftFunc (s : Bytes) : Bytes := trimLeftFuel s.length s

/-- `strings.TrimRightFunc(s, unicode.IsSpace)`, on a string of at most
`fuel` bytes: `lastIndexFunc` walks over the runes from the right, each
decoded as `DecodeLastRune` does, up to the first that is not white space;
the string up to the end of that rune is returned. -/
def trimRightFuel : Nat → Bytes → Bytes
  | 0, s => s
  | fuel + 1, s =>
    match s with
    | [] => []
    | _ :: _ =>
      if IsSpace (DecodeLastRune s).1 then
        trimRightFuel fuel (s.take (s.length - (DecodeLastRune s).2))
      else s

/-- `strings.TrimRightFunc(s, unicode.IsSpace)`.  A rune is at least one
byte wide, so the length of the string is fuel enough (`TrimRightFunc_eq`). -/
def TrimRightFunc (s : Bytes) : Bytes := trimRightFuel s.length s

/-- `strings.TrimFunc(s, unicode.IsSpace)`. -/
def TrimFunc (s : Bytes) : Bytes := TrimRightFunc (TrimLeftFunc s)

/-- `strings.TrimSpace`.  The first loop skips leading ASCII spaces; at a
byte of 0x80 or more it hands the rest to `TrimFunc`.  The second loop skips
trailing ASCII spaces; at a byte of 0x80 or more it hands what is left to
`TrimRightFunc`. -/
def TrimSpace (s : Bytes) : Bytes :=
  match s.dropWhile asciiSpace with
  | [] => []
  | c :: t =>
    if 0x80 ≤ c then TrimFunc (c :: t)
    else
      match ((c :: t).reverse.dropWhile asciiSpace) with
      | [] => []
      | d :: u =>
        if 0x80 ≤ d then TrimRightFunc (d :: u).reverse
        else (d :: u).reverse

/-- `strings.Contains(s, sub)`. -/
def Contains (s sub : Bytes) : Bool :=
  match s with
  | [] => sub.isEmpty
  | c :: cs => sub.isPrefixOf (c :: cs) || Contains cs sub

/-! ## Detect -/

/-- What the operating system offers at a path: nothing that `os.Open` can
open, or a regular file.  Reading an open regular file does not fail. -/
inductive File where
  /-- `os.Open` (or `os.ReadFile`) fails. -/
  | absent
  /-- A regular file with this content. -/
  | regular (data : Bytes)

/-- The errors of the library, one for each message it builds. -/
inductive Error where
  /-- The error of `os.Open`, `os.ReadFile` or `os.Create`. -/
  | io
  /-- `not supported`, from `Detect`. -/
  | notSupported
  /-- The workbook cannot be opened as XLSX. -/
  | xlsxOpen
  /-- The workbook has no sheet. -/
  | noSheet
  /-- The rows of the sheet cannot be read. -/
  | rowsRead
  /-- The sheet has no rows. -/
  | emptySheet
  /-- The file is not a JSON array of objects. -/
  | jsonParse
  /-- The JSON array is empty. -/
  | emptyArray
  /-- The record set has no rows. -/
  | noData
  /-- `Read`: the file type cannot be detected. -/
  | detectFailed
  /-- `Read`: a file type without a reader. -/
  | unsupportedFormat
  /-- `Convert`: the extension of the output path is none of the three. -/
  | unsupportedOutput
  /-- The error of `encoder.Encode`, handed on by `WriteJSON` as it is. -/
  | encode
  deriving DecidableEq, Repr

deriving instance DecidableEq for Except

/-- `Detect`: the format tag of a file, from its content. -/
def Detect (f : File) : Except Error String :=
  match f with
  | .absent => .error .io
  | .regular data =>
    let header := data.take 8
    let n := header.length
    if n ≥ 2 ∧ header.getD 0 0 = 0x50 ∧ header.getD 1 0 = 0x4B then .ok "xlsx"
    else if n ≥ 8 ∧ header.getD 0 0 = 0xD0 ∧ header.getD 1 0 = 0xCF ∧
        header.getD 2 0 = 0x11 ∧ header.getD 3 0 = 0xE0 then .ok "xls"
    else
      let buf := data.take 4096
      if buf.any (fun b => b = 0) then .error .notSupported
      else
        let content := TrimSpace buf
        if content.length = 0 then .error .notSupported
        else if content.getD 0 0 = 0x5B ∨ content.getD 0 0 = 0x7B then .ok "json"
        else if Contains content [0x2C] || Contains content [0x09] then .ok "csv"
        else .error .notSupported

/-- A run of white space: complete encodings of white-space runes, one after
the other. -/
inductive White : Bytes → Prop
  | nil : White []
  | rune (enc ws : Bytes) : IsSpace (DecodeRune enc).1 = true →
      (DecodeRune enc).2 = enc.length → White ws → White (enc ++ ws)

/-! ## sanitize -/

/-- The scan of `strings.ReplaceAll` for a non-empty `old`: `skip` bytes of
an occurrence that has just been replaced are still to be passed over; with
none left, an occurrence of `old` at the head is replaced by `new`, and any
other byte is copied. -/
def replaceAllAux (old new : Bytes) : Nat → Bytes → Bytes
  | _, [] => []
  | skip + 1, _ :: cs => replaceAllAux old new skip cs
  | 0, c :: cs =>
    if old.isPrefixOf (c :: cs) then new ++ replaceAllAux old new (old.length - 1) cs
    else c :: replaceAllAux old new 0 cs

/-- `strings.ReplaceAll(s, old, new)` for a non-empty `old`: the occurrences
of `old`, found from left to right without overlap, are replaced by `new`. -/
def ReplaceAll (s old new : Bytes) : Bytes := replaceAllAux old new 0 s

/-- The loop of `sanitize`, run at most `fuel` times:
`for strings.Contains(s, "  ") { s = strings.ReplaceAll(s, "  ", " ") }`. -/
def collapseSpaces : Nat → Bytes → Bytes
  | 0, s => s
  | fuel + 1, s =>
    if Contains s [0x20, 0x20] then collapseSpaces fuel (ReplaceAll s [0x20, 0x20] [0x20])
    else s

/-- `sanitize`.  Every pass of the loop shortens the string, so its length
is fuel enough (`collapseSpaces_done`). -/
def sanitize (s : Bytes) : Bytes :=
  let s := ReplaceAll s [0x0D, 0x0A] [0x20]
  let s := ReplaceAll s [0x0D] [0x20]
  let s := ReplaceAll s [0x0A] [0x20]
  let s := collapseSpaces s.length s
  TrimSpace s

/-! ## The record set and the readers -/

/-- The `[][]string` the readers return and the writers take. -/
abbrev Records := List (List Bytes)

/-- `utf8.Valid` on a string of at most `fuel` bytes: no position decodes to
an encoding error of width one. -/
def validFuel : Nat → Bytes → Bool
  | 0, s => s.isEmpty
  | fuel + 1, s =>
    match s with
    | [] => true
    | _ :: _ =>
      if DecodeRune s = (RuneError, 1) then false
      else validFuel fuel (s.drop (DecodeRune s).2)

/-- `utf8.Valid`. -/
def Valid (s : Bytes) : Bool := validFuel s.length s

/-- `detectEncoding`. -/
def detectEncoding (data : Bytes) : String :=
  if [0xEF, 0xBB, 0xBF].isPrefixOf data then "utf-8-bom"
  else if [0xFF, 0xFE].isPrefixOf data then "utf-16-le"
  else if [0xFE, 0xFF].isPrefixOf data then "utf-16-be"
  else if Valid data then "utf-8"
  else "euc-kr"

/-- The decoders of `golang.org/x/text` that `toUTF8Reader` wraps around the
file: each turns the bytes it reads into UTF-8. -/
structure Decoders where
  /-- `unicode.UTF16(unicode.LittleEndian, unicode.UseBOM).NewDecoder()`. -/
  utf16le : Bytes → Bytes
  /-- `unicode.UTF16(unicode.BigEndian, unicode.UseBOM).NewDecoder()`. -/
  utf16be : Bytes → Bytes
  /-- `korean.EUCKR.NewDecoder()`. -/
  euckr : Bytes → Bytes

/-- `toUTF8Reader`: what can be read from `r` through the decoder for
`encoding`. -/
def toUTF8Reader (d : Decoders) (r : Bytes) (encoding : String) : Bytes :=
  if encoding = "utf-8" ∨ encoding = "utf-8-bom" then r
  else if encoding = "utf-16-le" then d.utf16le r
  else if encoding = "utf-16-be" then d.utf16be r
  else if encoding = "euc-kr" then d.euckr r
  else r

/-- The loop of `ReadCSV` over what `csvReader.Read` hands back, call after
call, up to `io.EOF`: `none` is a call that fails with a parse error, which
the loop passes over; the fields of a record are sanitized. -/
def readCSVLoop : List (Option (List Bytes)) → Records
  | [] => []
  | none :: reads => readCSVLoop reads
  | some record :: reads => record.map sanitize :: readCSVLoop reads

/-- `ReadCSV`.  `csvRead` is `encoding/csv` with `LazyQuotes` and
`FieldsPerRecord = -1`: the results of its `Read` calls on a text, up to
`io.EOF`. -/
def ReadCSV (d : Decoders) (csvRead : Bytes → List (Option (List Bytes))) (f : File) :
    Except Error Records :=
  match f with
  | .absent => .error .io
  | .regular data =>
    let header := data.take 4096
    let encoding := detectEncoding header
    let seek :=
      if encoding = "utf-8-bom" then 3
      else if encoding = "utf-16-le" ∨ encoding = "utf-16-be" then 2
      else 0
    let reader := toUTF8Reader d (data.drop seek) encoding
    .ok (readCSVLoop (csvRead reader))

/-- What `excelize` offers for an open workbook. -/
structure XlsxFile where
  /-- `GetSheetList()`. -/
  sheets : List String
  /-- `GetRows(sheet)`: the rows of a sheet, or `none` for an error. -/
  rows : String → Option (List (List Bytes))

/-- `for len(row) < headerCols { row = append(row, "") }`. -/
def padRow (headerCols : Nat) (row : List Bytes) : List Bytes :=
  row ++ List.replicate (headerCols - row.length) []

/-- `ReadXLSX`.  The argument is what `excelize.OpenFile` returns: `none`
for an error. -/
def ReadXLSX (opened : Option XlsxFile) : Except Error Records :=
  match opened with
  | none => .error .xlsxOpen
  | some f =>
    match f.sheets with
    | [] => .error .noSheet
    | sheet0 :: _ =>
      match f.rows sheet0 with
      | none => .error .rowsRead
      | some [] => .error .emptySheet
      | some (row0 :: more) =>
        let headerCols := row0.length
        .ok ((row0 :: more).map (fun row => padRow headerCols (row.map sanitize)))

/-- A row of a sheet of `extrame/xls`. -/
structure XlsRow where
  /-- `LastCol()`. -/
  LastCol : Nat
  /-- `Col(j)`. -/
  Col : Nat → Bytes

/-- A sheet of `extrame/xls`. -/
structure XlsSheet where
  /-- `MaxRow`. -/
  MaxRow : Nat
  /-- `Row(i)`: `none` is the nil row. -/
  Row : Nat → Option XlsRow

/-- The body of the row loop of `ReadXLS` for the row index `i`. -/
def readXLSRow (sheet : XlsSheet) (headerCols : Nat) (i : Nat) : Option (List Bytes) :=
  match sheet.Row i with
  | none => none
  | some row =>
    some (padRow headerCols ((List.range (row.LastCol + 1)).map (fun j => sanitize (row.Col j))))

/-- `ReadXLS`.  `opened` is what `xls.Open` returns, `none` for an error;
inside, `GetSheet(0)`, `none` for nil.  `fallback` is what
`excelize.OpenFile` returns for the same path. -/
def ReadXLS (opened : Option (Option XlsSheet)) (fallback : Option XlsxFile) :
    Except Error Records :=
  match opened with
  | none => ReadXLSX fallback
  | some none => .error .noSheet
  | some (some sheet) =>
    let headerCols :=
      match sheet.Row 0 with
      | some firstRow => firstRow.LastCol + 1
      | none => 0
    .ok ((List.range (sheet.MaxRow + 1)).filterMap (readXLSRow sheet headerCols))

/-- A value of a decoded JSON object, a Go `interface{}`.  A string is
itself; for every other value (number, boolean, null, array, object) the
text that `fmt.Sprintf("%v", val)` prints is carried along. -/
inductive JValue where
  | str (s : Bytes)
  | other (text : Bytes)
  deriving DecidableEq, Repr

/-- `fmt.Sprintf("%v", val)`. -/
def sprintV : JValue → Bytes
  | .str s => s
  | .other text => text

/-- A Go `map[string]V`, as the list of its entries: the entry that counts
for a key is the first one in the list, and assigning to a key puts an entry
in front. -/
abbrev GoMap (V : Type) := List (Bytes × V)

/-- The keys of a map, each once. -/
def GoMap.keys {V : Type} (m : GoMap V) : List Bytes := (m.map Prod.fst).dedup

/-- What `encoding/json` makes of the file for `ReadJSON`. -/
inductive JsonFile where
  /-- `os.ReadFile` fails. -/
  | absent
  /-- `json.Unmarshal` into `[]map[string]interface{}` fails. -/
  | malformed
  /-- The decoded array. -/
  | array (items : List (GoMap JValue))

/-- The row of `ReadJSON` for an item: its value for each key of the header,
and the empty string for a key it does not have. -/
def projectItem (header : List Bytes) (item : GoMap JValue) : List Bytes :=
  header.map (fun key =>
    match item.lookup key with
    | some val => sprintV val
    | none => [])

/-- The keys a `range` statement over a map hands out in one run.  Go visits
every key of the map once and leaves the order open: `seed` stands for the
run and picks one of the orders of the keys; every order is picked by some
seed. -/
def rangeKeys (seed : Nat) (keys : List Bytes) : List Bytes :=
  (List.permutations' keys).getD seed keys

/-- `ReadJSON`.  The header is built by `for key := range items[0]`, one
`append` for each key the statement hands out; `seed` is the run. -/
def ReadJSON (f : JsonFile) (seed : Nat) : Except Error Records :=
  match f with
  | .absent => .error .io
  | .malformed => .error .jsonParse
  | .array [] => .error .emptyArray
  | .array (item0 :: more) =>
    let header := (rangeKeys seed item0.keys).foldl (fun header key => header ++ [key]) []
    .ok (header :: (item0 :: more).map (projectItem header))

/-! ## The writers -/

/-- The object `WriteJSON` builds for a row: `item[col] = row[i]` for the
columns of the header, from left to right, with the empty string beyond the
end of the row. -/
def rowItem (header row : List Bytes) : GoMap Bytes :=
  header.enum.foldl
    (fun item col => (col.2, if col.1 < row.length then row.getD col.1 [] else []) :: item) []

/-- A Go string as `encoding/json` writes it, read as the text that the
JSON string stands for: a byte at which `utf8.DecodeRuneInString` finds an
encoding error of width one is written as `\ufffd`, the replacement
character U+FFFD, in UTF-8 the bytes EF BF BD; every other character is
written as itself or as an escape that stands for it.  `fuel` bounds the
scan. -/
def jsonStringFuel : Nat → Bytes → Bytes
  | 0, _ => []
  | _ + 1, [] => []
  | fuel + 1, b :: rest =>
    if b < 0x80 then b :: jsonStringFuel fuel rest
    else if DecodeRune (b :: rest) = (RuneError, 1) then
      0xEF :: 0xBF :: 0xBD :: jsonStringFuel fuel rest
    else
      (b :: rest).take (DecodeRune (b :: rest)).2 ++
        jsonStringFuel fuel ((b :: rest).drop (DecodeRune (b :: rest)).2)

/-- The text that the JSON string written for a Go string stands for. -/
def jsonString (s : Bytes) : Bytes := jsonStringFuel s.length s

/-- The order in which `encoding/json` writes the keys of a map: sorted, by
`strings.Compare` on the keys as they are in the map. -/
def sortKeys (keys : List Bytes) : List Bytes := keys.insertionSort (fun a b => a ≤ b)

/-- A JSON object with string values, as written in a file: its members in
the order written, each the name and the value that the two JSON strings
stand for. -/
abbrev JsonObject := List (Bytes × Bytes)

/-- The object `encoding/json` writes for a `map[string]string`: a member
for every key of the map, in the order of `sortKeys`. -/
def encodeItem (item : GoMap Bytes) : JsonObject :=
  (sortKeys item.keys).map (fun key => (jsonString key, jsonString ((item.lookup key).getD [])))

/-- The document `encoder.Encode` writes for a `[]map[string]string`. -/
inductive JsonText where
  /-- The text `null`, written for a nil slice. -/
  | null
  /-- An array of objects. -/
  | array (objects : List JsonObject)
  deriving DecidableEq, Repr

/-- The objects of a document, in the order written. -/
def JsonText.objects : JsonText → List JsonObject
  | .null => []
  | .array objects => objects

/-- `encoder.Encode(data)`: `data` stays nil when the loop of `WriteJSON`
appends nothing. -/
def encodeData (data : List (GoMap Bytes)) : JsonText :=
  match data with
  | [] => .null
  | _ :: _ => .array (data.map encodeItem)

/-- `WriteJSON`: the result is the document in the file written.  `created`
tells whether `os.Create` succeeds, `encoded` whether `encoder.Encode` does,
which for a slice of string maps fails only when the file cannot be written
to. -/
def WriteJSON (records : Records) (created encoded : Bool) : Except Error JsonText :=
  match records with
  | [] => .error .noData
  | header :: rows =>
    let data := rows.map (rowItem header)
    if created then
      if encoded then .ok (encodeData data) else .error .encode
    else .error .io

/-- What `json.Unmarshal` into a `[]map[string]interface{}` makes of a
document that `WriteJSON` wrote: `null` leaves the slice nil; an object
becomes a map with a string for each member, and of two members with the same
name the one written later counts. -/
def jsonDecoded : JsonText → JsonFile
  | .null => .array []
  | .array objects =>
    .array (objects.map (fun object => object.reverse.map (fun e => (e.1, JValue.str e.2))))

/-- `WriteCSV`: the result is the content of the file written.  `csvWrite` is
`encoding/csv`: the text its `Write` calls and the final `Flush` produce for
the records.  `created` tells whether `os.Create` succeeds. -/
def WriteCSV (csvWrite : Records → Bytes) (records : Records) (created : Bool) :
    Except Error Bytes :=
  if created then .ok (csvWrite records) else .error .io

/-- `WriteXLSX`, up to the call of `f.SaveAs`: the result is the cells set,
each with its column and row, both counted from one.  `saved` tells whether
`SaveAs` succeeds. -/
def WriteXLSX (records : Records) (saved : Bool) :
    Except Error (List (Nat × Nat × Bytes)) :=
  match records with
  | [] => .error .noData
  | _ :: _ =>
    let cells := records.enum.flatMap (fun row =>
      row.2.enum.map (fun cell => (cell.1 + 1, row.1 + 1, cell.2)))
    if saved then .ok cells else .error .io

/-! ## Read and the converters -/

/-- The libraries the package calls, as functions of what they are given. -/
structure Libs where
  /-- The decoders of `golang.org/x/text`. -/
  decoders : Decoders
  /-- The reader of `encoding/csv`: the results of its `Read` calls on a text. -/
  csvRead : Bytes → List (Option (List Bytes))
  /-- The writer of `encoding/csv`: the text it writes for the records. -/
  csvWrite : Records → Bytes
  /-- `excelize.OpenFile` on the file at a path. -/
  openXlsx : File → Option XlsxFile
  /-- `xls.Open` on the file at a path, and `GetSheet(0)` of the workbook. -/
  openXls : File → Option (Option XlsSheet)
  /-- `json.Unmarshal` into a `[]map[string]interface{}`: `none` for an error. -/
  unmarshal : Bytes → Option (List (GoMap JValue))
  /-- `strings.ToLower`. -/
  toLower : Bytes → Bytes

/-- What `os.ReadFile` and `json.Unmarshal` make of a file for `ReadJSON`. -/
def jsonFile (unmarshal : Bytes → Option (List (GoMap JValue))) : File → JsonFile
  | .absent => .absent
  | .regular data =>
    match unmarshal data with
    | none => .malformed
    | some items => .array items

/-- `Read`.  `seed` is the run, for the `range` statement of `ReadJSON`. -/
def Read (L : Libs) (seed : Nat) (f : File) : Except Error Records :=
  match Detect f with
  | .error _ => .error .detectFailed
  | .ok fileType =>
    if fileType = "csv" then ReadCSV L.decoders L.csvRead f
    else if fileType = "xlsx" then ReadXLSX (L.openXlsx f)
    else if fileType = "xls" then ReadXLS (L.openXls f) (L.openXlsx f)
    else if fileType = "json" then ReadJSON (jsonFile L.unmarshal f) seed
    else .error .unsupportedFormat

/-- `ToCSV`: the result of a conversion that succeeds is the number that
`fmt.Printf` reports, `len(records)-1`.  `created` tells whether the output
file can be written. -/
def ToCSV (L : Libs) (seed : Nat) (created : Bool) (f : File) : Except Error Int :=
  match Read L seed f with
  | .error e => .error e
  | .ok records =>
    match WriteCSV L.csvWrite records created with
    | .error e => .error e
    | .ok _ => .ok ((records.length : Int) - 1)

/-- `ToJSON`: the result of a conversion that succeeds is the number that
`fmt.Printf` reports, `len(records)-1`.  `encoded` tells whether
`encoder.Encode` succeeds. -/
def ToJSON (L : Libs) (seed : Nat) (created encoded : Bool) (f : File) : Except Error Int :=
  match Read L seed f with
  | .error e => .error e
  | .ok records =>
    match WriteJSON records created encoded with
    | .error e => .error e
    | .ok _ => .ok ((records.length : Int) - 1)

/-- `ToXLSX`: the result of a conversion that succeeds is the number that
`fmt.Printf` reports, `len(records)-1`. -/
def ToXLSX (L : Libs) (seed : Nat) (created : Bool) (f : File) : Except Error Int :=
  match Read L seed f with
  | .error e => .error e
  | .ok records =>
    match WriteXLSX records created with
    | .error e => .error e
    | .ok _ => .ok ((records.length : Int) - 1)

/-- The scan of `filepath.Ext` from the end of the path: `rev` is what is
left of the path, last byte first, and `acc` the bytes passed so far. -/
def extScan : Bytes → Bytes → Bytes
  | [], _ => []
  | c :: rev, acc =>
    if c = 0x2F then []
    else if c = 0x2E then c :: acc
    else extScan rev (c :: acc)

/-- `filepath.Ext`: the suffix of the path from the last dot of its last
element on, empty when that element has no dot.  The path separator is `/`. -/
def Ext (path : Bytes) : Bytes := extScan path.reverse []

/-- `Convert`: the conversion chosen by the extension of the output path. -/
def Convert (L : Libs) (seed : Nat) (created encoded : Bool) (f : File) (out : Bytes) :
    Except Error Int :=
  let ext := L.toLower (Ext out)
  if ext = ascii ".csv" then ToCSV L seed created f
  else if ext = ascii ".json" then ToJSON L seed created encoded f
  else if ext = ascii ".xlsx" then ToXLSX L seed created f
  else .error .unsupportedOutput

/-! ## UTF-16 text -/

/-- The bytes of UTF-16 code units, low byte first. -/
def utf16le (units : List Nat) : Bytes := units.flatMap (fun u => [u % 256, u / 256])

/-- The bytes of UTF-16 code units, high byte first. -/
def utf16be (units : List Nat) : Bytes := units.flatMap (fun u => [u / 256, u % 256])

/-! ## Reference definitions -/

/-- Well-formed UTF-8, after the table of well-formed byte sequences of the
Unicode standard: the string is made of sequences of the forms
`00..7F`, `C2..DF 80..BF`, `E0 A0..BF 80..BF`, `E1..EC 80..BF 80..BF`,
`ED 80..9F 80..BF`, `EE..EF 80..BF 80..BF`, `F0 90..BF 80..BF 80..BF`,
`F1..F3 80..BF 80..BF 80..BF` and `F4 80..8F 80..BF 80..BF`. -/
def wellFormed : Bytes → Bool
  | [] => true
  | b0 :: rest =>
    if b0 ≤ 0x7F then wellFormed rest
    else
      match rest with
      | [] => false
      | b1 :: rest1 =>
        if 0xC2 ≤ b0 ∧ b0 ≤ 0xDF ∧ 0x80 ≤ b1 ∧ b1 ≤ 0xBF then wellFormed rest1
        else
          match rest1 with
          | [] => false
          | b2 :: rest2 =>
            if ((b0 = 0xE0 ∧ 0xA0 ≤ b1 ∧ b1 ≤ 0xBF) ∨
                (0xE1 ≤ b0 ∧ b0 ≤ 0xEC ∧ 0x80 ≤ b1 ∧ b1 ≤ 0xBF) ∨
                (b0 = 0xED ∧ 0x80 ≤ b1 ∧ b1 ≤ 0x9F) ∨
                (0xEE ≤ b0 ∧ b0 ≤ 0xEF ∧ 0x80 ≤ b1 ∧ b1 ≤ 0xBF)) ∧
                0x80 ≤ b2 ∧ b2 ≤ 0xBF then wellFormed rest2
            else
              match rest2 with
              | [] => false
              | b3 :: rest3 =>
                if ((b0 = 0xF0 ∧ 0x90 ≤ b1 ∧ b1 ≤ 0xBF) ∨
                    (0xF1 ≤ b0 ∧ b0 ≤ 0xF3 ∧ 0x80 ≤ b1 ∧ b1 ≤ 0xBF) ∨
                    (b0 = 0xF4 ∧ 0x80 ≤ b1 ∧ b1 ≤ 0x8F)) ∧
                    0x80 ≤ b2 ∧ b2 ≤ 0xBF ∧ 0x80 ≤ b3 ∧ b3 ≤ 0xBF then wellFormed rest3
                else false

/-- One step of `utf8.Valid` against one step of the table of well-formed
sequences: both fail at the head of the string, or both pass over the same
bytes. -/
def SameStep (s : Bytes) : Prop :=
  (Valid s = false ∧ wellFormed s = false) ∨
    ∃ t : Bytes, t.length < s.length ∧ Valid s = Valid t ∧ wellFormed s = wellFormed t

/-- The first step of the reference procedure for `sanitize`: every CR LF
pair, every other CR and every other LF becomes one space. -/
def refNewlines : Bytes → Bytes
  | [] => []
  | [c] => if c = 0x0D ∨ c = 0x0A then [0x20] else [c]
  | c :: d :: rest =>
    if c = 0x0D ∧ d = 0x0A then 0x20 :: refNewlines rest
    else if c = 0x0D ∨ c = 0x0A then 0x20 :: refNewlines (d :: rest)
    else c :: refNewlines (d :: rest)

/-- The second step of the reference procedure: every run of two or more
spaces becomes a single space. -/
def refCollapse : Bytes → Bytes
  | [] => []
  | [c] => [c]
  | c :: d :: rest =>
    if c = 0x20 ∧ d = 0x20 then refCollapse (d :: rest)
    else c :: refCollapse (d :: rest)

/-- The third step of the reference procedure as the claim words it: the
space characters (U+0020) at the start and at the end are removed, and
nothing else. -/
def refTrim (s : Bytes) : Bytes :=
  (s.dropWhile (fun c => c = 0x20)).rdropWhile (fun c => c = 0x20)

/-- The reference procedure for `sanitize`, as the claim words it. -/
def sanitizeRef (s : Bytes) : Bytes := refTrim (refCollapse (refNewlines s))

/-! ## encoding/csv, as `WriteCSV` and `ReadCSV` set it up

The writer with its defaults (comma, `UseCRLF` unset); the reader with the
comma, no comment character, `LazyQuotes` set and `FieldsPerRecord = -1`. -/

/-- `Writer.fieldNeedsQuotes`. -/
def fieldNeedsQuotes (field : Bytes) : Bool :=
  if field = [] then false
  else if field = [0x5C, 0x2E] then true
  else if field.any (fun c => c = 0x0A || c = 0x0D || c = 0x22 || c = 0x2C) then true
  else IsSpace (DecodeRune field).1

/-- The loop of `Writer.Write` over a field it puts in quotes: a quote is
written twice, every other byte as it is. -/
def writeQuoted : Bytes → Bytes
  | [] => []
  | c :: rest => if c = 0x22 then 0x22 :: 0x22 :: writeQuoted rest else c :: writeQuoted rest

/-- What `Writer.Write` writes for one field. -/
def writeField (field : Bytes) : Bytes :=
  if fieldNeedsQuotes field then 0x22 :: (writeQuoted field ++ [0x22]) else field

/-- What `Writer.Write` writes after the first field of a record: a comma
before each further field, and the newline at the end. -/
def writeRest : List Bytes → Bytes
  | [] => [0x0A]
  | field :: rest => 0x2C :: (writeField field ++ writeRest rest)

/-- `Writer.Write`: the text written for one record. -/
def writeRecord : List Bytes → Bytes
  | [] => [0x0A]
  | field :: rest => writeField field ++ writeRest rest

/-- The text in the file after the `Write` calls of `WriteCSV` and the
deferred `Flush`. -/
def csvWriter (records : Records) : Bytes := records.flatMap writeRecord

/-- `lengthNL`: one for a line that ends in `\n`, zero otherwise. -/
def lengthNL (line : Bytes) : Nat := if line.getLast? = some 0x0A then 1 else 0

/-- The lines that `Reader.readLine` hands out for a text, call after call:
`cur` is the part of the current line passed over.  A line goes up to and
with its `\n`, and `\r\n` at its end is made `\n`; the last line of a text
that does not end in `\n` loses a `\r` at its end. -/
def readLines : Bytes → Bytes → List Bytes
  | cur, [] =>
    if cur = [] then []
    else [if cur.getLast? = some 0x0D then cur.dropLast else cur]
  | cur, c :: rest =>
    if c = 0x0A then
      (if cur.getLast? = some 0x0D then cur.dropLast ++ [0x0A] else cur ++ [0x0A]) ::
        readLines [] rest
    else readLines (cur ++ [c]) rest

/-- The loop `parseField` of `Reader.readRecord`, a byte or a field at a
step.  `quoted` is `none` at the start of a field and `some buf` inside a
field in quotes of which `buf` has been read; `line` is what is left of the
current line, `more` the lines not yet read, `fields` the fields of the
record so far.  The result is the record and the lines left.  `fuel` bounds
the steps. -/
def parseField : Nat → Option Bytes → Bytes → List Bytes → List Bytes → List Bytes × List Bytes
  | 0, _, _, more, fields => (fields, more)
  | fuel + 1, none, line, more, fields =>
    if line.head? = some 0x22 then parseField fuel (some []) line.tail more fields
    else if 0x2C ∈ line then
      parseField fuel none (line.dropWhile (fun c => c ≠ 0x2C)).tail more
        (fields ++ [line.takeWhile (fun c => c ≠ 0x2C)])
    else (fields ++ [line.take (line.length - lengthNL line)], more)
  | fuel + 1, some buf, line, more, fields =>
    match line with
    | [] =>
      match more with
      | [] => (fields ++ [buf], [])
      | next :: more2 => parseField fuel (some buf) next more2 fields
    | c :: rest =>
      if c = 0x22 then
        if rest.head? = some 0x22 then parseField fuel (some (buf ++ [0x22])) rest.tail more fields
        else if rest.head? = some 0x2C then parseField fuel none rest.tail more (fields ++ [buf])
        else if rest.length = lengthNL rest then (fields ++ [buf], more)
        else parseField fuel (some (buf ++ [0x22])) rest more fields
      else parseField fuel (some (buf ++ [c])) rest more fields

/-- The records of `Reader.Read`, call after call up to `io.EOF`, from the
lines of the text: a line that is empty or only `\n` is passed over, and a
record takes the lines its quoted fields run over.  `fuel` bounds the
records. -/
def readRecords : Nat → List Bytes → Records
  | 0, _ => []
  | _ + 1, [] => []
  | fuel + 1, line :: more =>
    if line.length = lengthNL line then readRecords fuel more
    else
      let parsed := parseField (line.length + more.flatten.length + more.length + 1)
        none line more []
      parsed.1 :: readRecords fuel parsed.2

/-- The results of the `Read` calls of `ReadCSV` on a text, up to `io.EOF`:
with `LazyQuotes` and `FieldsPerRecord = -1` no call fails. -/
def csvReader (text : Bytes) : List (Option (List Bytes)) :=
  (readRecords (readLines [] text).length (readLines [] text)).map some

/-- A string of printable ASCII characters, U+0020 to U+007E. -/
def printable (s : Bytes) : Bool := s.all (fun c => 0x20 ≤ c && c ≤ 0x7E)

/-! ## Facts about the decoder -/

theorem decode2_spec (s0 : Nat) (rest : Bytes) :
    decode2 s0 rest = (RuneError, 1) ∨
    ∃ s1 t, rest = s1 :: t ∧ 0x80 ≤ s1 ∧ (decode2 s0 rest).2 = 2 ∧
      ∀ v, decode2 s0 (s1 :: v) = decode2 s0 rest := by
  cases rest with
  | nil => simp [decode2]
  | cons s1 t =>
    by_cases h : isCont s1 = true
    · right
      refine ⟨s1, t, rfl, ?_, ?_, ?_⟩
      · simp [isCont] at h; omega
      · simp [decode2, h]
      · intro v; simp [decode2, h]
    · left; simp [decode2, h]

theorem decode3_spec (s0 lo hi : Nat) (rest : Bytes) (hlo : 0x80 ≤ lo) :
    decode3 s0 lo hi rest = (RuneError, 1) ∨
    ∃ s1 s2 t, rest = s1 :: s2 :: t ∧ 0x80 ≤ s1 ∧ 0x80 ≤ s2 ∧
      (decode3 s0 lo hi rest).2 = 3 ∧
      ∀ v, decode3 s0 lo hi (s1 :: s2 :: v) = decode3 s0 lo hi rest := by
  match rest with
  | [] => simp [decode3]
  | [_] => simp [decode3]
  | s1 :: s2 :: t =>
    by_cases h1 : (decide (s1 < lo) || decide (hi < s1)) = true
    · left; simp [decode3, h1]
    · by_cases h2 : isCont s2 = true
      · right
        refine ⟨s1, s2, t, rfl, ?_, ?_, ?_, ?_⟩
        · simp at h1; omega
        · simp [isCont] at h2; omega
        · simp [decode3, h1, h2]
        · intro v; simp [decode3, h1, h2]
      · left; simp [decode3, h1, h2]

theorem decode4_spec (s0 lo hi : Nat) (rest : Bytes) (hlo : 0x80 ≤ lo) :
    decode4 s0 lo hi rest = (RuneError, 1) ∨
    ∃ s1 s2 s3 t, rest = s1 :: s2 :: s3 :: t ∧ 0x80 ≤ s1 ∧ 0x80 ≤ s2 ∧ 0x80 ≤ s3 ∧
      (decode4 s0 lo hi rest).2 = 4 ∧
      ∀ v, decode4 s0 lo hi (s1 :: s2 :: s3 :: v) = decode4 s0 lo hi rest := by
  match rest with
  | [] => simp [decode4]
  | [_] => simp [decode4]
  | [_, _] => simp [decode4]
  | s1 :: s2 :: s3 :: t =>
    by_cases h1 : (decide (s1 < lo) || decide (hi < s1)) = true
    · left; simp [decode4, h1]
    · by_cases h2 : isCont s2 = true
      · by_cases h3 : isCont s3 = true
        · right
          refine ⟨s1, s2, s3, t, rfl, ?_, ?_, ?_, ?_, ?_⟩
          · simp at h1; omega
          · simp [isCont] at h2; omega
          · simp [isCont] at h3; omega
          · simp [decode4, h1, h2, h3]
          · intro v; simp [decode4, h1, h2, h3]
        · left; simp [decode4, h1, h2, h3]
      · left; simp [decode4, h1, h2]

/-- A decoding is an error of width one, or an ASCII byte, or a multi-byte
encoding made of bytes from 0x80 up that every continuation of the input
decodes alike. -/
theorem DecodeRune_spec (s0 : Nat) (rest : Bytes) :
    DecodeRune (s0 :: rest) = (RuneError, 1) ∨
    (s0 < 0x80 ∧ DecodeRune (s0 :: rest) = (s0, 1)) ∨
    ∃ enc t, s0 :: rest = enc ++ t ∧ 2 ≤ enc.length ∧ (∀ b ∈ enc, 0x80 ≤ b) ∧
      (DecodeRune (s0 :: rest)).2 = enc.length ∧
      ∀ v, DecodeRune (enc ++ v) = DecodeRune (s0 :: rest) := by
  have two : 0x80 ≤ s0 → DecodeRune (s0 :: rest) = decode2 s0 rest →
      (∀ v, DecodeRune (s0 :: v) = decode2 s0 v) →
      DecodeRune (s0 :: rest) = (RuneError, 1) ∨
      (s0 < 0x80 ∧ DecodeRune (s0 :: rest) = (s0, 1)) ∨
      ∃ enc t, s0 :: rest = enc ++ t ∧ 2 ≤ enc.length ∧ (∀ b ∈ enc, 0x80 ≤ b) ∧
        (DecodeRune (s0 :: rest)).2 = enc.length ∧
        ∀ v, DecodeRune (enc ++ v) = DecodeRune (s0 :: rest) := by
    intro h0 he hv
    rcases decode2_spec s0 rest with h | ⟨s1, t, rfl, h1, hw, hext⟩
    · left; rw [he, h]
    · right; right
      refine ⟨[s0, s1], t, rfl, by simp, ?_, ?_, ?_⟩
      · intro b hb; simp at hb; rcases hb with rfl | rfl <;> assumption
      · rw [he, hw]; rfl
      · intro v; rw [he, ← hext v]; exact hv _
  have three : ∀ lo hi, 0x80 ≤ lo → 0x80 ≤ s0 →
      (∀ v, DecodeRune (s0 :: v) = decode3 s0 lo hi v) →
      DecodeRune (s0 :: rest) = (RuneError, 1) ∨
      (s0 < 0x80 ∧ DecodeRune (s0 :: rest) = (s0, 1)) ∨
      ∃ enc t, s0 :: rest = enc ++ t ∧ 2 ≤ enc.length ∧ (∀ b ∈ enc, 0x80 ≤ b) ∧
        (DecodeRune (s0 :: rest)).2 = enc.length ∧
        ∀ v, DecodeRune (enc ++ v) = DecodeRune (s0 :: rest) := by
    intro lo hi hlo h0 hv
    rcases decode3_spec s0 lo hi rest hlo with h | ⟨s1, s2, t, rfl, h1, h2, hw, hext⟩
    · left; rw [hv, h]
    · right; right
      refine ⟨[s0, s1, s2], t, rfl, by simp, ?_, ?_, ?_⟩
      · intro b hb; simp at hb; rcases hb with rfl | rfl | rfl <;> assumption
      · rw [hv, hw]; rfl
      · intro v; rw [hv, ← hext v]; exact hv _
  have four : ∀ lo hi, 0x80 ≤ lo → 0x80 ≤ s0 →
      (∀ v, DecodeRune (s0 :: v) = decode4 s0 lo hi v) →
      DecodeRune (s0 :: rest) = (RuneError, 1) ∨
      (s0 < 0x80 ∧ DecodeRune (s0 :: rest) = (s0, 1)) ∨
      ∃ enc t, s0 :: rest = enc ++ t ∧ 2 ≤ enc.length ∧ (∀ b ∈ enc, 0x80 ≤ b) ∧
        (DecodeRune (s0 :: rest)).2 = enc.length ∧
        ∀ v, DecodeRune (enc ++ v) = DecodeRune (s0 :: rest) := by
    intro lo hi hlo h0 hv
    rcases decode4_spec s0 lo hi rest hlo with h | ⟨s1, s2, s3, t, rfl, h1, h2, h3, hw, hext⟩
    · left; rw [hv, h]
    · right; right
      refine ⟨[s0, s1, s2, s3], t, rfl, by simp, ?_, ?_, ?_⟩
      · intro b hb; simp at hb; rcases hb with rfl | rfl | rfl | rfl <;> assumption
      · rw [hv, hw]; rfl
      · intro v; rw [hv, ← hext v]; exact hv _
  by_cases c1 : s0 < 0x80
  · right; left; exact ⟨c1, by simp [DecodeRune, c1]⟩
  by_cases c2 : s0 < 0xC2
  · left; simp [DecodeRune, c1, c2]
  by_cases c3 : s0 ≤ 0xDF
  · exact two (by omega) (by simp [DecodeRune, c1, c2, c3]) (by intro v; simp [DecodeRune, c1, c2, c3])
  by_cases c4 : s0 = 0xE0
  · exact three 0xA0 0xBF (by omega) (by omega) (by intro v; simp [DecodeRune, c4])
  by_cases c5 : s0 = 0xED
  · exact three 0x80 0x9F (by omega) (by omega) (by intro v; simp [DecodeRune, c5])
  by_cases c6 : s0 ≤ 0xEF
  · exact three 0x80 0xBF (by omega) (by omega)
      (by intro v; simp [DecodeRune, c1, c2, c3, c4, c5, c6])
  by_cases c7 : s0 = 0xF0
  · exact four 0x90 0xBF (by omega) (by omega) (by intro v; simp [DecodeRune, c7])
  by_cases c8 : s0 ≤ 0xF3
  · exact four 0x80 0xBF (by omega) (by omega)
      (by intro v; simp [DecodeRune, c1, c2, c3, c4, c5, c6, c7, c8])
  by_cases c9 : s0 = 0xF4
  · exact four 0x80 0x8F (by omega) (by omega) (by intro v; simp [DecodeRune, c9])
  left; simp [DecodeRune, c1, c2, c3, c4, c5, c6, c7, c8, c9]

theorem IsSpace_RuneError : IsSpace RuneError = false := by decide

theorem DecodeRune_width_pos (c : Nat) (t : Bytes) : 1 ≤ (DecodeRune (c :: t)).2 := by
  rcases DecodeRune_spec c t with h | ⟨_, h⟩ | ⟨enc, _, _, h2, _, hw, _⟩
  · rw [h]
  · rw [h]
  · omega

theorem DecodeRune_nil : DecodeRune [] = (RuneError, 0) := rfl

/-- A white-space rune at the head of `t` is the same rune at the head of
every string that `t` is a prefix of. -/
theorem prefix_decode (t u : Bytes) (hp : t <+: u) (hs : IsSpace (DecodeRune t).1 = true) :
    DecodeRune u = DecodeRune t := by
  obtain ⟨x, rfl⟩ := hp
  cases t with
  | nil => simp [DecodeRune_nil, IsSpace_RuneError] at hs
  | cons c r =>
    rcases DecodeRune_spec c r with h | ⟨hc, h⟩ | ⟨enc, y, he, _, _, _, hext⟩
    · rw [h] at hs; simp [IsSpace_RuneError] at hs
    · rw [h]; simp [DecodeRune, hc]
    · rw [he, List.append_assoc, hext, ← he]

/-- The width of a white-space rune at the head of `s` is at most the length of `s`. -/
theorem DecodeRune_width_le (s : Bytes) (hs : IsSpace (DecodeRune s).1 = true) :
    (DecodeRune s).2 ≤ s.length := by
  cases s with
  | nil => simp [DecodeRune_nil, IsSpace_RuneError] at hs
  | cons c r =>
    rcases DecodeRune_spec c r with h | ⟨hc, h⟩ | ⟨enc, y, he, _, _, hw, _⟩
    · rw [h] at hs; simp [IsSpace_RuneError] at hs
    · rw [h]; simp
    · rw [hw, he]; simp

/-- The bytes of a white-space rune at the head of `s` are ASCII white space
(one byte) or all at least 0x80. -/
theorem DecodeRune_space_bytes (s : Bytes) (hs : IsSpace (DecodeRune s).1 = true) :
    ∀ b ∈ s.take (DecodeRune s).2, asciiSpace b = true ∨ 0x80 ≤ b := by
  cases s with
  | nil => simp
  | cons c r =>
    rcases DecodeRune_spec c r with h | ⟨hc, h⟩ | ⟨enc, y, he, _, hb, hw, _⟩
    · rw [h] at hs; simp [IsSpace_RuneError] at hs
    · rw [h] at hs ⊢
      intro b hb
      simp at hb
      subst hb
      left
      simp only [IsSpace, asciiSpace] at hs ⊢
      simp at hs ⊢
      omega
    · rw [hw, he]
      intro b hb'
      simp at hb'
      exact Or.inr (hb b hb')

theorem IsSpace_ascii (c : Nat) (hc : c < 0x80) : IsSpace c = asciiSpace c := by
  simp only [IsSpace, asciiSpace]
  rw [Bool.eq_iff_iff]
  simp
  omega

/-! ## Facts about the backwards decoder -/

theorem lastRuneBack_le (k : Nat) (rev : Bytes) : lastRuneBack k rev ≤ rev.length := by
  induction k generalizing rev with
  | zero => cases rev <;> simp [lastRuneBack]
  | succ k ih =>
    cases rev with
    | nil => simp [lastRuneBack]
    | cons b rev =>
      simp only [lastRuneBack]
      split_ifs
      · simp
      · have := ih rev; simp; omega

/-- The last rune is an error of width one, or an ASCII byte, or the decoding
of a suffix that it fills entirely. -/
theorem DecodeLastRune_spec (s : Bytes) (hs : s ≠ []) :
    DecodeLastRune s = (RuneError, 1) ∨
    (∃ x last, s = x ++ [last] ∧ last < 0x80 ∧ DecodeLastRune s = (last, 1)) ∨
    (∃ x z, s = x ++ z ∧ z ≠ [] ∧ DecodeLastRune s = DecodeRune z ∧
      (DecodeRune z).2 = z.length) := by
  obtain ⟨x, last, rfl⟩ : ∃ x last, s = x ++ [last] := by
    rcases List.eq_nil_or_concat s with h | ⟨x, last, h⟩
    · exact absurd h hs
    · exact ⟨x, last, by simpa using h⟩
  by_cases hl : last < 0x80
  · right; left
    exact ⟨x, last, rfl, hl, by simp [DecodeLastRune, hl]⟩
  · have hb := lastRuneBack_le 3 x.reverse
    simp only [List.length_reverse] at hb
    have hlen : (x ++ [last]).length = x.length + 1 := by simp
    by_cases he : (x.length - lastRuneBack 3 x.reverse) +
        (DecodeRune ((x ++ [last]).drop (x.length - lastRuneBack 3 x.reverse))).2
          = x.length + 1
    · right; right
      refine ⟨(x ++ [last]).take (x.length - lastRuneBack 3 x.reverse),
        (x ++ [last]).drop (x.length - lastRuneBack 3 x.reverse), ?_, ?_, ?_, ?_⟩
      · simp
      · simp; omega
      · simp [DecodeLastRune, hl, he]
      · simp; omega
    · left
      simp [DecodeLastRune, hl, he]

theorem DecodeLastRune_width_pos (s : Bytes) (hs : s ≠ []) : 1 ≤ (DecodeLastRune s).2 := by
  rcases DecodeLastRune_spec s hs with h | ⟨_, _, _, _, h⟩ | ⟨x, z, _, hz, h, hw⟩
  · rw [h]
  · rw [h]
  · rw [h, hw]
    cases z with
    | nil => exact absurd rfl hz
    | cons => simp

theorem DecodeLastRune_width_le (s : Bytes) (hs : s ≠ []) :
    (DecodeLastRune s).2 ≤ s.length := by
  have hpos : 1 ≤ s.length := by
    cases s with
    | nil => exact absurd rfl hs
    | cons => simp
  rcases DecodeLastRune_spec s hs with h | ⟨_, _, _, _, h⟩ | ⟨x, z, rfl, hz, h, hw⟩
  · rw [h]; exact hpos
  · rw [h]; exact hpos
  · rw [h, hw]; simp

/-! ## Facts about trimming -/

/-- Induction on the length of a byte string. -/
theorem length_induction {P : Bytes → Prop}
    (step : ∀ s, (∀ t : Bytes, t.length < s.length → P t) → P s) (s : Bytes) : P s := by
  suffices H : ∀ n (s : Bytes), s.length < n → P s from H _ s (Nat.lt_succ_self _)
  intro n
  induction n with
  | zero => intro s hs; omega
  | succ n ih =>
    intro s hs
    exact step s (fun t ht => ih t (by omega))

theorem trimLeftFuel_nil (n : Nat) : trimLeftFuel n [] = [] := by
  cases n <;> rfl

theorem trimLeftFuel_fuel (n m : Nat) (s : Bytes) (hn : s.length ≤ n) (hm : s.length ≤ m) :
    trimLeftFuel n s = trimLeftFuel m s := by
  induction n generalizing m s with
  | zero =>
    have : s = [] := List.length_eq_zero.mp (Nat.le_zero.mp hn)
    subst this
    simp [trimLeftFuel_nil]
  | succ n ih =>
    cases s with
    | nil => simp [trimLeftFuel_nil]
    | cons c t =>
      cases m with
      | zero => simp at hm
      | succ m =>
        simp only [trimLeftFuel]
        split_ifs with h
        · have hw := DecodeRune_width_pos c t
          apply ih
          · simp at hn ⊢; omega
          · simp at hm ⊢; omega
        · rfl

theorem TrimLeftFunc_nil : TrimLeftFunc [] = [] := rfl

theorem TrimLeftFunc_cons (c : Nat) (t : Bytes) :
    TrimLeftFunc (c :: t) =
      if IsSpace (DecodeRune (c :: t)).1 then
        TrimLeftFunc ((c :: t).drop (DecodeRune (c :: t)).2)
      else c :: t := by
  unfold TrimLeftFunc
  simp only [List.length_cons, trimLeftFuel]
  split_ifs with h
  · have hw := DecodeRune_width_pos c t
    apply trimLeftFuel_fuel
    · simp; omega
    · exact le_refl _
  · rfl

theorem trimRightFuel_nil (n : Nat) : trimRightFuel n [] = [] := by
  cases n <;> rfl

theorem trimRightFuel_fuel (n m : Nat) (s : Bytes) (hn : s.length ≤ n) (hm : s.length ≤ m) :
    trimRightFuel n s = trimRightFuel m s := by
  induction n generalizing m s with
  | zero =>
    have : s = [] := List.length_eq_zero.mp (Nat.le_zero.mp hn)
    subst this
    simp [trimRightFuel_nil]
  | succ n ih =>
    cases s with
    | nil => simp [trimRightFuel_nil]
    | cons c t =>
      cases m with
      | zero => simp at hm
      | succ m =>
        simp only [trimRightFuel]
        split_ifs with h
        · have hw := DecodeLastRune_width_pos (c :: t) (by simp)
          apply ih
          · simp at hn ⊢; omega
          · simp at hm ⊢; omega
        · rfl

theorem TrimRightFunc_nil : TrimRightFunc [] = [] := rfl

theorem TrimRightFunc_eq (s : Bytes) (hs : s ≠ []) :
    TrimRightFunc s =
      if IsSpace (DecodeLastRune s).1 then
        TrimRightFunc (s.take (s.length - (DecodeLastRune s).2))
      else s := by
  cases s with
  | nil => exact absurd rfl hs
  | cons c t =>
    unfold TrimRightFunc
    simp only [List.length_cons, trimRightFuel]
    split_ifs with h
    · have hw := DecodeLastRune_width_pos (c :: t) (by simp)
      apply trimRightFuel_fuel
      · simp at hw ⊢; omega
      · exact le_refl _
    · rfl

/-- Trimming on the left leaves a suffix. -/
theorem TrimLeftFunc_suffix (s : Bytes) : TrimLeftFunc s <:+ s := by
  induction s using length_induction with
  | step s ih =>
    cases s with
    | nil => simp [TrimLeftFunc_nil]
    | cons c t =>
      rw [TrimLeftFunc_cons]
      split_ifs with hsp
      · have hw := DecodeRune_width_pos c t
        have := ih ((c :: t).drop (DecodeRune (c :: t)).2) (by simp; omega)
        exact this.trans (List.drop_suffix _ _)
      · exact List.suffix_refl _

/-- What trimming on the left leaves is empty or starts with a rune that is
not white space. -/
theorem TrimLeftFunc_head (s : Bytes) :
    TrimLeftFunc s = [] ∨ IsSpace (DecodeRune (TrimLeftFunc s)).1 = false := by
  induction s using length_induction with
  | step s ih =>
    cases s with
    | nil => simp [TrimLeftFunc_nil]
    | cons c t =>
      rw [TrimLeftFunc_cons]
      split_ifs with hsp
      · have hw := DecodeRune_width_pos c t
        exact ih ((c :: t).drop (DecodeRune (c :: t)).2) (by simp; omega)
      · right; simpa using hsp

/-- A string that starts with a rune that is not white space is its own left trim. -/
theorem TrimLeftFunc_fix (s : Bytes) (h : IsSpace (DecodeRune s).1 = false) :
    TrimLeftFunc s = s := by
  cases s with
  | nil => rfl
  | cons c t => rw [TrimLeftFunc_cons]; simp [h]

/-- Trimming on the right leaves a prefix. -/
theorem TrimRightFunc_pre (s : Bytes) : TrimRightFunc s <+: s := by
  induction s using length_induction with
  | step s ih =>
    by_cases hs : s = []
    · subst hs; simp [TrimRightFunc_nil]
    · rw [TrimRightFunc_eq s hs]
      split_ifs with hsp
      · have hw := DecodeLastRune_width_pos s hs
        have hl : 1 ≤ s.length := by
          cases s with
          | nil => exact absurd rfl hs
          | cons => simp
        have := ih (s.take (s.length - (DecodeLastRune s).2)) (by simp; omega)
        exact this.trans (List.take_prefix _ _)
      · exact List.prefix_refl _

/-- What trimming on the right leaves is empty or ends with a rune that is
not white space. -/
theorem TrimRightFunc_last (s : Bytes) :
    TrimRightFunc s = [] ∨ IsSpace (DecodeLastRune (TrimRightFunc s)).1 = false := by
  induction s using length_induction with
  | step s ih =>
    by_cases hs : s = []
    · subst hs; simp [TrimRightFunc_nil]
    · rw [TrimRightFunc_eq s hs]
      split_ifs with hsp
      · have hw := DecodeLastRune_width_pos s hs
        have hl : 1 ≤ s.length := by
          cases s with
          | nil => exact absurd rfl hs
          | cons => simp
        exact ih (s.take (s.length - (DecodeLastRune s).2)) (by simp; omega)
      · right; simpa using hsp

/-- A string that ends with a rune that is not white space is its own right trim. -/
theorem TrimRightFunc_fix (s : Bytes) (h : IsSpace (DecodeLastRune s).1 = false) :
    TrimRightFunc s = s := by
  by_cases hs : s = []
  · subst hs; rfl
  · rw [TrimRightFunc_eq s hs]; simp [h]

theorem DecodeRune_ascii (c : Nat) (t : Bytes) (h : c < 0x80) :
    DecodeRune (c :: t) = (c, 1) := by
  simp [DecodeRune, h]

theorem dropWhile_head_not (p : Nat → Bool) (l : Bytes) (d : Nat) (u : Bytes)
    (h : l.dropWhile p = d :: u) : ¬ p d = true := by
  induction l with
  | nil => simp at h
  | cons a l ih =>
    by_cases ha : p a = true
    · rw [List.dropWhile_cons_of_pos ha] at h; exact ih h
    · rw [List.dropWhile_cons_of_neg ha] at h
      cases h
      exact ha

theorem asciiSpace_lt (c : Nat) (h : asciiSpace c = true) : c < 0x80 := by
  simp [asciiSpace] at h; omega

theorem TrimLeftFunc_ascii (c : Nat) (t : Bytes) (h : asciiSpace c = true) :
    TrimLeftFunc (c :: t) = TrimLeftFunc t := by
  have hc := asciiSpace_lt c h
  rw [TrimLeftFunc_cons, DecodeRune_ascii c t hc]
  simp [IsSpace_ascii c hc, h]

theorem TrimLeftFunc_dropWhile (s : Bytes) :
    TrimLeftFunc s = TrimLeftFunc (s.dropWhile asciiSpace) := by
  induction s with
  | nil => rfl
  | cons c t ih =>
    by_cases h : asciiSpace c = true
    · rw [TrimLeftFunc_ascii c t h, List.dropWhile_cons_of_pos h, ih]
    · rw [List.dropWhile_cons_of_neg h]

theorem DecodeLastRune_ascii (x : Bytes) (d : Nat) (h : d < 0x80) :
    DecodeLastRune (x ++ [d]) = (d, 1) := by
  simp [DecodeLastRune, h]

theorem TrimRightFunc_ascii (x : Bytes) (d : Nat) (h : asciiSpace d = true) :
    TrimRightFunc (x ++ [d]) = TrimRightFunc x := by
  have hd := asciiSpace_lt d h
  rw [TrimRightFunc_eq _ (by simp), DecodeLastRune_ascii x d hd]
  simp [IsSpace_ascii d hd, h]

theorem TrimRightFunc_append_ascii (x sp : Bytes) (h : ∀ b ∈ sp, asciiSpace b = true) :
    TrimRightFunc (x ++ sp) = TrimRightFunc x := by
  induction sp using List.reverseRecOn with
  | nil => simp
  | append_singleton sp b ih =>
    rw [← List.append_assoc, TrimRightFunc_ascii _ _ (h b (by simp))]
    exact ih (fun c hc => h c (by simp [hc]))

/-- The fast paths of `strings.TrimSpace` change nothing: it is `TrimFunc`
with `unicode.IsSpace`. -/
theorem TrimSpace_eq_TrimFunc (s : Bytes) : TrimSpace s = TrimFunc s := by
  unfold TrimSpace TrimFunc
  rw [TrimLeftFunc_dropWhile s]
  cases hd : s.dropWhile asciiSpace with
  | nil => rfl
  | cons c t =>
    have hc : ¬ asciiSpace c = true := dropWhile_head_not _ _ _ _ hd
    by_cases h80 : 0x80 ≤ c
    · simp [h80]
    · have hlt : c < 0x80 := by omega
      have hfix : TrimLeftFunc (c :: t) = c :: t := by
        apply TrimLeftFunc_fix
        rw [DecodeRune_ascii c t hlt, IsSpace_ascii c hlt]
        simpa using hc
      simp only [h80, if_false, hfix]
      have hsplit := List.takeWhile_append_dropWhile asciiSpace (c :: t).reverse
      cases hr : (c :: t).reverse.dropWhile asciiSpace with
      | nil =>
        exfalso
        rw [hr, List.append_nil] at hsplit
        have hmem : c ∈ List.takeWhile asciiSpace (c :: t).reverse := by
          rw [hsplit]; simp
        exact hc (List.mem_takeWhile_imp hmem)
      | cons d u =>
        have hdn : ¬ asciiSpace d = true := dropWhile_head_not _ _ _ _ hr
        rw [hr] at hsplit
        have hct : c :: t = (d :: u).reverse ++ (List.takeWhile asciiSpace (c :: t).reverse).reverse := by
          rw [← List.reverse_append, hsplit, List.reverse_reverse]
        have hsp : ∀ b ∈ (List.takeWhile asciiSpace (c :: t).reverse).reverse,
            asciiSpace b = true := by
          intro b hb
          exact List.mem_takeWhile_imp (List.mem_reverse.mp hb)
        have htr : TrimRightFunc (c :: t) = TrimRightFunc (d :: u).reverse := by
          conv_lhs => rw [hct]
          exact TrimRightFunc_append_ascii _ _ hsp
        rw [htr]
        by_cases hd80 : 0x80 ≤ d
        · simp [hd80]
        · have hdlt : d < 0x80 := by omega
          simp only [hd80, if_false]
          symm
          apply TrimRightFunc_fix
          rw [List.reverse_cons, DecodeLastRune_ascii _ d hdlt, IsSpace_ascii d hdlt]
          simpa using hdn

/-- Trimming white space is idempotent. -/
theorem TrimSpace_idem (s : Bytes) : TrimSpace (TrimSpace s) = TrimSpace s := by
  simp only [TrimSpace_eq_TrimFunc]
  unfold TrimFunc
  have hpre := TrimRightFunc_pre (TrimLeftFunc s)
  have hleft : TrimLeftFunc (TrimRightFunc (TrimLeftFunc s)) = TrimRightFunc (TrimLeftFunc s) := by
    apply TrimLeftFunc_fix
    by_contra hsp
    simp only [Bool.not_eq_false] at hsp
    have hext := prefix_decode _ _ hpre hsp
    rcases TrimLeftFunc_head s with h | h
    · rw [h, TrimRightFunc_nil, DecodeRune_nil, IsSpace_RuneError] at hsp
      exact Bool.false_ne_true hsp
    · rw [hext, hsp] at h
      exact absurd h (by decide)
  rw [hleft]
  rcases TrimRightFunc_last (TrimLeftFunc s) with h | h
  · rw [h]; rfl
  · exact TrimRightFunc_fix _ h

theorem TrimLeftFunc_white (ws v : Bytes) (h : White ws) :
    TrimLeftFunc (ws ++ v) = TrimLeftFunc v := by
  induction h with
  | nil => rfl
  | rune enc ws hsp hw _ ih =>
    cases enc with
    | nil => simp [DecodeRune_nil, IsSpace_RuneError] at hsp
    | cons c r =>
      have hext := prefix_decode (c :: r) (c :: r ++ (ws ++ v)) (List.prefix_append _ _) hsp
      rw [List.append_assoc]
      show TrimLeftFunc (c :: (r ++ (ws ++ v))) = _
      rw [TrimLeftFunc_cons]
      have e : c :: (r ++ (ws ++ v)) = (c :: r) ++ (ws ++ v) := rfl
      rw [e, hext, hsp, hw]
      simp only [if_true, List.drop_left]
      exact ih

/-- The first byte of a white-space rune is neither `P` nor 0xD0. -/
theorem space_first_byte (b : Nat) (r : Bytes) (h : IsSpace (DecodeRune (b :: r)).1 = true) :
    b ≠ 0x50 ∧ b ≠ 0xD0 := by
  refine ⟨?_, ?_⟩
  · rintro rfl
    simp [DecodeRune, IsSpace] at h
  · rintro rfl
    cases r with
    | nil => simp [DecodeRune, decode2, IsSpace, RuneError] at h
    | cons s1 t =>
      by_cases hc : isCont s1 = true
      · simp [DecodeRune, decode2, hc, IsSpace] at h
        omega
      · simp [DecodeRune, decode2, hc, IsSpace, RuneError] at h

/-- Trimming on the right does not use up a string that starts with a rune
that is not white space. -/
theorem TrimRightFunc_ne_nil (u : Bytes) (hu : u ≠ [])
    (hf : IsSpace (DecodeRune u).1 = false) : TrimRightFunc u ≠ [] := by
  induction u using length_induction with
  | step u ih =>
    rw [TrimRightFunc_eq u hu]
    split_ifs with hsp
    · have hw := DecodeLastRune_width_pos u hu
      have hlt : (DecodeLastRune u).2 < u.length := by
        rcases DecodeLastRune_spec u hu with h | ⟨x, last, rfl, hl, h⟩ | ⟨x, z, rfl, hz, h, hwz⟩
        · rw [h, IsSpace_RuneError] at hsp; exact absurd hsp (by decide)
        · rw [h] at hsp ⊢
          cases x with
          | nil =>
            simp only [List.nil_append] at hf
            rw [DecodeRune_ascii last [] hl, hsp] at hf
            exact absurd hf (by decide)
          | cons => simp
        · rw [h] at hsp ⊢
          cases x with
          | nil =>
            simp only [List.nil_append] at hf
            rw [hsp] at hf
            exact absurd hf (by decide)
          | cons => rw [hwz]; simp; omega
      have hne : u.take (u.length - (DecodeLastRune u).2) ≠ [] := by
        intro h0
        have := congrArg List.length h0
        simp at this
        omega
      apply ih _ (by simp; omega) hne
      by_contra hc
      simp only [Bool.not_eq_false] at hc
      rw [prefix_decode _ u (List.take_prefix _ _) hc, hc] at hf
      exact absurd hf (by decide)
    · exact hu

/-- Trimming keeps the first byte of a string that starts with an ASCII byte
that is not white space. -/
theorem TrimSpace_head (c : Nat) (rest ws : Bytes) (hws : White ws) (hc : c < 0x80)
    (hn : asciiSpace c = false) :
    ∃ r, TrimSpace (ws ++ c :: rest) = c :: r := by
  rw [TrimSpace_eq_TrimFunc]
  unfold TrimFunc
  have hsp : IsSpace (DecodeRune (c :: rest)).1 = false := by
    rw [DecodeRune_ascii c rest hc, IsSpace_ascii c hc, hn]
  rw [TrimLeftFunc_white ws _ hws, TrimLeftFunc_fix _ hsp]
  have hne := TrimRightFunc_ne_nil (c :: rest) (by simp) hsp
  obtain ⟨x, hx⟩ := TrimRightFunc_pre (c :: rest)
  cases ht : TrimRightFunc (c :: rest) with
  | nil => exact absurd ht hne
  | cons d r =>
    rw [ht] at hx
    simp only [List.cons_append, List.cons.injEq] at hx
    exact ⟨r, by rw [hx.1]⟩

theorem take_getD_zero (l : Bytes) (n : Nat) : (l.take (n + 1)).getD 0 0 = l.getD 0 0 := by
  cases l <;> simp

theorem Contains_singleton (s : Bytes) (b : Nat) : Contains s [b] = true ↔ b ∈ s := by
  induction s with
  | nil => simp [Contains]
  | cons c cs ih =>
    simp only [Contains, Bool.or_eq_true, ih, List.mem_cons]
    have : List.isPrefixOf [b] (c :: cs) = true ↔ b = c := by
      simp [List.isPrefixOf]
    rw [this]

theorem DecodeLastRune_space_bytes (s : Bytes) (hs : s ≠ [])
    (hsp : IsSpace (DecodeLastRune s).1 = true) :
    ∀ b ∈ s.drop (s.length - (DecodeLastRune s).2), asciiSpace b = true ∨ 0x80 ≤ b := by
  rcases DecodeLastRune_spec s hs with h | ⟨x, last, rfl, hl, h⟩ | ⟨x, z, rfl, hz, h, hwz⟩
  · rw [h, IsSpace_RuneError] at hsp; exact absurd hsp (by decide)
  · rw [h] at hsp ⊢
    intro b hb
    simp at hb
    subst hb
    left
    rw [← IsSpace_ascii b hl]; exact hsp
  · rw [h] at hsp ⊢
    rw [hwz]
    intro b hb
    simp at hb
    have := DecodeRune_space_bytes z hsp b
    rw [hwz, List.take_length] at this
    exact this hb

/-- Trimming on the left removes no ASCII byte other than white space. -/
theorem mem_TrimLeftFunc (s : Bytes) (b : Nat) (hb : b < 0x80) (hn : asciiSpace b = false) :
    b ∈ TrimLeftFunc s ↔ b ∈ s := by
  constructor
  · exact fun h => (TrimLeftFunc_suffix s).subset h
  · induction s using length_induction with
    | step s ih =>
      intro hmem
      cases s with
      | nil => simp at hmem
      | cons c t =>
        rw [TrimLeftFunc_cons]
        split_ifs with hsp
        · have hw := DecodeRune_width_pos c t
          apply ih _ (by simp; omega)
          rw [← List.take_append_drop (DecodeRune (c :: t)).2 (c :: t), List.mem_append] at hmem
          rcases hmem with h | h
          · rcases DecodeRune_space_bytes _ hsp b h with h1 | h1
            · rw [hn] at h1; exact absurd h1 (by decide)
            · omega
          · exact h
        · exact hmem

/-- Trimming on the right removes no ASCII byte other than white space. -/
theorem mem_TrimRightFunc (s : Bytes) (b : Nat) (hb : b < 0x80) (hn : asciiSpace b = false) :
    b ∈ TrimRightFunc s ↔ b ∈ s := by
  constructor
  · exact fun h => (TrimRightFunc_pre s).subset h
  · induction s using length_induction with
    | step s ih =>
      intro hmem
      by_cases hs : s = []
      · subst hs; simp at hmem
      · rw [TrimRightFunc_eq s hs]
        split_ifs with hsp
        · have hw := DecodeLastRune_width_pos s hs
          have hl : 1 ≤ s.length := by
            cases s with
            | nil => exact absurd rfl hs
            | cons => simp
          apply ih _ (by simp; omega)
          rw [← List.take_append_drop (s.length - (DecodeLastRune s).2) s, List.mem_append] at hmem
          rcases hmem with h | h
          · exact h
          · rcases DecodeLastRune_space_bytes s hs hsp b h with h1 | h1
            · rw [hn] at h1; exact absurd h1 (by decide)
            · omega
        · exact hmem

/-- `strings.TrimSpace` removes no ASCII byte other than white space. -/
theorem mem_TrimSpace (s : Bytes) (b : Nat) (hb : b < 0x80) (hn : asciiSpace b = false) :
    b ∈ TrimSpace s ↔ b ∈ s := by
  rw [TrimSpace_eq_TrimFunc]
  unfold TrimFunc
  rw [mem_TrimRightFunc _ b hb hn, mem_TrimLeftFunc _ b hb hn]

/-- What `strings.TrimSpace` returns is a part of its argument. -/
theorem TrimSpace_part (s : Bytes) : TrimSpace s <:+: s := by
  rw [TrimSpace_eq_TrimFunc]
  exact (TrimRightFunc_pre _).isInfix.trans (TrimLeftFunc_suffix s).isInfix

/-! ## Facts about ReplaceAll and the loop of sanitize -/

theorem Contains_iff_part (s sub : Bytes) : Contains s sub = true ↔ sub <:+: s := by
  induction s with
  | nil => simp [Contains]
  | cons c cs ih =>
    rw [Contains, Bool.or_eq_true, ih, List.infix_cons_iff, List.isPrefixOf_iff_prefix]

theorem Contains_false_of_part (s t sub : Bytes) (hts : t <:+: s)
    (h : Contains s sub = false) : Contains t sub = false := by
  by_contra hc
  simp only [Bool.not_eq_false] at hc
  rw [Contains_iff_part] at hc
  have := (Contains_iff_part s sub).mpr (hc.trans hts)
  rw [h] at this
  exact absurd this (by decide)

theorem Contains_singleton_false (s : Bytes) (b : Nat) : Contains s [b] = false ↔ b ∉ s := by
  rw [← Contains_singleton, Bool.not_eq_true]

/-- Without an occurrence of `old` there is nothing to replace. -/
theorem ReplaceAll_of_not_Contains (s old new : Bytes) (h : Contains s old = false) :
    ReplaceAll s old new = s := by
  unfold ReplaceAll
  induction s with
  | nil => rfl
  | cons c cs ih =>
    rw [Contains, Bool.or_eq_false_iff] at h
    rw [replaceAllAux, h.1]
    simp only [Bool.false_eq_true, if_false]
    rw [ih h.2]

/-- A byte of the result of a replacement comes from the string or from `new`. -/
theorem mem_replaceAllAux (old new : Bytes) (k : Nat) (s : Bytes) (b : Nat)
    (h : b ∈ replaceAllAux old new k s) : b ∈ s ∨ b ∈ new := by
  induction s generalizing k with
  | nil => simp [replaceAllAux] at h
  | cons c cs ih =>
    cases k with
    | succ k =>
      rw [replaceAllAux] at h
      rcases ih k h with h1 | h1
      · exact Or.inl (List.mem_cons_of_mem _ h1)
      · exact Or.inr h1
    | zero =>
      rw [replaceAllAux] at h
      split_ifs at h
      · rw [List.mem_append] at h
        rcases h with h | h
        · exact Or.inr h
        · rcases ih _ h with h1 | h1
          · exact Or.inl (List.mem_cons_of_mem _ h1)
          · exact Or.inr h1
      · rw [List.mem_cons] at h
        rcases h with h | h
        · exact Or.inl (by rw [h]; exact List.mem_cons_self _ _)
        · rcases ih _ h with h1 | h1
          · exact Or.inl (List.mem_cons_of_mem _ h1)
          · exact Or.inr h1

/-- Replacing a single byte by another leaves no occurrence of it. -/
theorem not_mem_ReplaceAll_single (s : Bytes) (a b : Nat) (hab : a ≠ b) :
    a ∉ ReplaceAll s [a] [b] := by
  unfold ReplaceAll
  induction s with
  | nil => simp [replaceAllAux]
  | cons c cs ih =>
    rw [replaceAllAux]
    split_ifs with h
    · simp only [List.length_singleton, Nat.sub_self, List.singleton_append, List.mem_cons]
      rintro (h1 | h1)
      · exact hab h1
      · exact ih h1
    · simp only [List.mem_cons]
      rintro (h1 | h1)
      · apply h
        simp [List.isPrefixOf, h1]
      · exact ih h1

theorem length_replaceAllAux (old new : Bytes) (k : Nat) (s : Bytes)
    (hlen : new.length ≤ old.length) :
    (replaceAllAux old new k s).length + min k s.length ≤ s.length := by
  induction s generalizing k with
  | nil => simp [replaceAllAux]
  | cons c cs ih =>
    cases k with
    | succ k =>
      rw [replaceAllAux]
      have := ih k
      simp only [List.length_cons]
      omega
    | zero =>
      rw [replaceAllAux]
      split_ifs with h
      · have hp := (List.isPrefixOf_iff_prefix.mp h).length_le
        have := ih (old.length - 1)
        simp only [List.length_cons, List.length_append] at hp ⊢
        omega
      · have := ih 0
        simp only [List.length_cons]
        omega

/-- A pass that replaces an occurrence by something shorter shortens the string. -/
theorem length_ReplaceAll_lt (s old new : Bytes) (hlen : new.length < old.length)
    (h : Contains s old = true) : (ReplaceAll s old new).length < s.length := by
  unfold ReplaceAll
  induction s with
  | nil =>
    simp [Contains] at h
    subst h
    simp at hlen
  | cons c cs ih =>
    rw [replaceAllAux]
    split_ifs with hp
    · have hpl := (List.isPrefixOf_iff_prefix.mp hp).length_le
      have := length_replaceAllAux old new (old.length - 1) cs (le_of_lt hlen)
      simp only [List.length_cons, List.length_append] at hpl ⊢
      omega
    · rw [Contains, Bool.or_eq_true] at h
      rcases h with h | h
      · exact absurd h hp
      · have := ih h
        simp only [List.length_cons]
        omega

/-- The loop of `sanitize` ends within as many passes as the string is long:
what it returns has no two spaces in a row. -/
theorem collapseSpaces_done (n : Nat) (s : Bytes) (h : s.length ≤ n) :
    Contains (collapseSpaces n s) [0x20, 0x20] = false := by
  induction n generalizing s with
  | zero =>
    have : s = [] := List.length_eq_zero.mp (Nat.le_zero.mp h)
    subst this
    rfl
  | succ n ih =>
    rw [collapseSpaces]
    split_ifs with hc
    · apply ih
      have := length_ReplaceAll_lt s [0x20, 0x20] [0x20] (by simp) hc
      omega
    · simpa using hc

/-- A string without two spaces in a row passes the loop unchanged. -/
theorem collapseSpaces_of_not_Contains (n : Nat) (s : Bytes)
    (h : Contains s [0x20, 0x20] = false) : collapseSpaces n s = s := by
  cases n with
  | zero => rfl
  | succ n => rw [collapseSpaces, h]; simp

theorem mem_collapseSpaces (n : Nat) (s : Bytes) (b : Nat) (h : b ∈ collapseSpaces n s) :
    b ∈ s ∨ b = 0x20 := by
  induction n generalizing s with
  | zero => exact Or.inl h
  | succ n ih =>
    rw [collapseSpaces] at h
    split_ifs at h
    · rcases ih _ h with h1 | h1
      · rcases mem_replaceAllAux _ _ _ _ _ h1 with h2 | h2
        · exact Or.inl h2
        · exact Or.inr (by simpa using h2)
      · exact Or.inr h1
    · exact Or.inl h

/-! ## Facts about sanitize -/

theorem not_mem_sanitize_CR (s : Bytes) : 0x0D ∉ sanitize s := by
  intro h
  unfold sanitize at h
  have h1 := (TrimSpace_part _).subset h
  rcases mem_collapseSpaces _ _ _ h1 with h2 | h2
  · rcases mem_replaceAllAux _ _ _ _ _ h2 with h3 | h3
    · exact not_mem_ReplaceAll_single _ 0x0D 0x20 (by decide) h3
    · simp at h3
  · simp at h2

theorem not_mem_sanitize_LF (s : Bytes) : 0x0A ∉ sanitize s := by
  intro h
  unfold sanitize at h
  have h1 := (TrimSpace_part _).subset h
  rcases mem_collapseSpaces _ _ _ h1 with h2 | h2
  · exact not_mem_ReplaceAll_single _ 0x0A 0x20 (by decide) h2
  · simp at h2

theorem sanitize_no_double_space (s : Bytes) : Contains (sanitize s) [0x20, 0x20] = false := by
  unfold sanitize
  exact Contains_false_of_part _ _ _ (TrimSpace_part _) (collapseSpaces_done _ _ (le_refl _))

/-- A string without CR, LF and two spaces in a row is sanitized by
trimming alone. -/
theorem sanitize_eq_TrimSpace (s : Bytes) (hcr : 0x0D ∉ s) (hlf : 0x0A ∉ s)
    (hsp : Contains s [0x20, 0x20] = false) : sanitize s = TrimSpace s := by
  have e1 : ReplaceAll s [0x0D, 0x0A] [0x20] = s := by
    apply ReplaceAll_of_not_Contains
    by_contra hc
    simp only [Bool.not_eq_false] at hc
    rw [Contains_iff_part] at hc
    exact hcr (hc.subset (by simp))
  have e2 : ReplaceAll s [0x0D] [0x20] = s :=
    ReplaceAll_of_not_Contains _ _ _ ((Contains_singleton_false _ _).mpr hcr)
  have e3 : ReplaceAll s [0x0A] [0x20] = s :=
    ReplaceAll_of_not_Contains _ _ _ ((Contains_singleton_false _ _).mpr hlf)
  unfold sanitize
  simp only [e1, e2, e3, collapseSpaces_of_not_Contains _ _ hsp]

/-- Sanitizing is idempotent. -/
theorem sanitize_idem (x : Bytes) : sanitize (sanitize x) = sanitize x := by
  rw [sanitize_eq_TrimSpace (sanitize x) (not_mem_sanitize_CR x) (not_mem_sanitize_LF x)
    (sanitize_no_double_space x)]
  unfold sanitize
  exact TrimSpace_idem _

/-! ## Facts about the readers and writers -/

theorem sanitize_nil : sanitize [] = [] := by decide

theorem length_padRow (n : Nat) (row : List Bytes) : n ≤ (padRow n row).length := by
  simp [padRow]; omega

theorem mem_padRow (n : Nat) (row : List Bytes) (c : Bytes) (h : c ∈ padRow n row) :
    c ∈ row ∨ c = [] := by
  simp only [padRow, List.mem_append, List.mem_replicate] at h
  rcases h with h | h
  · exact Or.inl h
  · exact Or.inr h.2

/-- Every row `ReadXLSX` returns is at least as wide as the first row of the sheet. -/
theorem ReadXLSX_width (opened : Option XlsxFile) (records : Records)
    (h : ReadXLSX opened = .ok records) :
    ∀ row ∈ records, (records.headD []).length ≤ row.length := by
  unfold ReadXLSX at h
  split at h
  · cases h
  · split at h
    · cases h
    · split at h
      · cases h
      · cases h
      · rename_i row0 more _
        cases h
        intro row hrow
        simp only [List.map_cons, List.headD_cons, List.mem_cons, List.mem_map] at hrow ⊢
        have h0 : (padRow row0.length (row0.map sanitize)).length = row0.length := by
          simp [padRow]
        rw [h0]
        rcases hrow with rfl | ⟨r, _, rfl⟩
        · exact le_of_eq h0.symm
        · exact length_padRow _ _

/-- Every cell `ReadXLSX` returns is sanitized. -/
theorem ReadXLSX_sanitized (opened : Option XlsxFile) (records : Records)
    (h : ReadXLSX opened = .ok records) :
    ∀ row ∈ records, ∀ cell ∈ row, sanitize cell = cell := by
  unfold ReadXLSX at h
  split at h
  · cases h
  · split at h
    · cases h
    · split at h
      · cases h
      · cases h
      · cases h
        intro row hrow cell hcell
        rw [List.mem_map] at hrow
        obtain ⟨r, _, rfl⟩ := hrow
        rcases mem_padRow _ _ _ hcell with hc | hc
        · rw [List.mem_map] at hc
          obtain ⟨x, _, rfl⟩ := hc
          exact sanitize_idem x
        · rw [hc]; exact sanitize_nil

/-- Every cell the loop of `ReadCSV` returns is sanitized. -/
theorem readCSVLoop_sanitized (reads : List (Option (List Bytes))) :
    ∀ row ∈ readCSVLoop reads, ∀ cell ∈ row, sanitize cell = cell := by
  induction reads with
  | nil => simp [readCSVLoop]
  | cons r reads ih =>
    cases r with
    | none => simpa [readCSVLoop] using ih
    | some record =>
      intro row hrow cell hcell
      simp only [readCSVLoop, List.mem_cons] at hrow
      rcases hrow with rfl | hrow
      · rw [List.mem_map] at hcell
        obtain ⟨x, _, rfl⟩ := hcell
        exact sanitize_idem x
      · exact ih row hrow cell hcell

/-- Every row `ReadJSON` returns is as wide as its header. -/
theorem ReadJSON_width (f : JsonFile) (seed : Nat) (records : Records)
    (h : ReadJSON f seed = .ok records) :
    ∀ row ∈ records, row.length = (records.headD []).length := by
  unfold ReadJSON at h
  split at h
  · cases h
  · cases h
  · cases h
  · cases h
    intro row hrow
    rw [List.mem_cons, List.mem_map] at hrow
    rcases hrow with rfl | ⟨m, _, rfl⟩
    · rfl
    · simp [projectItem]

theorem foldl_cons_eq {α β : Type} (f : α → β) (l : List α) (init : List β) :
    l.foldl (fun acc x => f x :: acc) init = (l.map f).reverse ++ init := by
  induction l generalizing init with
  | nil => rfl
  | cons a l ih => simp [ih]

/-- The object of a row, entry by entry: the last column first. -/
theorem rowItem_eq (header row : List Bytes) :
    rowItem header row = (header.enum.map (fun col => (col.2, row.getD col.1 []))).reverse := by
  unfold rowItem
  have hf : (fun (item : GoMap Bytes) (col : Nat × Bytes) =>
      (col.2, if col.1 < row.length then row.getD col.1 [] else []) :: item) =
      (fun item col => (fun (c : Nat × Bytes) => (c.2, row.getD c.1 [])) col :: item) := by
    funext item col
    split_ifs with h
    · rfl
    · simp only [List.getD_eq_getElem?_getD]
      rw [List.getElem?_eq_none (by omega)]
      rfl
  rw [hf, foldl_cons_eq, List.append_nil]

theorem lookup_of_mem {V : Type} (l : GoMap V) (k : Bytes) (v : V)
    (hn : (l.map Prod.fst).Nodup) (hm : (k, v) ∈ l) : l.lookup k = some v := by
  induction l with
  | nil => simp at hm
  | cons e l ih =>
    obtain ⟨k2, v2⟩ := e
    simp only [List.map_cons, List.nodup_cons, List.mem_map, not_exists, not_and] at hn
    rw [List.mem_cons] at hm
    rcases hm with hm | hm
    · cases hm
      simp [List.lookup]
    · have hne : k ≠ k2 := by
        rintro rfl
        exact hn.1 (k, v) hm rfl
      have hb : (k == k2) = false := by simpa using hne
      rw [List.lookup, hb]
      exact ih hn.2 hm

theorem rowItem_fst (header row : List Bytes) :
    (rowItem header row).map Prod.fst = header.reverse := by
  rw [rowItem_eq, List.map_reverse, List.map_map]
  congr 1
  have : (Prod.fst ∘ fun (col : Nat × Bytes) => (col.2, row.getD col.1 [])) = Prod.snd := by
    funext col; rfl
  rw [this, List.enum_map_snd]

theorem rowItem_keys (header row : List Bytes) (hn : header.Nodup) :
    (rowItem header row).keys.Perm header := by
  unfold GoMap.keys
  rw [rowItem_fst, (List.nodup_reverse.mpr hn).dedup]
  exact List.reverse_perm header

theorem rowItem_lookup (header row : List Bytes) (hn : header.Nodup) (i : Nat)
    (hi : i < header.length) :
    (rowItem header row).lookup (header.getD i []) = some (row.getD i []) := by
  apply lookup_of_mem
  · rw [rowItem_fst]; exact List.nodup_reverse.mpr hn
  · rw [rowItem_eq, List.mem_reverse, List.mem_map]
    refine ⟨(i, header.getD i []), ?_, rfl⟩
    rw [List.mk_mem_enum_iff_getElem?]
    simp [List.getD_eq_getElem?_getD, List.getElem?_eq_getElem hi]

/-- Every cell `ReadCSV` returns is sanitized. -/
theorem ReadCSV_sanitized (d : Decoders) (csvRead : Bytes → List (Option (List Bytes)))
    (f : File) (records : Records) (h : ReadCSV d csvRead f = .ok records) :
    ∀ row ∈ records, ∀ cell ∈ row, sanitize cell = cell := by
  unfold ReadCSV at h
  split at h
  · cases h
  · cases h
    exact readCSVLoop_sanitized _

/-- Every cell `ReadXLS` returns is sanitized. -/
theorem ReadXLS_sanitized (opened : Option (Option XlsSheet)) (fallback : Option XlsxFile)
    (records : Records) (h : ReadXLS opened fallback = .ok records) :
    ∀ row ∈ records, ∀ cell ∈ row, sanitize cell = cell := by
  unfold ReadXLS at h
  split at h
  · exact ReadXLSX_sanitized _ _ h
  · cases h
  · cases h
    intro row hrow cell hcell
    rw [List.mem_filterMap] at hrow
    obtain ⟨i, _, hi⟩ := hrow
    unfold readXLSRow at hi
    split at hi
    · cases hi
    · cases hi
      rcases mem_padRow _ _ _ hcell with hc | hc
      · rw [List.mem_map] at hc
        obtain ⟨j, _, rfl⟩ := hc
        exact sanitize_idem _
      · rw [hc]; exact sanitize_nil

theorem lookup_filter_keys {V : Type} (m : GoMap V) (keys : List Bytes) (k : Bytes)
    (hk : k ∈ keys) : (m.filter (fun e => decide (e.1 ∈ keys))).lookup k = m.lookup k := by
  induction m with
  | nil => rfl
  | cons e m ih =>
    obtain ⟨k2, v2⟩ := e
    by_cases h2 : k2 ∈ keys
    · rw [List.filter_cons_of_pos (by simpa using h2)]
      by_cases hb : (k == k2) = true
      · simp [List.lookup, hb]
      · simp only [Bool.not_eq_true] at hb
        simp only [List.lookup, hb, ih]
    · rw [List.filter_cons_of_neg (by simpa using h2)]
      have hne : (k == k2) = false := by
        have : k ≠ k2 := by rintro rfl; exact h2 hk
        simpa using this
      simp only [List.lookup, hne, ih]

/-- A row of `ReadJSON` depends on an item only through its values for the
keys of the header. -/
theorem projectItem_filter (header keys : List Bytes) (item : GoMap JValue)
    (h : ∀ k ∈ header, k ∈ keys) :
    projectItem header (item.filter (fun e => decide (e.1 ∈ keys))) = projectItem header item := by
  unfold projectItem
  apply List.map_congr_left
  intro k hk
  rw [lookup_filter_keys item keys k (h k hk)]

theorem projectItem_getD (header : List Bytes) (item : GoMap JValue) (i : Nat)
    (hi : i < header.length) :
    (projectItem header item).getD i [] =
      match item.lookup (header.getD i []) with
      | some val => sprintV val
      | none => [] := by
  unfold projectItem
  simp [List.getD_eq_getElem?_getD, List.getElem?_eq_getElem hi]

theorem perm_pair (a b : Bytes) (hab : a ≠ b) (order : List Bytes)
    (h : order.Perm [a, b]) : order = [a, b] ∨ order = [b, a] := by
  have hlen := h.length_eq
  have hnd : order.Nodup := h.nodup_iff.mpr (by simp [hab])
  match order, hlen, hnd, h with
  | [x, y], _, hnd, h =>
    have hx : x ∈ [a, b] := h.subset (by simp)
    have hy : y ∈ [a, b] := h.subset (by simp)
    simp only [List.nodup_cons, List.mem_singleton, List.not_mem_nil, not_false_eq_true,
      List.nodup_nil, and_true] at hnd
    simp only [List.mem_cons, List.mem_singleton, List.not_mem_nil, or_false] at hx hy
    rcases hx with rfl | rfl <;> rcases hy with rfl | rfl
    · exact absurd rfl hnd
    · exact Or.inl rfl
    · exact Or.inr rfl
    · exact absurd rfl hnd

theorem getD_map_of_lt {α β : Type} (f : α → β) (l : List α) (k : Nat) (hk : k < l.length)
    (d1 : β) (d2 : α) : (l.map f).getD k d1 = f (l.getD k d2) := by
  induction l generalizing k with
  | nil => simp at hk
  | cons a l ih =>
    cases k with
    | zero => rfl
    | succ k =>
      simp only [List.length_cons, Nat.succ_lt_succ_iff] at hk
      simpa using ih k hk

/-! ## Facts about Detect and Read -/

/-- A file that starts with neither signature is classified by its text sample. -/
theorem Detect_text (data : Bytes) (hzip : ¬ [0x50, 0x4B] <+: data)
    (hole : ¬ [0xD0, 0xCF, 0x11, 0xE0] <+: data) :
    Detect (.regular data) =
      if (data.take 4096).any (fun b => b = 0) then .error .notSupported
      else if (TrimSpace (data.take 4096)).length = 0 then .error .notSupported
      else if (TrimSpace (data.take 4096)).getD 0 0 = 0x5B ∨
          (TrimSpace (data.take 4096)).getD 0 0 = 0x7B then .ok "json"
      else if Contains (TrimSpace (data.take 4096)) [0x2C] ||
          Contains (TrimSpace (data.take 4096)) [0x09] then .ok "csv"
      else .error .notSupported := by
  have h1 : ¬ ((data.take 8).length ≥ 2 ∧ (data.take 8).getD 0 0 = 0x50 ∧
      (data.take 8).getD 1 0 = 0x4B) := by
    rcases data with _ | ⟨a, _ | ⟨b, rest⟩⟩
    · simp
    · simp
    · simp only [List.cons_prefix_cons, List.nil_prefix, and_true] at hzip
      simp
      intro h; exact fun hb => hzip ⟨h.symm, hb.symm⟩
  have h2 : ¬ ((data.take 8).length ≥ 8 ∧ (data.take 8).getD 0 0 = 0xD0 ∧
      (data.take 8).getD 1 0 = 0xCF ∧ (data.take 8).getD 2 0 = 0x11 ∧
      (data.take 8).getD 3 0 = 0xE0) := by
    rcases data with _ | ⟨a, _ | ⟨b, _ | ⟨c, _ | ⟨d, rest⟩⟩⟩⟩
    · simp
    · simp
    · simp
    · simp
    · simp only [List.cons_prefix_cons, List.nil_prefix, and_true] at hole
      simp
      intro _ ha hb hc hd; exact hole ⟨ha.symm, hb.symm, hc.symm, hd.symm⟩
  unfold Detect
  simp only [h1, h2, if_false]

/-- A file whose first byte is neither `P` nor 0xD0 starts with neither signature. -/
theorem no_signature_of_head (data : Bytes)
    (h : data.head? ≠ some 0x50 ∧ data.head? ≠ some 0xD0) :
    ¬ [0x50, 0x4B] <+: data ∧ ¬ [0xD0, 0xCF, 0x11, 0xE0] <+: data := by
  refine ⟨?_, ?_⟩
  · rintro ⟨x, rfl⟩; exact h.1 rfl
  · rintro ⟨x, rfl⟩; exact h.2 rfl

/-- A NUL byte in the sample of a file without signature: not supported. -/
theorem Detect_nul (data : Bytes) (hzip : ¬ [0x50, 0x4B] <+: data)
    (hole : ¬ [0xD0, 0xCF, 0x11, 0xE0] <+: data) (hnul : (0 : Nat) ∈ data.take 4096) :
    Detect (.regular data) = .error .notSupported := by
  have hany : (data.take 4096).any (fun b => decide (b = 0)) = true := by
    rw [List.any_eq_true]
    exact ⟨0, hnul, by simp⟩
  rw [Detect_text data hzip hole, hany]
  rfl

/-- A sample that is a run of white space followed by `[` or `{`: "json". -/
theorem Detect_json_of_white (data ws rest : Bytes) (c : Nat)
    (hsample : data.take 4096 = ws ++ c :: rest)
    (hnul : ∀ b ∈ data.take 4096, b ≠ 0)
    (hws : White ws) (hc : c = 0x5B ∨ c = 0x7B) :
    Detect (.regular data) = .ok "json" := by
  have hclt : c < 0x80 := by rcases hc with rfl | rfl <;> decide
  have hcn : asciiSpace c = false := by rcases hc with rfl | rfl <;> decide
  obtain ⟨r, hr⟩ := TrimSpace_head c rest ws hws hclt hcn
  have hfirst : data.head? ≠ some 0x50 ∧ data.head? ≠ some 0xD0 := by
    have hd : data.head? = (data.take 4096).head? := by cases data <;> rfl
    rw [hd, hsample]
    cases hws with
    | nil => rcases hc with rfl | rfl <;> simp
    | rune enc ws2 hsp hw hrest =>
      cases enc with
      | nil => simp [DecodeRune_nil, IsSpace_RuneError] at hsp
      | cons b t => simpa using space_first_byte b t hsp
  obtain ⟨hzip, hole⟩ := no_signature_of_head data hfirst
  have hany : (data.take 4096).any (fun b => decide (b = 0)) = false := by
    rw [List.any_eq_false]
    intro b hb
    simpa using hnul b hb
  rw [Detect_text data hzip hole, hany, hsample, hr]
  rcases hc with rfl | rfl <;> simp

/-- A run of ASCII white space is a run of white space. -/
theorem White_of_ascii (ws : Bytes) (h : ∀ b ∈ ws, asciiSpace b = true) : White ws := by
  induction ws with
  | nil => exact White.nil
  | cons b ws ih =>
    have hb := h b (List.mem_cons_self _ _)
    have hlt := asciiSpace_lt b hb
    have := White.rune [b] ws (by rw [DecodeRune_ascii b [] hlt, IsSpace_ascii b hlt, hb])
      (by rw [DecodeRune_ascii b [] hlt]; rfl) (ih (fun c hc => h c (List.mem_cons_of_mem _ hc)))
    simpa using this

/-- A sample that is ASCII white space only: not supported. -/
theorem Detect_white_sample (data : Bytes) (h : ∀ b ∈ data.take 4096, asciiSpace b = true) :
    Detect (.regular data) = .error .notSupported := by
  have hfirst : data.head? ≠ some 0x50 ∧ data.head? ≠ some 0xD0 := by
    cases data with
    | nil => simp
    | cons a t =>
      have ha := h a (by simp)
      simp only [List.head?_cons, ne_eq, Option.some.injEq]
      constructor <;> rintro rfl <;> exact absurd ha (by decide)
  obtain ⟨hzip, hole⟩ := no_signature_of_head data hfirst
  have htrim : TrimSpace (data.take 4096) = [] := by
    unfold TrimSpace
    have : (data.take 4096).dropWhile asciiSpace = [] := by
      rw [List.dropWhile_eq_nil_iff]
      exact h
    rw [this]
  rw [Detect_text data hzip hole, htrim]
  simp

theorem Read_of_Detect_error (L : Libs) (seed : Nat) (f : File) (e : Error)
    (h : Detect f = .error e) : Read L seed f = .error .detectFailed := by
  unfold Read
  rw [h]

/-- No reader returns the error of an unsupported output format. -/
theorem Read_ne_unsupportedOutput (L : Libs) (seed : Nat) (f : File) :
    Read L seed f ≠ .error .unsupportedOutput := by
  unfold Read
  split
  · simp
  · split_ifs
    · unfold ReadCSV
      split <;> simp
    · unfold ReadXLSX
      repeat' split
      all_goals simp
    · unfold ReadXLS ReadXLSX
      repeat' split
      all_goals simp
    · unfold ReadJSON
      split <;> simp
    · simp

theorem ToCSV_ne_unsupportedOutput (L : Libs) (seed : Nat) (created : Bool) (f : File) :
    ToCSV L seed created f ≠ .error .unsupportedOutput := by
  unfold ToCSV
  split
  · rename_i e he
    intro h
    cases h
    exact Read_ne_unsupportedOutput L seed f he
  · unfold WriteCSV
    split_ifs <;> simp

theorem WriteJSON_ne_unsupportedOutput (records : Records) (created encoded : Bool) :
    WriteJSON records created encoded ≠ .error .unsupportedOutput := by
  unfold WriteJSON
  cases records with
  | nil => simp
  | cons header rows => cases created <;> cases encoded <;> simp

theorem WriteXLSX_ne_unsupportedOutput (records : Records) (saved : Bool) :
    WriteXLSX records saved ≠ .error .unsupportedOutput := by
  unfold WriteXLSX
  cases records with
  | nil => simp
  | cons header rows => cases saved <;> simp

theorem ToJSON_ne_unsupportedOutput (L : Libs) (seed : Nat) (created encoded : Bool)
    (f : File) : ToJSON L seed created encoded f ≠ .error .unsupportedOutput := by
  unfold ToJSON
  split
  · rename_i e he
    intro h
    cases h
    exact Read_ne_unsupportedOutput L seed f he
  · split
    · rename_i e he
      intro h
      cases h
      exact WriteJSON_ne_unsupportedOutput _ _ _ he
    · simp

theorem ToXLSX_ne_unsupportedOutput (L : Libs) (seed : Nat) (created : Bool) (f : File) :
    ToXLSX L seed created f ≠ .error .unsupportedOutput := by
  unfold ToXLSX
  split
  · rename_i e he
    intro h
    cases h
    exact Read_ne_unsupportedOutput L seed f he
  · split
    · rename_i e he
      intro h
      cases h
      exact WriteXLSX_ne_unsupportedOutput _ _ he
    · simp

theorem utf16le_getD (units : List Nat) (k : Nat) (hk : k < units.length) :
    2 * k + 1 < (utf16le units).length ∧
      (utf16le units).getD (2 * k + 1) 0 = units.getD k 0 / 256 := by
  induction units generalizing k with
  | nil => simp at hk
  | cons u us ih =>
    cases k with
    | zero => simp [utf16le]
    | succ k =>
      simp only [List.length_cons, Nat.succ_lt_succ_iff] at hk
      obtain ⟨h1, h2⟩ := ih k hk
      have e : utf16le (u :: us) = u % 256 :: u / 256 :: utf16le us := by simp [utf16le]
      have i : 2 * (k + 1) + 1 = (2 * k + 1) + 1 + 1 := by omega
      rw [e, i]
      refine ⟨by simp only [List.length_cons]; omega, ?_⟩
      simpa using h2

theorem utf16be_getD (units : List Nat) (k : Nat) (hk : k < units.length) :
    2 * k < (utf16be units).length ∧
      (utf16be units).getD (2 * k) 0 = units.getD k 0 / 256 := by
  induction units generalizing k with
  | nil => simp at hk
  | cons u us ih =>
    cases k with
    | zero => simp [utf16be]
    | succ k =>
      simp only [List.length_cons, Nat.succ_lt_succ_iff] at hk
      obtain ⟨h1, h2⟩ := ih k hk
      have e : utf16be (u :: us) = u / 256 :: u % 256 :: utf16be us := by simp [utf16be]
      have i : 2 * (k + 1) = 2 * k + 1 + 1 := by omega
      rw [e, i]
      refine ⟨by simp only [List.length_cons]; omega, ?_⟩
      simpa using h2

theorem getD_mem_take (l : Bytes) (i n : Nat) (hi : i < l.length) (hn : i < n) :
    l.getD i 0 ∈ l.take n := by
  rw [List.mem_take_iff_getElem]
  refine ⟨i, by omega, ?_⟩
  simp [List.getD_eq_getElem?_getD, List.getElem?_eq_getElem hi]

/-- A file with a UTF-16 byte-order mark and a code unit below 0x100 among
its first 4096 bytes: not supported. -/
theorem Detect_utf16 (units : List Nat) (k : Nat) (data : Bytes)
    (hk : k < units.length) (hu : units.getD k 0 < 0x100) (hin : 2 + 2 * k + 1 < 4096)
    (hdata : data = [0xFF, 0xFE] ++ utf16le units ∨ data = [0xFE, 0xFF] ++ utf16be units) :
    Detect (.regular data) = .error .notSupported := by
  have hz : units.getD k 0 / 256 = 0 := by omega
  rcases hdata with rfl | rfl
  · obtain ⟨h1, h2⟩ := utf16le_getD units k hk
    obtain ⟨hzip, hole⟩ := no_signature_of_head ([0xFF, 0xFE] ++ utf16le units) (by simp)
    apply Detect_nul _ hzip hole
    have := getD_mem_take ([0xFF, 0xFE] ++ utf16le units) (2 * k + 1 + 2) 4096
      (by simp only [List.length_append, List.length_cons, List.length_nil]; omega) (by omega)
    have e : ([0xFF, 0xFE] ++ utf16le units).getD (2 * k + 1 + 2) 0 = 0 := by
      show (utf16le units).getD (2 * k + 1) 0 = 0
      rw [h2, hz]
    rwa [e] at this
  · obtain ⟨h1, h2⟩ := utf16be_getD units k hk
    obtain ⟨hzip, hole⟩ := no_signature_of_head ([0xFE, 0xFF] ++ utf16be units) (by simp)
    apply Detect_nul _ hzip hole
    have := getD_mem_take ([0xFE, 0xFF] ++ utf16be units) (2 * k + 2) 4096
      (by simp only [List.length_append, List.length_cons, List.length_nil]; omega) (by omega)
    have e : ([0xFE, 0xFF] ++ utf16be units).getD (2 * k + 2) 0 = 0 := by
      show (utf16be units).getD (2 * k) 0 = 0
      rw [h2, hz]
    rwa [e] at this

theorem Convert_of_Detect_error (L : Libs) (seed : Nat) (created encoded : Bool) (f : File)
    (out : Bytes) (e : Error) (h : Detect f = .error e) :
    Convert L seed created encoded f out = .error .detectFailed ∨
      Convert L seed created encoded f out = .error .unsupportedOutput := by
  have hr := Read_of_Detect_error L seed f e h
  unfold Convert
  dsimp only
  split_ifs
  · left; unfold ToCSV; rw [hr]
  · left; unfold ToJSON; rw [hr]
  · left; unfold ToXLSX; rw [hr]
  · right; rfl

theorem dropWhile_replicate_append (p : Nat → Bool) (x : Nat) (n : Nat) (l : Bytes)
    (hx : p x = true) : (List.replicate n x ++ l).dropWhile p = l.dropWhile p := by
  induction n with
  | zero => rfl
  | succ n ih => rw [List.replicate_succ, List.cons_append, List.dropWhile_cons_of_pos hx, ih]

/-- `Read` of a file that `Detect` takes for JSON and `json.Unmarshal` rejects. -/
theorem Read_json_malformed (L : Libs) (seed : Nat) (data : Bytes)
    (hd : Detect (.regular data) = .ok "json") (hobj : L.unmarshal data = none) :
    Read L seed (.regular data) = .error .jsonParse := by
  unfold Read
  rw [hd]
  simp [jsonFile, hobj, ReadJSON]

/-- The row `ReadXLSX` returns for a row of the sheet. -/
theorem ReadXLSX_rows (f : XlsxFile) (sheet0 : String) (others : List String)
    (row0 : List Bytes) (more : List (List Bytes))
    (hs : f.sheets = sheet0 :: others) (hr : f.rows sheet0 = some (row0 :: more)) :
    ReadXLSX (some f) =
      .ok ((row0 :: more).map (fun row => padRow row0.length (row.map sanitize))) := by
  unfold ReadXLSX
  simp only [hs, hr]

/-! ## Facts about utf8.Valid -/

theorem validFuel_nil (n : Nat) : validFuel n [] = true := by
  cases n <;> rfl

theorem validFuel_fuel (n m : Nat) (s : Bytes) (hn : s.length ≤ n) (hm : s.length ≤ m) :
    validFuel n s = validFuel m s := by
  induction n generalizing m s with
  | zero =>
    have : s = [] := List.length_eq_zero.mp (Nat.le_zero.mp hn)
    subst this
    simp [validFuel_nil]
  | succ n ih =>
    cases s with
    | nil => simp [validFuel_nil]
    | cons c t =>
      cases m with
      | zero => simp at hm
      | succ m =>
        simp only [validFuel]
        split_ifs with h
        · rfl
        · have hw := DecodeRune_width_pos c t
          apply ih
          · simp at hn ⊢; omega
          · simp at hm ⊢; omega

theorem Valid_nil : Valid [] = true := rfl

theorem Valid_cons (c : Nat) (t : Bytes) :
    Valid (c :: t) =
      if DecodeRune (c :: t) = (RuneError, 1) then false
      else Valid ((c :: t).drop (DecodeRune (c :: t)).2) := by
  unfold Valid
  simp only [List.length_cons, validFuel]
  split_ifs with h
  · rfl
  · have hw := DecodeRune_width_pos c t
    apply validFuel_fuel
    · simp; omega
    · exact le_refl _

theorem Valid_ascii (c : Nat) (t : Bytes) (h : c < 0x80) : Valid (c :: t) = Valid t := by
  rw [Valid_cons, DecodeRune_ascii c t h]
  have : (c, 1) ≠ (RuneError, 1) := by
    intro e
    have := congrArg Prod.fst e
    simp [RuneError] at this
    omega
  simp [this]

theorem Valid_of_error (c : Nat) (t : Bytes) (h : DecodeRune (c :: t) = (RuneError, 1)) :
    Valid (c :: t) = false := by
  rw [Valid_cons, h]; simp

theorem Valid_of_width (c : Nat) (t : Bytes) (r w : Nat) (h : DecodeRune (c :: t) = (r, w))
    (hw : w ≠ 1) : Valid (c :: t) = Valid ((c :: t).drop w) := by
  rw [Valid_cons, h]
  have : (r, w) ≠ (RuneError, 1) := fun e => hw (congrArg Prod.snd e)
  simp [this]

/-! ## utf8.Valid and the table of well-formed sequences -/

theorem wellFormed_one (b0 : Nat) (rest : Bytes) (h : b0 ≤ 0x7F) :
    wellFormed (b0 :: rest) = wellFormed rest := by
  rw [wellFormed.eq_def]
  simp only [h, if_true]

theorem wellFormed_two (b0 b1 : Nat) (rest : Bytes) (h0 : 0xC2 ≤ b0) (h0b : b0 ≤ 0xDF)
    (h1 : 0x80 ≤ b1) (h1b : b1 ≤ 0xBF) :
    wellFormed (b0 :: b1 :: rest) = wellFormed rest := by
  rw [wellFormed.eq_def]
  have : ¬ b0 ≤ 0x7F := by omega
  simp only [this, if_false]
  rw [if_pos ⟨h0, h0b, h1, h1b⟩]

theorem wellFormed_three (b0 b1 b2 : Nat) (rest : Bytes)
    (h : (b0 = 0xE0 ∧ 0xA0 ≤ b1 ∧ b1 ≤ 0xBF) ∨
      (0xE1 ≤ b0 ∧ b0 ≤ 0xEC ∧ 0x80 ≤ b1 ∧ b1 ≤ 0xBF) ∨
      (b0 = 0xED ∧ 0x80 ≤ b1 ∧ b1 ≤ 0x9F) ∨
      (0xEE ≤ b0 ∧ b0 ≤ 0xEF ∧ 0x80 ≤ b1 ∧ b1 ≤ 0xBF))
    (h2 : 0x80 ≤ b2) (h2b : b2 ≤ 0xBF) :
    wellFormed (b0 :: b1 :: b2 :: rest) = wellFormed rest := by
  rw [wellFormed.eq_def]
  have n1 : ¬ b0 ≤ 0x7F := by omega
  have n2 : ¬ (0xC2 ≤ b0 ∧ b0 ≤ 0xDF ∧ 0x80 ≤ b1 ∧ b1 ≤ 0xBF) := by omega
  simp only [n1, if_false]
  rw [if_neg n2, if_pos ⟨h, h2, h2b⟩]

theorem wellFormed_four (b0 b1 b2 b3 : Nat) (rest : Bytes)
    (h : (b0 = 0xF0 ∧ 0x90 ≤ b1 ∧ b1 ≤ 0xBF) ∨
      (0xF1 ≤ b0 ∧ b0 ≤ 0xF3 ∧ 0x80 ≤ b1 ∧ b1 ≤ 0xBF) ∨
      (b0 = 0xF4 ∧ 0x80 ≤ b1 ∧ b1 ≤ 0x8F))
    (h2 : 0x80 ≤ b2) (h2b : b2 ≤ 0xBF) (h3 : 0x80 ≤ b3) (h3b : b3 ≤ 0xBF) :
    wellFormed (b0 :: b1 :: b2 :: b3 :: rest) = wellFormed rest := by
  rw [wellFormed.eq_def]
  have n1 : ¬ b0 ≤ 0x7F := by omega
  have n2 : ¬ (0xC2 ≤ b0 ∧ b0 ≤ 0xDF ∧ 0x80 ≤ b1 ∧ b1 ≤ 0xBF) := by omega
  have n3 : ¬ (((b0 = 0xE0 ∧ 0xA0 ≤ b1 ∧ b1 ≤ 0xBF) ∨
      (0xE1 ≤ b0 ∧ b0 ≤ 0xEC ∧ 0x80 ≤ b1 ∧ b1 ≤ 0xBF) ∨
      (b0 = 0xED ∧ 0x80 ≤ b1 ∧ b1 ≤ 0x9F) ∨
      (0xEE ≤ b0 ∧ b0 ≤ 0xEF ∧ 0x80 ≤ b1 ∧ b1 ≤ 0xBF)) ∧ 0x80 ≤ b2 ∧ b2 ≤ 0xBF) := by omega
  simp only [n1, if_false]
  rw [if_neg n2, if_neg n3, if_pos ⟨h, h2, h2b, h3, h3b⟩]

/-- No form of the table fits the head of the string. -/
theorem wellFormed_none (b0 : Nat) (rest : Bytes) (n1 : ¬ b0 ≤ 0x7F)
    (n2 : ∀ b1, rest.head? = some b1 → ¬ (0xC2 ≤ b0 ∧ b0 ≤ 0xDF ∧ 0x80 ≤ b1 ∧ b1 ≤ 0xBF))
    (n3 : ∀ b1 b2, rest.head? = some b1 → rest.tail.head? = some b2 →
      ¬ (((b0 = 0xE0 ∧ 0xA0 ≤ b1 ∧ b1 ≤ 0xBF) ∨
        (0xE1 ≤ b0 ∧ b0 ≤ 0xEC ∧ 0x80 ≤ b1 ∧ b1 ≤ 0xBF) ∨
        (b0 = 0xED ∧ 0x80 ≤ b1 ∧ b1 ≤ 0x9F) ∨
        (0xEE ≤ b0 ∧ b0 ≤ 0xEF ∧ 0x80 ≤ b1 ∧ b1 ≤ 0xBF)) ∧ 0x80 ≤ b2 ∧ b2 ≤ 0xBF))
    (n4 : ∀ b1 b2 b3, rest.head? = some b1 → rest.tail.head? = some b2 →
      rest.tail.tail.head? = some b3 →
      ¬ (((b0 = 0xF0 ∧ 0x90 ≤ b1 ∧ b1 ≤ 0xBF) ∨
        (0xF1 ≤ b0 ∧ b0 ≤ 0xF3 ∧ 0x80 ≤ b1 ∧ b1 ≤ 0xBF) ∨
        (b0 = 0xF4 ∧ 0x80 ≤ b1 ∧ b1 ≤ 0x8F)) ∧
        0x80 ≤ b2 ∧ b2 ≤ 0xBF ∧ 0x80 ≤ b3 ∧ b3 ≤ 0xBF)) :
    wellFormed (b0 :: rest) = false := by
  rw [wellFormed.eq_def]
  simp only [n1, if_false]
  rcases rest with _ | ⟨b1, _ | ⟨b2, _ | ⟨b3, rest3⟩⟩⟩
  · rfl
  · simp only []
    rw [if_neg (n2 b1 rfl)]
  · simp only []
    rw [if_neg (n2 b1 rfl), if_neg (n3 b1 b2 rfl rfl)]
  · simp only []
    rw [if_neg (n2 b1 rfl), if_neg (n3 b1 b2 rfl rfl), if_neg (n4 b1 b2 b3 rfl rfl rfl)]

theorem SameStep_two (b0 : Nat) (rest : Bytes) (h0 : 0xC2 ≤ b0) (h0b : b0 ≤ 0xDF) :
    SameStep (b0 :: rest) := by
  have hdec : ∀ v, DecodeRune (b0 :: v) = decode2 b0 v := by
    intro v
    simp [DecodeRune, show ¬ b0 < 0x80 by omega, show ¬ b0 < 0xC2 by omega, h0b]
  have hnone : ∀ r : Bytes, (∀ b1, r.head? = some b1 → ¬ (0x80 ≤ b1 ∧ b1 ≤ 0xBF)) →
      wellFormed (b0 :: r) = false := by
    intro r hr
    apply wellFormed_none b0 r (by omega)
    · intro b1 hb1 hc
      exact hr b1 hb1 ⟨hc.2.2.1, hc.2.2.2⟩
    · intro b1 b2 _ _; omega
    · intro b1 b2 b3 _ _ _; omega
  rcases rest with _ | ⟨b1, t⟩
  · left
    exact ⟨Valid_of_error _ _ (by rw [hdec]; rfl), hnone [] (by simp)⟩
  · by_cases hc : isCont b1 = true
    · right
      have hb : 0x80 ≤ b1 ∧ b1 ≤ 0xBF := by simpa [isCont] using hc
      refine ⟨t, by simp only [List.length_cons]; omega, ?_, wellFormed_two b0 b1 t h0 h0b hb.1 hb.2⟩
      have hd : DecodeRune (b0 :: b1 :: t) = ((b0 % 32) * 64 + b1 % 64, 2) := by
        rw [hdec]; simp [decode2, hc]
      rw [Valid_of_width b0 (b1 :: t) _ 2 hd (by decide)]
      rfl
    · left
      refine ⟨Valid_of_error _ _ (by rw [hdec]; simp [decode2, hc]), hnone _ ?_⟩
      intro b hb hr
      simp only [List.head?_cons, Option.some.injEq] at hb
      subst hb
      exact hc (by simpa [isCont] using hr)

theorem SameStep_three (b0 lo hi : Nat) (rest : Bytes) (h0 : 0xE0 ≤ b0) (h0b : b0 ≤ 0xEF)
    (hdec : ∀ v, DecodeRune (b0 :: v) = decode3 b0 lo hi v)
    (hform : ∀ b1, (lo ≤ b1 ∧ b1 ≤ hi) ↔
      ((b0 = 0xE0 ∧ 0xA0 ≤ b1 ∧ b1 ≤ 0xBF) ∨
        (0xE1 ≤ b0 ∧ b0 ≤ 0xEC ∧ 0x80 ≤ b1 ∧ b1 ≤ 0xBF) ∨
        (b0 = 0xED ∧ 0x80 ≤ b1 ∧ b1 ≤ 0x9F) ∨
        (0xEE ≤ b0 ∧ b0 ≤ 0xEF ∧ 0x80 ≤ b1 ∧ b1 ≤ 0xBF))) :
    SameStep (b0 :: rest) := by
  have hnone : ∀ r : Bytes,
      (∀ b1 b2, r.head? = some b1 → r.tail.head? = some b2 →
        ¬ ((lo ≤ b1 ∧ b1 ≤ hi) ∧ 0x80 ≤ b2 ∧ b2 ≤ 0xBF)) →
      wellFormed (b0 :: r) = false := by
    intro r hr
    apply wellFormed_none b0 r (by omega)
    · intro b1 _; omega
    · intro b1 b2 hb1 hb2 hc
      exact hr b1 b2 hb1 hb2 ⟨(hform b1).mpr hc.1, hc.2⟩
    · intro b1 b2 b3 _ _ _; omega
  rcases rest with _ | ⟨b1, _ | ⟨b2, t⟩⟩
  · left
    exact ⟨Valid_of_error _ _ (by rw [hdec]; rfl), hnone [] (by simp)⟩
  · left
    exact ⟨Valid_of_error _ _ (by rw [hdec]; rfl), hnone [b1] (by simp)⟩
  · by_cases h1 : lo ≤ b1 ∧ b1 ≤ hi
    · by_cases hc : isCont b2 = true
      · right
        have hb : 0x80 ≤ b2 ∧ b2 ≤ 0xBF := by simpa [isCont] using hc
        refine ⟨t, by simp only [List.length_cons]; omega, ?_, wellFormed_three b0 b1 b2 t ((hform b1).mp h1) hb.1 hb.2⟩
        have hd : DecodeRune (b0 :: b1 :: b2 :: t) =
            ((b0 % 16) * 4096 + (b1 % 64) * 64 + b2 % 64, 3) := by
          rw [hdec]
          have : ¬ (b1 < lo ∨ hi < b1) := by omega
          simp [decode3, this, hc]
        rw [Valid_of_width b0 (b1 :: b2 :: t) _ 3 hd (by decide)]
        rfl
      · left
        refine ⟨Valid_of_error _ _ ?_, hnone _ ?_⟩
        · rw [hdec]
          have : ¬ (b1 < lo ∨ hi < b1) := by omega
          simp [decode3, this, hc]
        · intro x y hx hy hr
          simp only [List.head?_cons, List.tail_cons, Option.some.injEq] at hx hy
          subst hx hy
          exact hc (by simpa [isCont] using hr.2)
    · left
      refine ⟨Valid_of_error _ _ ?_, hnone _ ?_⟩
      · rw [hdec]
        have : b1 < lo ∨ hi < b1 := by omega
        simp [decode3, this]
      · intro x y hx hy hr
        simp only [List.head?_cons, List.tail_cons, Option.some.injEq] at hx hy
        subst hx hy
        exact h1 hr.1

theorem SameStep_four (b0 lo hi : Nat) (rest : Bytes) (h0 : 0xF0 ≤ b0) (h0b : b0 ≤ 0xF4)
    (hdec : ∀ v, DecodeRune (b0 :: v) = decode4 b0 lo hi v)
    (hform : ∀ b1, (lo ≤ b1 ∧ b1 ≤ hi) ↔
      ((b0 = 0xF0 ∧ 0x90 ≤ b1 ∧ b1 ≤ 0xBF) ∨
        (0xF1 ≤ b0 ∧ b0 ≤ 0xF3 ∧ 0x80 ≤ b1 ∧ b1 ≤ 0xBF) ∨
        (b0 = 0xF4 ∧ 0x80 ≤ b1 ∧ b1 ≤ 0x8F))) :
    SameStep (b0 :: rest) := by
  have hnone : ∀ r : Bytes,
      (∀ b1 b2 b3, r.head? = some b1 → r.tail.head? = some b2 →
        r.tail.tail.head? = some b3 →
        ¬ ((lo ≤ b1 ∧ b1 ≤ hi) ∧ 0x80 ≤ b2 ∧ b2 ≤ 0xBF ∧ 0x80 ≤ b3 ∧ b3 ≤ 0xBF)) →
      wellFormed (b0 :: r) = false := by
    intro r hr
    apply wellFormed_none b0 r (by omega)
    · intro b1 _; omega
    · intro b1 b2 _ _; omega
    · intro b1 b2 b3 hb1 hb2 hb3 hc
      exact hr b1 b2 b3 hb1 hb2 hb3 ⟨(hform b1).mpr hc.1, hc.2⟩
  rcases rest with _ | ⟨b1, _ | ⟨b2, _ | ⟨b3, t⟩⟩⟩
  · left
    exact ⟨Valid_of_error _ _ (by rw [hdec]; rfl), hnone [] (by simp)⟩
  · left
    exact ⟨Valid_of_error _ _ (by rw [hdec]; rfl), hnone [b1] (by simp)⟩
  · left
    exact ⟨Valid_of_error _ _ (by rw [hdec]; rfl), hnone [b1, b2] (by simp)⟩
  · by_cases h1 : lo ≤ b1 ∧ b1 ≤ hi
    · by_cases hc : isCont b2 = true ∧ isCont b3 = true
      · right
        have hb2 : 0x80 ≤ b2 ∧ b2 ≤ 0xBF := by simpa [isCont] using hc.1
        have hb3 : 0x80 ≤ b3 ∧ b3 ≤ 0xBF := by simpa [isCont] using hc.2
        refine ⟨t, by simp only [List.length_cons]; omega, ?_,
          wellFormed_four b0 b1 b2 b3 t ((hform b1).mp h1) hb2.1 hb2.2 hb3.1 hb3.2⟩
        have hd : DecodeRune (b0 :: b1 :: b2 :: b3 :: t) =
            ((b0 % 8) * 262144 + (b1 % 64) * 4096 + (b2 % 64) * 64 + b3 % 64, 4) := by
          rw [hdec]
          have : ¬ (b1 < lo ∨ hi < b1) := by omega
          simp [decode4, this, hc.1, hc.2]
        rw [Valid_of_width b0 (b1 :: b2 :: b3 :: t) _ 4 hd (by decide)]
        rfl
      · left
        refine ⟨Valid_of_error _ _ ?_, hnone _ ?_⟩
        · rw [hdec]
          have : ¬ (b1 < lo ∨ hi < b1) := by omega
          by_cases hc2 : isCont b2 = true
          · have hc3 : ¬ isCont b3 = true := fun h => hc ⟨hc2, h⟩
            simp [decode4, this, hc2, hc3]
          · simp [decode4, this, hc2]
        · intro x y z hx hy hz hr
          simp only [List.head?_cons, List.tail_cons, Option.some.injEq] at hx hy hz
          rw [← hx, ← hy, ← hz] at hr
          exact hc ⟨by simp only [isCont, Bool.and_eq_true, decide_eq_true_eq]; omega,
            by simp only [isCont, Bool.and_eq_true, decide_eq_true_eq]; omega⟩
    · left
      refine ⟨Valid_of_error _ _ ?_, hnone _ ?_⟩
      · rw [hdec]
        have : b1 < lo ∨ hi < b1 := by omega
        simp [decode4, this]
      · intro x y z hx hy hz hr
        simp only [List.head?_cons, List.tail_cons, Option.some.injEq] at hx hy hz
        subst hx hy hz
        exact h1 hr.1

theorem SameStep_cons (b0 : Nat) (rest : Bytes) : SameStep (b0 :: rest) := by
  by_cases c1 : b0 < 0x80
  · right
    exact ⟨rest, by simp, Valid_ascii b0 rest c1, wellFormed_one b0 rest (by omega)⟩
  by_cases c2 : b0 < 0xC2
  · left
    refine ⟨Valid_of_error b0 rest (by simp [DecodeRune, c1, c2]), ?_⟩
    apply wellFormed_none b0 rest (by omega)
    · intro b1 _; omega
    · intro b1 b2 _ _; omega
    · intro b1 b2 b3 _ _ _; omega
  by_cases c3 : b0 ≤ 0xDF
  · exact SameStep_two b0 rest (by omega) c3
  by_cases c4 : b0 = 0xE0
  · exact SameStep_three b0 0xA0 0xBF rest (by omega) (by omega)
      (by intro v; simp [DecodeRune, c4]) (by intro b1; omega)
  by_cases c5 : b0 = 0xED
  · exact SameStep_three b0 0x80 0x9F rest (by omega) (by omega)
      (by intro v; simp [DecodeRune, c5]) (by intro b1; omega)
  by_cases c6 : b0 ≤ 0xEF
  · exact SameStep_three b0 0x80 0xBF rest (by omega) (by omega)
      (by intro v; simp [DecodeRune, c1, c2, c3, c4, c5, c6]) (by intro b1; omega)
  by_cases c7 : b0 = 0xF0
  · exact SameStep_four b0 0x90 0xBF rest (by omega) (by omega)
      (by intro v; simp [DecodeRune, c7]) (by intro b1; omega)
  by_cases c8 : b0 ≤ 0xF3
  · exact SameStep_four b0 0x80 0xBF rest (by omega) (by omega)
      (by intro v; simp [DecodeRune, c1, c2, c3, c4, c5, c6, c7, c8]) (by intro b1; omega)
  by_cases c9 : b0 = 0xF4
  · exact SameStep_four b0 0x80 0x8F rest (by omega) (by omega)
      (by intro v; simp [DecodeRune, c9]) (by intro b1; omega)
  left
  refine ⟨Valid_of_error b0 rest (by simp [DecodeRune, c1, c2, c3, c4, c5, c6, c7, c8, c9]), ?_⟩
  apply wellFormed_none b0 rest (by omega)
  · intro b1 _; omega
  · intro b1 b2 _ _; omega
  · intro b1 b2 b3 _ _ _; omega

/-- `utf8.Valid` accepts exactly the well-formed strings of the table. -/
theorem Valid_eq_wellFormed (s : Bytes) : Valid s = wellFormed s := by
  induction s using length_induction with
  | step s ih =>
    cases s with
    | nil => rfl
    | cons b0 rest =>
      rcases SameStep_cons b0 rest with ⟨h1, h2⟩ | ⟨t, ht, h1, h2⟩
      · rw [h1, h2]
      · rw [h1, h2]; exact ih t ht

theorem isPrefixOf_iff (p s : Bytes) : p.isPrefixOf s = true ↔ p <+: s :=
  List.isPrefixOf_iff_prefix

/-! ## The last rune of a string that ends with a complete encoding -/

theorem lastRuneBack_conts (k : Nat) (cs : Bytes) (s0 : Nat) (rest : Bytes)
    (hcs : ∀ b ∈ cs, isCont b = true) (hk : cs.length < k) (hs : RuneStart s0 = true) :
    lastRuneBack k (cs ++ s0 :: rest) = cs.length + 1 := by
  induction cs generalizing k with
  | nil =>
    cases k with
    | zero => simp at hk
    | succ k => simp [lastRuneBack, hs]
  | cons c cs ih =>
    cases k with
    | zero => simp at hk
    | succ k =>
      have hc : RuneStart c = false := by simp [RuneStart, hcs c (List.mem_cons_self _ _)]
      have e := ih k (fun b hb => hcs b (List.mem_cons_of_mem _ hb))
        (by simp only [List.length_cons] at hk; omega)
      rw [List.cons_append, lastRuneBack, hc, List.length_cons, e]
      simp only [Bool.false_eq_true, if_false]
      omega

/-- A multi-byte decoding: a rune start followed by one to three
continuation bytes. -/
theorem DecodeRune_multi_shape (s0 : Nat) (rest : Bytes)
    (h : (DecodeRune (s0 :: rest)).2 ≠ 1) :
    ∃ conts t, rest = conts ++ t ∧ (DecodeRune (s0 :: rest)).2 = conts.length + 1 ∧
      conts ≠ [] ∧ conts.length ≤ 3 ∧ (∀ b ∈ conts, isCont b = true) ∧
      RuneStart s0 = true ∧ 0x80 ≤ s0 := by
  have two : 0xC2 ≤ s0 → DecodeRune (s0 :: rest) = decode2 s0 rest →
      ∃ conts t, rest = conts ++ t ∧ (DecodeRune (s0 :: rest)).2 = conts.length + 1 ∧
        conts ≠ [] ∧ conts.length ≤ 3 ∧ (∀ b ∈ conts, isCont b = true) ∧
        RuneStart s0 = true ∧ 0x80 ≤ s0 := by
    intro h0 he
    rw [he] at h ⊢
    rcases rest with _ | ⟨s1, t⟩
    · simp [decode2] at h
    · by_cases hc : isCont s1 = true
      · refine ⟨[s1], t, rfl, by simp [decode2, hc], by simp, by simp, by simpa using hc, ?_,
          by omega⟩
        simp [RuneStart, isCont]; omega
      · simp [decode2, hc] at h
  have three : ∀ lo hi, 0x80 ≤ lo → hi ≤ 0xBF → 0xC2 ≤ s0 →
      DecodeRune (s0 :: rest) = decode3 s0 lo hi rest →
      ∃ conts t, rest = conts ++ t ∧ (DecodeRune (s0 :: rest)).2 = conts.length + 1 ∧
        conts ≠ [] ∧ conts.length ≤ 3 ∧ (∀ b ∈ conts, isCont b = true) ∧
        RuneStart s0 = true ∧ 0x80 ≤ s0 := by
    intro lo hi hlo hhi h0 he
    rw [he] at h ⊢
    rcases rest with _ | ⟨s1, _ | ⟨s2, t⟩⟩
    · simp [decode3] at h
    · simp [decode3] at h
    · by_cases h1 : (decide (s1 < lo) || decide (hi < s1)) = true
      · simp [decode3, h1] at h
      · by_cases hc : isCont s2 = true
        · refine ⟨[s1, s2], t, rfl, by simp [decode3, h1, hc], by simp, by simp, ?_, ?_,
            by omega⟩
          · intro b hb
            simp only [List.mem_cons, List.mem_singleton, List.not_mem_nil, or_false] at hb
            rcases hb with rfl | rfl
            · simp at h1
              simp [isCont]; omega
            · exact hc
          · simp [RuneStart, isCont]; omega
        · simp [decode3, h1, hc] at h
  have four : ∀ lo hi, 0x80 ≤ lo → hi ≤ 0xBF → 0xC2 ≤ s0 →
      DecodeRune (s0 :: rest) = decode4 s0 lo hi rest →
      ∃ conts t, rest = conts ++ t ∧ (DecodeRune (s0 :: rest)).2 = conts.length + 1 ∧
        conts ≠ [] ∧ conts.length ≤ 3 ∧ (∀ b ∈ conts, isCont b = true) ∧
        RuneStart s0 = true ∧ 0x80 ≤ s0 := by
    intro lo hi hlo hhi h0 he
    rw [he] at h ⊢
    rcases rest with _ | ⟨s1, _ | ⟨s2, _ | ⟨s3, t⟩⟩⟩
    · simp [decode4] at h
    · simp [decode4] at h
    · simp [decode4] at h
    · by_cases h1 : (decide (s1 < lo) || decide (hi < s1)) = true
      · simp [decode4, h1] at h
      · by_cases hc : isCont s2 = true
        · by_cases hc3 : isCont s3 = true
          · refine ⟨[s1, s2, s3], t, rfl, by simp [decode4, h1, hc, hc3], by simp, by simp,
              ?_, ?_, by omega⟩
            · intro b hb
              simp only [List.mem_cons, List.mem_singleton, List.not_mem_nil, or_false] at hb
              rcases hb with rfl | rfl | rfl
              · simp at h1
                simp [isCont]; omega
              · exact hc
              · exact hc3
            · simp [RuneStart, isCont]; omega
          · simp [decode4, h1, hc, hc3] at h
        · simp [decode4, h1, hc] at h
  by_cases c1 : s0 < 0x80
  · simp [DecodeRune, c1] at h
  by_cases c2 : s0 < 0xC2
  · simp [DecodeRune, c1, c2] at h
  by_cases c3 : s0 ≤ 0xDF
  · exact two (by omega) (by simp [DecodeRune, c1, c2, c3])
  by_cases c4 : s0 = 0xE0
  · exact three 0xA0 0xBF (by omega) (by omega) (by omega) (by simp [DecodeRune, c4])
  by_cases c5 : s0 = 0xED
  · exact three 0x80 0x9F (by omega) (by omega) (by omega) (by simp [DecodeRune, c5])
  by_cases c6 : s0 ≤ 0xEF
  · exact three 0x80 0xBF (by omega) (by omega) (by omega)
      (by simp [DecodeRune, c1, c2, c3, c4, c5, c6])
  by_cases c7 : s0 = 0xF0
  · exact four 0x90 0xBF (by omega) (by omega) (by omega) (by simp [DecodeRune, c7])
  by_cases c8 : s0 ≤ 0xF3
  · exact four 0x80 0xBF (by omega) (by omega) (by omega)
      (by simp [DecodeRune, c1, c2, c3, c4, c5, c6, c7, c8])
  by_cases c9 : s0 = 0xF4
  · exact four 0x80 0x8F (by omega) (by omega) (by omega) (by simp [DecodeRune, c9])
  simp [DecodeRune, c1, c2, c3, c4, c5, c6, c7, c8, c9] at h

/-- A string that ends with the complete encoding of a white-space rune has
that rune as its last rune. -/
theorem DecodeLastRune_of_space (pre enc : Bytes) (hsp : IsSpace (DecodeRune enc).1 = true)
    (hw : (DecodeRune enc).2 = enc.length) :
    DecodeLastRune (pre ++ enc) = DecodeRune enc := by
  cases enc with
  | nil => simp [DecodeRune_nil, IsSpace_RuneError] at hsp
  | cons s0 r =>
    by_cases h1 : (DecodeRune (s0 :: r)).2 = 1
    · have hr : r = [] := by
        rw [h1] at hw
        simp only [List.length_cons] at hw
        exact List.length_eq_zero.mp (by omega)
      subst hr
      rcases DecodeRune_spec s0 [] with h | ⟨hc, h⟩ | ⟨enc2, _, _, h2, _, hw2, _⟩
      · rw [h, IsSpace_RuneError] at hsp; exact absurd hsp (by decide)
      · rw [h]; exact DecodeLastRune_ascii pre s0 hc
      · omega
    · obtain ⟨conts, t, hrest, hwid, hne, hle, hconts, hstart, h80⟩ :=
        DecodeRune_multi_shape s0 r h1
      have ht : t = [] := by
        rw [hwid, hrest] at hw
        simp only [List.length_cons, List.length_append] at hw
        exact List.length_eq_zero.mp (by omega)
      subst ht
      rw [List.append_nil] at hrest
      subst hrest
      obtain ⟨ci, cl, rfl⟩ : ∃ ci cl, r = ci ++ [cl] := by
        rcases List.eq_nil_or_concat r with h | ⟨ci, cl, h⟩
        · exact absurd h hne
        · exact ⟨ci, cl, by simpa using h⟩
      have hcl : isCont cl = true := hconts cl (by simp)
      have hcl80 : ¬ cl < 0x80 := by
        simp only [isCont, Bool.and_eq_true, decide_eq_true_eq] at hcl; omega
      have hback : lastRuneBack 3 (ci.reverse ++ s0 :: pre.reverse) = ci.length + 1 := by
        have := lastRuneBack_conts 3 ci.reverse s0 pre.reverse
          (fun b hb => hconts b (by simp [List.mem_reverse.mp hb]))
          (by simp only [List.length_reverse, List.length_append, List.length_singleton] at hle ⊢
              omega) hstart
        simpa using this
      have hrev : (pre ++ s0 :: (ci ++ [cl])).reverse = cl :: (ci.reverse ++ s0 :: pre.reverse) := by
        simp
      have hlen : (pre ++ s0 :: (ci ++ [cl])).length - 1 - (ci.length + 1) = pre.length := by
        simp only [List.length_append, List.length_cons, List.length_nil]; omega
      have hdrop : (pre ++ s0 :: (ci ++ [cl])).drop pre.length = s0 :: (ci ++ [cl]) := by
        simp
      have hsize : pre.length + (DecodeRune (s0 :: (ci ++ [cl]))).2 =
          (pre ++ s0 :: (ci ++ [cl])).length := by
        rw [hw]; simp
      unfold DecodeLastRune
      rw [hrev]
      simp only [hcl80, if_false, hback, hlen, hdrop, hsize, ne_eq, not_true_eq_false]

/-- What `strings.TrimSpace` returns does not start with a white-space rune. -/
theorem TrimSpace_first (u : Bytes) : IsSpace (DecodeRune (TrimSpace u)).1 = false := by
  rw [TrimSpace_eq_TrimFunc]
  unfold TrimFunc
  by_contra hsp
  simp only [Bool.not_eq_false] at hsp
  have hext := prefix_decode _ _ (TrimRightFunc_pre (TrimLeftFunc u)) hsp
  rcases TrimLeftFunc_head u with h | h
  · rw [h, TrimRightFunc_nil, DecodeRune_nil, IsSpace_RuneError] at hsp
    exact Bool.false_ne_true hsp
  · rw [hext, hsp] at h
    exact absurd h (by decide)

/-- What `strings.TrimSpace` returns does not end with a white-space rune. -/
theorem TrimSpace_last (u : Bytes) : IsSpace (DecodeLastRune (TrimSpace u)).1 = false := by
  rw [TrimSpace_eq_TrimFunc]
  unfold TrimFunc
  rcases TrimRightFunc_last (TrimLeftFunc u) with h | h
  · rw [h]; rfl
  · exact h

/-! ## sanitize against its reference procedure -/

theorem ReplaceAll_single (s : Bytes) (a b : Nat) :
    ReplaceAll s [a] [b] = s.map (fun c => if c = a then b else c) := by
  unfold ReplaceAll
  induction s with
  | nil => rfl
  | cons c cs ih =>
    rw [replaceAllAux]
    by_cases h : c = a
    · subst h
      simp [List.isPrefixOf, ih]
    · have hp : List.isPrefixOf [a] (c :: cs) = false := by
        simp [List.isPrefixOf]; exact fun e => h e.symm
      simp [hp, h, ih]

theorem ReplaceAll_nil (old new : Bytes) : ReplaceAll [] old new = [] := rfl

theorem ReplaceAll_one (a b c : Nat) (new : Bytes) : ReplaceAll [c] [a, b] new = [c] := by
  simp [ReplaceAll, replaceAllAux, List.isPrefixOf]

theorem ReplaceAll_pair (a b : Nat) (new : Bytes) (c d : Nat) (rest : Bytes) :
    ReplaceAll (c :: d :: rest) [a, b] new =
      if c = a ∧ d = b then new ++ ReplaceAll rest [a, b] new
      else c :: ReplaceAll (d :: rest) [a, b] new := by
  unfold ReplaceAll
  rw [replaceAllAux]
  by_cases h : c = a ∧ d = b
  · obtain ⟨rfl, rfl⟩ := h
    simp [List.isPrefixOf, replaceAllAux]
  · have hp : List.isPrefixOf [a, b] (c :: d :: rest) = false := by
      simp only [List.isPrefixOf, Bool.and_true, Bool.and_eq_false_imp, beq_iff_eq,
        beq_eq_false_iff_ne]
      intro e1 e2
      exact h ⟨e1.symm, e2.symm⟩
    rw [hp]
    simp [h]

/-- The three replacements of `sanitize` are the first step of the reference. -/
theorem newlines_eq (s : Bytes) :
    ReplaceAll (ReplaceAll (ReplaceAll s [0x0D, 0x0A] [0x20]) [0x0D] [0x20]) [0x0A] [0x20] =
      refNewlines s := by
  simp only [ReplaceAll_single]
  induction s using length_induction with
  | step s ih =>
    match s, ih with
    | [], _ => rfl
    | [c], _ =>
      rw [ReplaceAll_one, refNewlines]
      by_cases h1 : c = 0x0D
      · subst h1; rfl
      · by_cases h2 : c = 0x0A
        · subst h2; rfl
        · simp [h1, h2]
    | c :: d :: rest, ih =>
      rw [ReplaceAll_pair, refNewlines]
      by_cases h : c = 0x0D ∧ d = 0x0A
      · rw [if_pos h, if_pos h]
        have := ih rest (by simp only [List.length_cons]; omega)
        simp only [List.singleton_append, List.map_cons]
        rw [this]
        rfl
      · rw [if_neg h, if_neg h]
        have := ih (d :: rest) (by simp)
        simp only [List.map_cons]
        rw [this]
        by_cases h1 : c = 0x0D
        · subst h1; simp
        · by_cases h2 : c = 0x0A
          · subst h2; simp
          · simp [h1, h2]

theorem refCollapse_cons (c : Nat) (x : Bytes) :
    refCollapse (c :: x) =
      if c = 0x20 ∧ x.head? = some 0x20 then refCollapse x else c :: refCollapse x := by
  cases x with
  | nil => simp [refCollapse]
  | cons d rest =>
    rw [refCollapse]
    simp only [List.head?_cons, Option.some.injEq]

theorem refCollapse_head (x : Bytes) : (refCollapse x).head? = x.head? := by
  induction x using length_induction with
  | step x ih =>
    match x, ih with
    | [], _ => rfl
    | [c], _ => rfl
    | c :: d :: rest, ih =>
      rw [refCollapse]
      split_ifs with h
      · rw [ih (d :: rest) (by simp)]
        simp [h.1, h.2]
      · rfl

theorem refCollapse_congr (c : Nat) (x y : Bytes) (h : refCollapse x = refCollapse y) :
    refCollapse (c :: x) = refCollapse (c :: y) := by
  have hh : x.head? = y.head? := by
    rw [← refCollapse_head x, ← refCollapse_head y, h]
  rw [refCollapse_cons, refCollapse_cons, hh, h]

/-- A pass of the loop of `sanitize` does not change what the runs of spaces
collapse to. -/
theorem refCollapse_pass (t : Bytes) :
    refCollapse (ReplaceAll t [0x20, 0x20] [0x20]) = refCollapse t := by
  induction t using length_induction with
  | step t ih =>
    match t, ih with
    | [], _ => rfl
    | [c], _ => rw [ReplaceAll_one]
    | c :: d :: rest, ih =>
      rw [ReplaceAll_pair]
      by_cases h : c = 0x20 ∧ d = 0x20
      · rw [if_pos h]
        obtain ⟨rfl, rfl⟩ := h
        have h1 := ih rest (by simp only [List.length_cons]; omega)
        have h2 := refCollapse_congr 0x20 _ _ h1
        rw [List.singleton_append, h2]
        conv_rhs => rw [refCollapse]
        simp
      · rw [if_neg h]
        exact refCollapse_congr c _ _ (ih (d :: rest) (by simp))

/-- A string without two spaces in a row has no run to collapse. -/
theorem refCollapse_of_not_Contains (t : Bytes) (h : Contains t [0x20, 0x20] = false) :
    refCollapse t = t := by
  induction t using length_induction with
  | step t ih =>
    match t, ih, h with
    | [], _, _ => rfl
    | [c], _, _ => rfl
    | c :: d :: rest, ih, h =>
      rw [Contains, Bool.or_eq_false_iff] at h
      have hne : ¬ (c = 0x20 ∧ d = 0x20) := by
        rintro ⟨rfl, rfl⟩
        simp [List.isPrefixOf] at h
      rw [refCollapse, if_neg hne, ih (d :: rest) (by simp) h.2]

/-- The loop of `sanitize` is the second step of the reference. -/
theorem collapseSpaces_eq (n : Nat) (t : Bytes) (h : t.length ≤ n) :
    collapseSpaces n t = refCollapse t := by
  induction n generalizing t with
  | zero =>
    have : t = [] := List.length_eq_zero.mp (Nat.le_zero.mp h)
    subst this
    rfl
  | succ n ih =>
    rw [collapseSpaces]
    split_ifs with hc
    · have hlt := length_ReplaceAll_lt t [0x20, 0x20] [0x20] (by simp) hc
      rw [ih _ (by omega), refCollapse_pass]
    · exact (refCollapse_of_not_Contains t (by simpa using hc)).symm

/-- `sanitize` is the first two steps of the reference followed by
`strings.TrimSpace`. -/
theorem sanitize_eq_ref (s : Bytes) :
    sanitize s = TrimSpace (refCollapse (refNewlines s)) := by
  unfold sanitize
  simp only [newlines_eq, collapseSpaces_eq _ _ (le_refl _)]

/-! ## Facts about writing and reading back -/

theorem wellFormed_of_ascii (s : Bytes) (h : ∀ b ∈ s, b < 0x80) : wellFormed s = true := by
  induction s with
  | nil => rfl
  | cons c t ih =>
    have hc := h c (List.mem_cons_self _ _)
    rw [wellFormed_one c t (by omega)]
    exact ih (fun b hb => h b (List.mem_cons_of_mem _ hb))

/-- An ASCII text is taken for UTF-8. -/
theorem detectEncoding_of_ascii (s : Bytes) (h : ∀ b ∈ s, b < 0x80) :
    detectEncoding s = "utf-8" := by
  unfold detectEncoding
  have hw : Valid s = true := by rw [Valid_eq_wellFormed]; exact wellFormed_of_ascii s h
  have nohead : ∀ x : Nat, 0x80 ≤ x → ∀ p : Bytes, ¬ (x :: p).isPrefixOf s = true := by
    intro x hx p hp
    rw [List.isPrefixOf_iff_prefix] at hp
    obtain ⟨t, rfl⟩ := hp
    have := h x (by simp)
    omega
  simp only [nohead 0xEF (by omega), nohead 0xFF (by omega), nohead 0xFE (by omega), hw,
    if_true, if_false, Bool.false_eq_true]

theorem readCSVLoop_some (records : Records) :
    readCSVLoop (records.map some) = records.map (fun r => r.map sanitize) := by
  induction records with
  | nil => rfl
  | cons r rs ih => simp [readCSVLoop, ih]

/-- `ReadCSV` on an ASCII file: the records of the CSV reader, sanitized. -/
theorem ReadCSV_of_ascii (d : Decoders) (csvRead : Bytes → List (Option (List Bytes)))
    (data : Bytes) (h : ∀ b ∈ data, b < 0x80) :
    ReadCSV d csvRead (.regular data) = .ok (readCSVLoop (csvRead data)) := by
  unfold ReadCSV
  have he := detectEncoding_of_ascii (data.take 4096) (fun b hb => h b (List.mem_of_mem_take hb))
  simp [he, toUTF8Reader]

/-- A conversion by `ToJSON` that succeeds had at least one row to write,
and reports one less than the number of rows. -/
theorem ToJSON_count (L : Libs) (seed : Nat) (created encoded : Bool) (f : File) (n : Int)
    (h : ToJSON L seed created encoded f = .ok n) :
    ∃ records, Read L seed f = .ok records ∧ records ≠ [] ∧
      n = (records.length : Int) - 1 ∧ 0 ≤ n := by
  unfold ToJSON at h
  split at h
  · cases h
  · rename_i records hr
    split at h
    · cases h
    · rename_i data hw
      cases h
      cases records with
      | nil => simp [WriteJSON] at hw
      | cons header rows =>
        refine ⟨header :: rows, hr, by simp, rfl, ?_⟩
        simp only [List.length_cons, Nat.cast_add, Nat.cast_one]
        omega

/-- A conversion by `ToXLSX` that succeeds had at least one row to write,
and reports one less than the number of rows. -/
theorem ToXLSX_count (L : Libs) (seed : Nat) (created : Bool) (f : File) (n : Int)
    (h : ToXLSX L seed created f = .ok n) :
    ∃ records, Read L seed f = .ok records ∧ records ≠ [] ∧
      n = (records.length : Int) - 1 ∧ 0 ≤ n := by
  unfold ToXLSX at h
  split at h
  · cases h
  · rename_i records hr
    split at h
    · cases h
    · rename_i data hw
      cases h
      cases records with
      | nil => simp [WriteXLSX] at hw
      | cons header rows =>
        refine ⟨header :: rows, hr, by simp, rfl, ?_⟩
        simp only [List.length_cons, Nat.cast_add, Nat.cast_one]
        omega

/-! ## Facts about the range statement of ReadJSON -/

theorem foldl_append_singleton {α : Type} (l init : List α) :
    l.foldl (fun header key => header ++ [key]) init = init ++ l := by
  induction l generalizing init with
  | nil => simp
  | cons a l ih => simp [ih]

/-- `range` hands out every key of the map once. -/
theorem rangeKeys_perm (seed : Nat) (keys : List Bytes) : (rangeKeys seed keys).Perm keys := by
  unfold rangeKeys
  by_cases h : seed < (List.permutations' keys).length
  · rw [List.getD_eq_getElem _ _ h]
    exact List.mem_permutations'.mp (List.getElem_mem h)
  · rw [List.getD_eq_default _ _ (by omega)]

/-- Every order of the keys is the order of some run. -/
theorem rangeKeys_surj (keys p : List Bytes) (h : p.Perm keys) :
    ∃ seed, rangeKeys seed keys = p := by
  have hm : p ∈ List.permutations' keys := List.mem_permutations'.mpr h
  obtain ⟨i, hi, hp⟩ := List.getElem_of_mem hm
  exact ⟨i, by unfold rangeKeys; rw [List.getD_eq_getElem _ _ hi, hp]⟩

theorem rangeKeys_singleton (seed : Nat) (key : Bytes) : rangeKeys seed [key] = [key] :=
  List.perm_singleton.mp (rangeKeys_perm seed [key])

/-- `ReadJSON` on an array with a first element: the header is what `range`
hands out for the keys of that element. -/
theorem ReadJSON_array (item0 : GoMap JValue) (more : List (GoMap JValue)) (seed : Nat) :
    ReadJSON (.array (item0 :: more)) seed =
      .ok (rangeKeys seed item0.keys ::
        (item0 :: more).map (projectItem (rangeKeys seed item0.keys))) := by
  unfold ReadJSON
  simp only [foldl_append_singleton, List.nil_append]

/-! ## Facts about the JSON encoder -/

theorem jsonStringFuel_of_valid (fuel : Nat) (s : Bytes) (hf : s.length ≤ fuel)
    (hv : Valid s = true) : jsonStringFuel fuel s = s := by
  induction fuel generalizing s with
  | zero =>
    have : s = [] := List.length_eq_zero.mp (Nat.le_zero.mp hf)
    subst this
    rfl
  | succ fuel ih =>
    cases s with
    | nil => rfl
    | cons b rest =>
      simp only [List.length_cons, Nat.succ_le_succ_iff] at hf
      unfold jsonStringFuel
      by_cases hb : b < 0x80
      · rw [if_pos hb, ih rest hf (by rw [← Valid_ascii b rest hb]; exact hv)]
      · rw [if_neg hb]
        by_cases he : DecodeRune (b :: rest) = (RuneError, 1)
        · rw [Valid_of_error b rest he] at hv
          cases hv
        · rw [if_neg he]
          rw [Valid_cons, if_neg he] at hv
          have hw := DecodeRune_width_pos b rest
          rw [ih _ (by rw [List.length_drop, List.length_cons]; omega) hv,
            List.take_append_drop]

/-- A string of valid UTF-8 is written as it is. -/
theorem jsonString_of_valid (s : Bytes) (hv : Valid s = true) : jsonString s = s :=
  jsonStringFuel_of_valid s.length s (Nat.le_refl _) hv

theorem sortKeys_perm (keys : List Bytes) : (sortKeys keys).Perm keys :=
  List.perm_insertionSort _ keys

theorem map_id_of_forall {α : Type} (f : α → α) (l : List α) (h : ∀ x ∈ l, f x = x) :
    l.map f = l := by
  induction l with
  | nil => rfl
  | cons a l ih =>
    rw [List.map_cons, h a (List.mem_cons_self _ _),
      ih (fun x hx => h x (List.mem_cons_of_mem _ hx))]

theorem getD_valid (row : List Bytes) (i : Nat) (h : ∀ cell ∈ row, Valid cell = true) :
    Valid (row.getD i []) = true := by
  by_cases hi : i < row.length
  · rw [List.getD_eq_getElem _ _ hi]
    exact h _ (List.getElem_mem hi)
  · rw [List.getD_eq_default _ _ (by omega)]
    rfl

/-- The names of the object written for a row, when the header names are
pairwise distinct and valid UTF-8: the header names, sorted. -/
theorem encodeItem_names (header row : List Bytes) (hn : header.Nodup)
    (hh : ∀ name ∈ header, Valid name = true) :
    (encodeItem (rowItem header row)).map Prod.fst = sortKeys (rowItem header row).keys := by
  unfold encodeItem
  rw [List.map_map]
  apply map_id_of_forall
  intro key hkey
  have hk : key ∈ header :=
    (rowItem_keys header row hn).subset ((sortKeys_perm _).subset hkey)
  exact jsonString_of_valid key (hh key hk)

theorem encodeItem_names_perm (header row : List Bytes) (hn : header.Nodup)
    (hh : ∀ name ∈ header, Valid name = true) :
    ((encodeItem (rowItem header row)).map Prod.fst).Perm header := by
  rw [encodeItem_names header row hn hh]
  exact (sortKeys_perm _).trans (rowItem_keys header row hn)

/-- The member that the object written for a row has for a header name, when
names and cells are valid UTF-8. -/
theorem encodeItem_mem (header row : List Bytes) (hn : header.Nodup)
    (hh : ∀ name ∈ header, Valid name = true) (hc : ∀ cell ∈ row, Valid cell = true)
    (i : Nat) (hi : i < header.length) :
    (header.getD i [], row.getD i []) ∈ encodeItem (rowItem header row) := by
  have hmem : header.getD i [] ∈ header := by
    rw [List.getD_eq_getElem _ _ hi]; exact List.getElem_mem hi
  unfold encodeItem
  rw [List.mem_map]
  refine ⟨header.getD i [], ?_, ?_⟩
  · exact (sortKeys_perm _).symm.subset ((rowItem_keys header row hn).symm.subset hmem)
  · rw [rowItem_lookup header row hn i hi, jsonString_of_valid _ (hh _ hmem)]
    simp only [Option.getD_some]
    rw [jsonString_of_valid _ (getD_valid row i hc)]

/-- The value that the object written for a row has under a header name,
when names and cells are valid UTF-8. -/
theorem encodeItem_lookup (header row : List Bytes) (hn : header.Nodup)
    (hh : ∀ name ∈ header, Valid name = true) (hc : ∀ cell ∈ row, Valid cell = true)
    (i : Nat) (hi : i < header.length) :
    (encodeItem (rowItem header row)).lookup (header.getD i []) = some (row.getD i []) :=
  lookup_of_mem _ _ _ ((encodeItem_names_perm header row hn hh).nodup_iff.mpr hn)
    (encodeItem_mem header row hn hh hc i hi)

theorem getD_of_length_le (row : List Bytes) (i : Nat) :
    row.getD i [] = if i < row.length then row.getD i [] else [] := by
  split_ifs with h
  · rfl
  · exact List.getD_eq_default _ _ (by omega)

theorem WriteJSON_ok (header : List Bytes) (rows : Records) :
    WriteJSON (header :: rows) true true = .ok (encodeData (rows.map (rowItem header))) := rfl

theorem encodeData_objects (data : List (GoMap Bytes)) :
    (encodeData data).objects = data.map encodeItem := by
  cases data <;> rfl

/-! ## Facts about the CSV writer -/

theorem mem_writeQuoted (f : Bytes) (c : Nat) (h : c ∈ writeQuoted f) : c ∈ f ∨ c = 0x22 := by
  induction f with
  | nil => simp [writeQuoted] at h
  | cons a f ih =>
    unfold writeQuoted at h
    split_ifs at h with ha
    · simp only [List.mem_cons] at h
      rcases h with h | h | h
      · exact Or.inr h
      · exact Or.inr h
      · rcases ih h with h | h
        · exact Or.inl (List.mem_cons_of_mem _ h)
        · exact Or.inr h
    · rw [List.mem_cons] at h
      rcases h with h | h
      · exact Or.inl (by rw [h]; exact List.mem_cons_self _ _)
      · rcases ih h with h | h
        · exact Or.inl (List.mem_cons_of_mem _ h)
        · exact Or.inr h

theorem mem_writeField (f : Bytes) (c : Nat) (h : c ∈ writeField f) : c ∈ f ∨ c = 0x22 := by
  unfold writeField at h
  split_ifs at h
  · simp only [List.mem_cons, List.mem_append, List.mem_singleton, List.not_mem_nil,
      or_false] at h
    rcases h with h | h | h
    · exact Or.inr h
    · exact mem_writeQuoted f c h
    · exact Or.inr h
  · exact Or.inl h

theorem length_writeQuoted (f : Bytes) : f.length ≤ (writeQuoted f).length := by
  induction f with
  | nil => simp [writeQuoted]
  | cons a f ih =>
    unfold writeQuoted
    split_ifs <;> simp only [List.length_cons] <;> omega

/-- What `Write` writes after the first field is a line end: bytes of the
fields, quotes and commas, and then the newline. -/
theorem writeRest_eq (rest : List Bytes) :
    ∃ body, writeRest rest = body ++ [0x0A] ∧
      ∀ c ∈ body, (∃ f ∈ rest, c ∈ f) ∨ c = 0x22 ∨ c = 0x2C := by
  induction rest with
  | nil => exact ⟨[], rfl, by simp⟩
  | cons g rest ih =>
    obtain ⟨body, hb, hc⟩ := ih
    refine ⟨0x2C :: (writeField g ++ body), by simp [writeRest, hb], ?_⟩
    intro c hmem
    simp only [List.mem_cons, List.mem_append] at hmem
    rcases hmem with h | h | h
    · exact Or.inr (Or.inr h)
    · rcases mem_writeField g c h with h | h
      · exact Or.inl ⟨g, List.mem_cons_self _ _, h⟩
      · exact Or.inr (Or.inl h)
    · rcases hc c h with ⟨f, hf, hcf⟩ | h
      · exact Or.inl ⟨f, List.mem_cons_of_mem _ hf, hcf⟩
      · exact Or.inr h

/-- The text written for a record: bytes of its fields, quotes and commas,
and then the newline. -/
theorem writeRecord_eq (record : List Bytes) :
    ∃ body, writeRecord record = body ++ [0x0A] ∧
      (∀ c ∈ body, (∃ f ∈ record, c ∈ f) ∨ c = 0x22 ∨ c = 0x2C) ∧
      (record ≠ [] → record ≠ [[]] → body ≠ []) := by
  cases record with
  | nil => exact ⟨[], rfl, by simp, fun h => absurd rfl h⟩
  | cons f rest =>
    obtain ⟨body, hb, hc⟩ := writeRest_eq rest
    refine ⟨writeField f ++ body, by simp [writeRecord, hb], ?_, ?_⟩
    · intro c hmem
      rw [List.mem_append] at hmem
      rcases hmem with h | h
      · rcases mem_writeField f c h with h | h
        · exact Or.inl ⟨f, List.mem_cons_self _ _, h⟩
        · exact Or.inr (Or.inl h)
      · rcases hc c h with ⟨g, hg, hcg⟩ | h
        · exact Or.inl ⟨g, List.mem_cons_of_mem _ hg, hcg⟩
        · exact Or.inr h
    · intro _ hne hnil
      rw [List.append_eq_nil] at hnil
      obtain ⟨hf, hbody⟩ := hnil
      cases rest with
      | nil =>
        apply hne
        have : f = [] := by
          unfold writeField at hf
          by_cases hq : fieldNeedsQuotes f = true
          · rw [if_pos hq] at hf
            cases hf
          · rw [if_neg hq] at hf
            exact hf
        rw [this]
      | cons g rest =>
        rw [hbody] at hb
        simp [writeRest] at hb

theorem printable_iff (s : Bytes) : printable s = true ↔ ∀ c ∈ s, 0x20 ≤ c ∧ c ≤ 0x7E := by
  unfold printable
  simp [List.all_eq_true]

/-- The text written for records of printable cells is ASCII. -/
theorem csvWriter_ascii (records : Records)
    (hp : ∀ r ∈ records, ∀ cell ∈ r, printable cell = true) :
    ∀ b ∈ csvWriter records, b < 0x80 := by
  intro b hb
  unfold csvWriter at hb
  rw [List.mem_flatMap] at hb
  obtain ⟨r, hr, hbr⟩ := hb
  obtain ⟨body, he, hc, _⟩ := writeRecord_eq r
  rw [he, List.mem_append, List.mem_singleton] at hbr
  rcases hbr with h | h
  · rcases hc b h with ⟨f, hf, hbf⟩ | h | h
    · have := (printable_iff f).mp (hp r hr f hf) b hbf
      omega
    · omega
    · omega
  · omega

/-! ## Facts about the CSV reader -/

theorem getLast?_ne_of_not_mem (l : Bytes) (x : Nat) (h : x ∉ l) : l.getLast? ≠ some x := by
  intro hl
  rw [List.getLast?_eq_some_iff] at hl
  obtain ⟨ys, rfl⟩ := hl
  exact h (by simp)

/-- `readLine` over a line without carriage return: the line as it is. -/
theorem readLines_line (cur body rest : Bytes)
    (hcur : 0x0D ∉ cur) (hb : ∀ c ∈ body, c ≠ 0x0A ∧ c ≠ 0x0D) :
    readLines cur (body ++ 0x0A :: rest) = (cur ++ body ++ [0x0A]) :: readLines [] rest := by
  induction body generalizing cur with
  | nil =>
    simp only [List.nil_append, List.append_nil]
    rw [readLines, if_pos rfl, if_neg (getLast?_ne_of_not_mem cur 0x0D hcur)]
  | cons c body ih =>
    have hc := hb c (List.mem_cons_self _ _)
    rw [List.cons_append, readLines, if_neg hc.1,
      ih (cur ++ [c]) (by simp [hcur, Ne.symm hc.2])
        (fun x hx => hb x (List.mem_cons_of_mem _ hx))]
    simp

/-- The lines of the text written for records of printable cells: one for
each record. -/
theorem readLines_csvWriter (records : Records)
    (hp : ∀ r ∈ records, ∀ cell ∈ r, printable cell = true) :
    readLines [] (csvWriter records) = records.map writeRecord := by
  induction records with
  | nil => rfl
  | cons r rs ih =>
    obtain ⟨body, he, hc, _⟩ := writeRecord_eq r
    have hbody : ∀ c ∈ body, c ≠ 0x0A ∧ c ≠ 0x0D := by
      intro c hcb
      rcases hc c hcb with ⟨f, hf, hcf⟩ | h | h
      · have := (printable_iff f).mp (hp r (List.mem_cons_self _ _) f hf) c hcf
        omega
      · omega
      · omega
    have hw : csvWriter (r :: rs) = body ++ 0x0A :: csvWriter rs := by
      unfold csvWriter
      rw [List.flatMap_cons, he]
      simp
    rw [hw, readLines_line [] body _ (by simp) hbody,
      ih (fun r2 hr2 => hp r2 (List.mem_cons_of_mem _ hr2)), List.map_cons, he]
    simp

theorem takeWhile_comma (f t : Bytes) (h : 0x2C ∉ f) :
    (f ++ 0x2C :: t).takeWhile (fun c => decide (c ≠ 0x2C)) = f ∧
    (f ++ 0x2C :: t).dropWhile (fun c => decide (c ≠ 0x2C)) = 0x2C :: t := by
  induction f with
  | nil => simp
  | cons a f ih =>
    have ha : a ≠ 0x2C := fun e => h (by rw [e]; exact List.mem_cons_self _ _)
    have ih2 := ih (fun hm => h (List.mem_cons_of_mem _ hm))
    simp only [List.cons_append, List.takeWhile_cons, List.dropWhile_cons, ha, ne_eq,
      not_false_eq_true, decide_True, if_true]
    exact ⟨by rw [ih2.1], ih2.2⟩

/-- A field without quotes, comma or newline is written as it is, and does
not begin with white space. -/
theorem not_fieldNeedsQuotes (f : Bytes) (h : fieldNeedsQuotes f = false) :
    writeField f = f ∧ 0x2C ∉ f ∧ 0x0A ∉ f ∧ f.head? ≠ some 0x22 := by
  have hw : writeField f = f := by
    unfold writeField
    rw [h]
    rfl
  refine ⟨hw, ?_⟩
  unfold fieldNeedsQuotes at h
  by_cases hnil : f = []
  · subst hnil
    simp
  · rw [if_neg hnil] at h
    split_ifs at h with h1 h2
    rw [Bool.not_eq_true, List.any_eq_false] at h2
    have key : ∀ c ∈ f, c ≠ 0x0A ∧ c ≠ 0x22 ∧ c ≠ 0x2C := by
      intro c hc
      have := h2 c hc
      simp only [Bool.or_eq_true, decide_eq_true_eq, not_or] at this
      exact ⟨this.1.1.1, this.1.2, this.2⟩
    refine ⟨fun hm => (key _ hm).2.2 rfl, fun hm => (key _ hm).1 rfl, ?_⟩
    intro hh
    cases f with
    | nil => exact hnil rfl
    | cons a f =>
      simp only [List.head?_cons, Option.some.injEq] at hh
      exact (key a (List.mem_cons_self _ _)).2.1 hh

/-- The field loop at a field written without quotes, before a comma. -/
theorem parseField_plain_comma (fuel : Nat) (f t : Bytes) (more fields : List Bytes)
    (hq : f.head? ≠ some 0x22) (hc : 0x2C ∉ f) :
    parseField (fuel + 1) none (f ++ 0x2C :: t) more fields =
      parseField fuel none t more (fields ++ [f]) := by
  have hhead : (f ++ 0x2C :: t).head? ≠ some 0x22 := by
    cases f with
    | nil => simp
    | cons a f => simpa using hq
  have hmem : 0x2C ∈ f ++ 0x2C :: t := by simp
  obtain ⟨h1, h2⟩ := takeWhile_comma f t hc
  rw [parseField, if_neg hhead, if_pos hmem, h1, h2]
  rfl

theorem lengthNL_append (f : Bytes) : lengthNL (f ++ [0x0A]) = 1 := by
  unfold lengthNL
  rw [List.getLast?_append]
  rfl

/-- The field loop at a field written without quotes, the last of its line. -/
theorem parseField_plain_last (fuel : Nat) (f : Bytes) (more fields : List Bytes)
    (hq : f.head? ≠ some 0x22) (hc : 0x2C ∉ f) :
    parseField (fuel + 1) none (f ++ [0x0A]) more fields = (fields ++ [f], more) := by
  have hhead : (f ++ [0x0A]).head? ≠ some 0x22 := by
    cases f with
    | nil => simp
    | cons a f => simpa using hq
  have hmem : 0x2C ∉ f ++ [0x0A] := by simp [hc]
  rw [parseField, if_neg hhead, if_neg hmem, lengthNL_append]
  simp

/-- The field loop inside quotes, over what the writer wrote for the field. -/
theorem parseField_quoted (fuel : Nat) (f buf tl : Bytes) (more fields : List Bytes) :
    parseField (fuel + f.length) (some buf) (writeQuoted f ++ tl) more fields =
      parseField fuel (some (buf ++ f)) tl more fields := by
  induction f generalizing buf with
  | nil => simp [writeQuoted]
  | cons a f ih =>
    rw [List.length_cons, ← Nat.add_assoc]
    unfold writeQuoted
    by_cases ha : a = 0x22
    · rw [if_pos ha, ha]
      rw [List.cons_append, List.cons_append, parseField]
      simp only [if_true, List.head?_cons, List.tail_cons]
      rw [ih]
      simp
    · rw [if_neg ha, List.cons_append, parseField]
      simp only [if_neg ha]
      rw [ih]
      simp

theorem parseField_open (fuel : Nat) (l : Bytes) (more fields : List Bytes) :
    parseField (fuel + 1) none (0x22 :: l) more fields =
      parseField fuel (some []) l more fields := by
  rw [parseField, if_pos (show (0x22 :: l).head? = some 0x22 from rfl)]
  rfl

theorem parseField_close_comma (fuel : Nat) (buf t : Bytes) (more fields : List Bytes) :
    parseField (fuel + 1) (some buf) (0x22 :: 0x2C :: t) more fields =
      parseField fuel none t more (fields ++ [buf]) := by
  rw [parseField]
  simp

theorem parseField_close_last (fuel : Nat) (buf : Bytes) (more fields : List Bytes) :
    parseField (fuel + 1) (some buf) [0x22, 0x0A] more fields = (fields ++ [buf], more) := by
  rw [parseField]
  simp [lengthNL]

/-- The field loop reads back a field the writer wrote before a comma. -/
theorem parseField_field_comma (f : Bytes) :
    ∃ n, n ≤ (writeField f).length + 1 ∧ ∀ fuel t more fields,
      parseField (fuel + n) none (writeField f ++ 0x2C :: t) more fields =
        parseField fuel none t more (fields ++ [f]) := by
  by_cases hq : fieldNeedsQuotes f = true
  · refine ⟨f.length + 2, ?_, ?_⟩
    · unfold writeField
      rw [if_pos hq]
      have := length_writeQuoted f
      simp only [List.length_cons, List.length_append, List.length_singleton]
      omega
    · intro fuel t more fields
      unfold writeField
      rw [if_pos hq]
      show parseField ((fuel + f.length + 1) + 1) none
        (0x22 :: ((writeQuoted f ++ [0x22]) ++ 0x2C :: t)) more fields = _
      rw [parseField_open, show fuel + f.length + 1 = (fuel + 1) + f.length from by omega,
        List.append_assoc, parseField_quoted]
      exact parseField_close_comma fuel _ t more fields
  · rw [Bool.not_eq_true] at hq
    obtain ⟨hw, hc, _, hh⟩ := not_fieldNeedsQuotes f hq
    refine ⟨1, by omega, ?_⟩
    intro fuel t more fields
    rw [hw]
    exact parseField_plain_comma fuel f t more fields hh hc

/-- The field loop reads back a field the writer wrote at the end of a line. -/
theorem parseField_field_last (f : Bytes) :
    ∃ n, n ≤ (writeField f).length + 1 ∧ ∀ fuel more fields,
      parseField (fuel + n) none (writeField f ++ [0x0A]) more fields =
        (fields ++ [f], more) := by
  by_cases hq : fieldNeedsQuotes f = true
  · refine ⟨f.length + 2, ?_, ?_⟩
    · unfold writeField
      rw [if_pos hq]
      have := length_writeQuoted f
      simp only [List.length_cons, List.length_append, List.length_singleton]
      omega
    · intro fuel more fields
      unfold writeField
      rw [if_pos hq]
      show parseField ((fuel + f.length + 1) + 1) none
        (0x22 :: ((writeQuoted f ++ [0x22]) ++ [0x0A])) more fields = _
      rw [parseField_open, show fuel + f.length + 1 = (fuel + 1) + f.length from by omega,
        List.append_assoc, parseField_quoted]
      exact parseField_close_last fuel _ more fields
  · rw [Bool.not_eq_true] at hq
    obtain ⟨hw, hc, _, hh⟩ := not_fieldNeedsQuotes f hq
    refine ⟨1, by omega, ?_⟩
    intro fuel more fields
    rw [hw]
    exact parseField_plain_last fuel f more fields hh hc

/-- The field loop reads back the fields of a record from the line the
writer wrote for it, in steps no more than the line has bytes. -/
theorem parseField_record (f : Bytes) (rest : List Bytes) :
    ∃ n, n ≤ (writeField f ++ writeRest rest).length ∧ ∀ fuel more fields,
      parseField (fuel + n) none (writeField f ++ writeRest rest) more fields =
        (fields ++ f :: rest, more) := by
  induction rest generalizing f with
  | nil =>
    obtain ⟨n, hn, h⟩ := parseField_field_last f
    exact ⟨n, by simpa [writeRest] using hn, fun fuel more fields => h fuel more fields⟩
  | cons g rest ih =>
    obtain ⟨m, hm, hrest⟩ := ih g
    obtain ⟨n, hn, h⟩ := parseField_field_comma f
    refine ⟨m + n, ?_, ?_⟩
    · simp only [writeRest, List.length_append, List.length_cons] at hm ⊢
      omega
    · intro fuel more fields
      rw [← Nat.add_assoc, writeRest, h, hrest]
      simp

theorem writeRecord_length (r : List Bytes) (h1 : r ≠ []) (h2 : r ≠ [[]]) :
    lengthNL (writeRecord r) = 1 ∧ 2 ≤ (writeRecord r).length := by
  obtain ⟨body, he, _, hne⟩ := writeRecord_eq r
  rw [he, lengthNL_append]
  have hb : body ≠ [] := hne h1 h2
  have hpos : 0 < body.length := List.length_pos.mpr hb
  refine ⟨rfl, ?_⟩
  rw [List.length_append, List.length_singleton]
  omega

/-- The reader reads back the records from the lines the writer wrote for
them, when no record is empty or one empty field. -/
theorem readRecords_written (fuel : Nat) (records : Records) (hf : records.length ≤ fuel)
    (hne : ∀ r ∈ records, r ≠ [] ∧ r ≠ [[]]) :
    readRecords fuel (records.map writeRecord) = records := by
  induction records generalizing fuel with
  | nil => cases fuel <;> rfl
  | cons r rs ih =>
    cases fuel with
    | zero => simp at hf
    | succ fuel =>
      simp only [List.length_cons, Nat.succ_le_succ_iff] at hf
      obtain ⟨h1, h2⟩ := hne r (List.mem_cons_self _ _)
      obtain ⟨hnl, hlen⟩ := writeRecord_length r h1 h2
      cases r with
      | nil => exact absurd rfl h1
      | cons f rest =>
        obtain ⟨n, hn, hparse⟩ := parseField_record f rest
        rw [List.map_cons, readRecords, if_neg (by rw [hnl]; omega)]
        have hw : writeRecord (f :: rest) = writeField f ++ writeRest rest := rfl
        rw [hw] at hlen ⊢
        obtain ⟨k, hk⟩ : ∃ k, (writeField f ++ writeRest rest).length +
            (rs.map writeRecord).flatten.length + (rs.map writeRecord).length + 1 = k + n :=
          ⟨(writeField f ++ writeRest rest).length +
            (rs.map writeRecord).flatten.length + (rs.map writeRecord).length + 1 - n, by omega⟩
        simp only [hk, hparse, List.nil_append]
        rw [ih fuel hf (fun r2 hr2 => hne r2 (List.mem_cons_of_mem _ hr2))]

/-- The CSV reader reads back what the CSV writer wrote for records of
printable cells, none of them empty or one empty field. -/
theorem csvReader_csvWriter (records : Records)
    (hp : ∀ r ∈ records, ∀ cell ∈ r, printable cell = true)
    (hne : ∀ r ∈ records, r ≠ [] ∧ r ≠ [[]]) :
    csvReader (csvWriter records) = records.map some := by
  unfold csvReader
  rw [readLines_csvWriter records hp, List.length_map,
    readRecords_written _ records (Nat.le_refl _) hne]

/-! ## Facts about the JSON round trip -/

theorem Valid_of_printable (s : Bytes) (h : printable s = true) : Valid s = true := by
  rw [Valid_eq_wellFormed]
  apply wellFormed_of_ascii
  intro b hb
  have := (printable_iff s).mp h b hb
  omega

/-- The names of the map decoded from the object written for a row. -/
theorem decoded_fst (object : JsonObject) :
    (object.reverse.map (fun e => (e.1, JValue.str e.2))).map Prod.fst =
      (object.map Prod.fst).reverse := by
  rw [List.map_map, List.map_reverse]
  rfl

/-- The keys of the map decoded from the object written for a row: the
header names. -/
theorem decoded_keys (header row : List Bytes) (hn : header.Nodup)
    (hh : ∀ name ∈ header, Valid name = true) :
    (GoMap.keys ((encodeItem (rowItem header row)).reverse.map
      (fun e => (e.1, JValue.str e.2)))).Perm header := by
  have hp := encodeItem_names_perm header row hn hh
  unfold GoMap.keys
  rw [decoded_fst, (List.nodup_reverse.mpr (hp.nodup_iff.mpr hn)).dedup]
  exact (List.reverse_perm _).trans hp

/-- The value under a header name in the map decoded from the object
written for a row. -/
theorem decoded_lookup (header row : List Bytes) (hn : header.Nodup)
    (hh : ∀ name ∈ header, Valid name = true) (hc : ∀ cell ∈ row, Valid cell = true)
    (i : Nat) (hi : i < header.length) :
    List.lookup (header.getD i []) ((encodeItem (rowItem header row)).reverse.map
      (fun e => (e.1, JValue.str e.2))) = some (JValue.str (row.getD i [])) := by
  apply lookup_of_mem
  · rw [decoded_fst]
    exact List.nodup_reverse.mpr ((encodeItem_names_perm header row hn hh).nodup_iff.mpr hn)
  · rw [List.mem_map]
    exact ⟨(header.getD i [], row.getD i []),
      List.mem_reverse.mpr (encodeItem_mem header row hn hh hc i hi), rfl⟩

/-! ## The bounds of the scans are enough -/

/-- The scan of the JSON encoder over a string needs no more steps than the
string has bytes. -/
theorem jsonStringFuel_fuel (n m : Nat) (s : Bytes) (hn : s.length ≤ n) (hm : s.length ≤ m) :
    jsonStringFuel n s = jsonStringFuel m s := by
  induction n generalizing m s with
  | zero =>
    have : s = [] := List.length_eq_zero.mp (Nat.le_zero.mp hn)
    subst this
    cases m <;> rfl
  | succ n ih =>
    cases s with
    | nil => cases m <;> rfl
    | cons b rest =>
      cases m with
      | zero => simp at hm
      | succ m =>
        simp only [List.length_cons, Nat.succ_le_succ_iff] at hn hm
        have hw := DecodeRune_width_pos b rest
        have hd : ((b :: rest).drop (DecodeRune (b :: rest)).2).length ≤ rest.length := by
          rw [List.length_drop, List.length_cons]; omega
        simp only [jsonStringFuel]
        rw [ih m rest hn hm, ih m _ (by omega) (by omega)]

theorem length_dropWhile_tail (line : Bytes) (h : 0x2C ∈ line) :
    ((line.dropWhile (fun c => decide (c ≠ 0x2C))).tail).length < line.length := by
  induction line with
  | nil => simp at h
  | cons a line ih =>
    by_cases ha : a = 0x2C
    · subst ha
      simp
    · have hm : 0x2C ∈ line := by
        rcases List.mem_cons.mp h with h | h
        · exact absurd h.symm ha
        · exact h
      have := ih hm
      rw [List.dropWhile_cons_of_pos (by simp [ha]), List.length_cons]
      omega

/-- The field loop needs no more steps than there are bytes and lines left. -/
theorem parseField_fuel (n m : Nat) (quoted : Option Bytes) (line : Bytes)
    (more fields : List Bytes)
    (hn : line.length + more.flatten.length + more.length < n)
    (hm : line.length + more.flatten.length + more.length < m) :
    parseField n quoted line more fields = parseField m quoted line more fields := by
  induction n generalizing m quoted line more fields with
  | zero => omega
  | succ n ih =>
    cases m with
    | zero => omega
    | succ m =>
      cases quoted with
      | none =>
        simp only [parseField]
        by_cases hq : line.head? = some 0x22
        · rw [if_pos hq, if_pos hq]
          have hl : line.tail.length < line.length := by
            cases line with
            | nil => simp at hq
            | cons a l => simp
          exact ih m _ _ _ _ (by omega) (by omega)
        · rw [if_neg hq, if_neg hq]
          by_cases hc : 0x2C ∈ line
          · rw [if_pos hc, if_pos hc]
            have hl := length_dropWhile_tail line hc
            exact ih m _ _ _ _ (by omega) (by omega)
          · rw [if_neg hc, if_neg hc]
      | some buf =>
        cases line with
        | nil =>
          cases more with
          | nil => simp only [parseField]
          | cons next more2 =>
            simp only [parseField]
            simp only [List.flatten_cons, List.length_append, List.length_cons,
              List.length_nil] at hn hm
            exact ih m _ _ _ _ (by omega) (by omega)
        | cons c rest =>
          simp only [parseField]
          simp only [List.length_cons] at hn hm
          have ht : rest.tail.length ≤ rest.length := by simp
          by_cases hc : c = 0x22
          · rw [if_pos hc, if_pos hc]
            by_cases h1 : rest.head? = some 0x22
            · rw [if_pos h1, if_pos h1]
              exact ih m _ _ _ _ (by omega) (by omega)
            · rw [if_neg h1, if_neg h1]
              by_cases h2 : rest.head? = some 0x2C
              · rw [if_pos h2, if_pos h2]
                exact ih m _ _ _ _ (by omega) (by omega)
              · rw [if_neg h2, if_neg h2]
                by_cases h3 : rest.length = lengthNL rest
                · rw [if_pos h3, if_pos h3]
                · rw [if_neg h3, if_neg h3]
                  exact ih m _ _ _ _ (by omega) (by omega)
          · rw [if_neg hc, if_neg hc]
            exact ih m _ _ _ _ (by omega) (by omega)

/-- The field loop hands back no more lines than it was given. -/
theorem parseField_lines (n : Nat) (quoted : Option Bytes) (line : Bytes)
    (more fields : List Bytes) :
    (parseField n quoted line more fields).2.length ≤ more.length := by
  induction n generalizing quoted line more fields with
  | zero => simp [parseField]
  | succ n ih =>
    cases quoted with
    | none =>
      simp only [parseField]
      split_ifs
      · exact ih _ _ _ _
      · exact ih _ _ _ _
      · exact Nat.le_refl _
    | some buf =>
      cases line with
      | nil =>
        cases more with
        | nil => simp [parseField]
        | cons next more2 =>
          simp only [parseField, List.length_cons]
          exact Nat.le_succ_of_le (ih _ _ _ _)
      | cons c rest =>
        simp only [parseField]
        split_ifs
        · exact ih _ _ _ _
        · exact ih _ _ _ _
        · exact Nat.le_refl _
        · exact ih _ _ _ _
        · exact ih _ _ _ _

/-- The loop over the records needs no more steps than there are lines. -/
theorem readRecords_fuel (n m : Nat) (lines : List Bytes) (hn : lines.length ≤ n)
    (hm : lines.length ≤ m) : readRecords n lines = readRecords m lines := by
  induction n generalizing m lines with
  | zero =>
    have : lines = [] := List.length_eq_zero.mp (Nat.le_zero.mp hn)
    subst this
    cases m <;> rfl
  | succ n ih =>
    cases lines with
    | nil => cases m <;> rfl
    | cons line more =>
      cases m with
      | zero => simp at hm
      | succ m =>
        simp only [List.length_cons, Nat.succ_le_succ_iff] at hn hm
        simp only [readRecords]
        have hl := parseField_lines (line.length + more.flatten.length + more.length + 1)
          none line more []
        split_ifs
        · exact ih m more hn hm
        · rw [ih m _ (by omega) (by omega)]

/-- Header names that are not valid UTF-8, through `WriteJSON` and back: the
two members written for `\xff` and `\xfe` have the one name U+FFFD, and
the map decoded from them has one key, with the value written last. -/
theorem ReadJSON_of_invalid_names (seed : Nat) :
    WriteJSON [[[0xFF], [0xFE]], [ascii "1", ascii "2"]] true true
      = .ok (.array [[([0xEF, 0xBF, 0xBD], ascii "2"), ([0xEF, 0xBF, 0xBD], ascii "1")]]) ∧
    ReadJSON (jsonDecoded
        (.array [[([0xEF, 0xBF, 0xBD], ascii "2"), ([0xEF, 0xBF, 0xBD], ascii "1")]])) seed
      = .ok [[[0xEF, 0xBF, 0xBD]], [ascii "1"]] := by
  refine ⟨by decide, ?_⟩
  have hd : jsonDecoded
      (.array [[([0xEF, 0xBF, 0xBD], ascii "2"), ([0xEF, 0xBF, 0xBD], ascii "1")]])
      = .array [[([0xEF, 0xBF, 0xBD], JValue.str (ascii "1")),
          ([0xEF, 0xBF, 0xBD], JValue.str (ascii "2"))]] := rfl
  have hk : GoMap.keys [(([0xEF, 0xBF, 0xBD] : Bytes), JValue.str (ascii "1")),
      ([0xEF, 0xBF, 0xBD], JValue.str (ascii "2"))] = [[0xEF, 0xBF, 0xBD]] := by decide
  rw [hd, ReadJSON_array, hk, rangeKeys_singleton]
  decide

/-! ## Detect: the claims -/

/-- C1, against the claim as stated: the four bytes D0 CF 11 E0 alone are a
file that starts with the OLE2 signature, and `Detect` answers "not
supported" for it, not "xls". -/
theorem C1_counterexample :
    Detect (.regular [0xD0, 0xCF, 0x11, 0xE0]) = .error .notSupported ∧
    Detect (.regular [0xD0, 0xCF, 0x11, 0xE0]) ≠ .ok "xls" := by
  decide

/-- C1, amended: for every file of at least eight bytes whose first four
bytes are D0 CF 11 E0, `Detect` returns "xls" with no error, whatever the
bytes after the signature are. -/
theorem C1_detect_xls (rest : Bytes) (h : 8 ≤ (0xD0 :: 0xCF :: 0x11 :: 0xE0 :: rest).length) :
    Detect (.regular (0xD0 :: 0xCF :: 0x11 :: 0xE0 :: rest)) = .ok "xls" := by
  match rest, h with
  | a :: b :: c :: d :: r, _ => simp [Detect]

/-- A file to which C1 applies: the OLE2 signature of eight bytes. -/
theorem C1_detect_xls_witness :
    8 ≤ (0xD0 :: 0xCF :: 0x11 :: 0xE0 :: [0xA1, 0xB1, 0x1A, 0xE1]).length ∧
    Detect (.regular (0xD0 :: 0xCF :: 0x11 :: 0xE0 :: [0xA1, 0xB1, 0x1A, 0xE1])) = .ok "xls" :=
  ⟨by decide, C1_detect_xls [0xA1, 0xB1, 0x1A, 0xE1] (by decide)⟩

/-- C2: for every file whose first two bytes are 50 4B, `Detect` returns
"xlsx" with no error, whatever the remaining bytes are. -/
theorem C2_detect_xlsx (rest : Bytes) :
    Detect (.regular (0x50 :: 0x4B :: rest)) = .ok "xlsx" := by
  simp [Detect]

/-- C3: when the first 4096 bytes of a file hold no NUL byte and are a run
of white space followed by `[` or `{` and anything else (commas and tabs
included), `Detect` returns "json" with no error. -/
theorem C3_detect_json (data ws rest : Bytes) (c : Nat)
    (hsample : data.take 4096 = ws ++ c :: rest)
    (hnul : ∀ b ∈ data.take 4096, b ≠ 0)
    (hws : White ws) (hc : c = 0x5B ∨ c = 0x7B) :
    Detect (.regular data) = .ok "json" := by
  have hclt : c < 0x80 := by rcases hc with rfl | rfl <;> decide
  have hcn : asciiSpace c = false := by rcases hc with rfl | rfl <;> decide
  obtain ⟨r, hr⟩ := TrimSpace_head c rest ws hws hclt hcn
  have hfirst : data.head? ≠ some 0x50 ∧ data.head? ≠ some 0xD0 := by
    have hd : data.head? = (data.take 4096).head? := by cases data <;> rfl
    rw [hd, hsample]
    cases hws with
    | nil => rcases hc with rfl | rfl <;> simp
    | rune enc ws2 hsp hw hrest =>
      cases enc with
      | nil => simp [DecodeRune_nil, IsSpace_RuneError] at hsp
      | cons b t => simpa using space_first_byte b t hsp
  have hzip : ¬ [0x50, 0x4B] <+: data := by
    rintro ⟨x, rfl⟩; exact hfirst.1 rfl
  have hole : ¬ [0xD0, 0xCF, 0x11, 0xE0] <+: data := by
    rintro ⟨x, rfl⟩; exact hfirst.2 rfl
  have hany : (data.take 4096).any (fun b => decide (b = 0)) = false := by
    rw [List.any_eq_false]
    intro b hb
    simpa using hnul b hb
  rw [Detect_text data hzip hole, hany, hsample, hr]
  rcases hc with rfl | rfl <;> simp

/-- A file to which C3 applies: a space, a tab and a JSON array. -/
theorem C3_detect_json_witness :
    (ascii " \t[1,2]\t").take 4096 = [0x20, 0x09] ++ 0x5B :: ascii "1,2]\t" ∧
    (∀ b ∈ (ascii " \t[1,2]\t").take 4096, b ≠ 0) ∧
    White [0x20, 0x09] ∧
    Detect (.regular (ascii " \t[1,2]\t")) = .ok "json" :=
  have hw : White [0x20, 0x09] :=
    White.rune [0x20] [0x09] (by decide) (by decide)
      (White.rune [0x09] [] (by decide) (by decide) White.nil)
  ⟨by decide, by decide, hw,
    C3_detect_json (ascii " \t[1,2]\t") [0x20, 0x09] (ascii "1,2]\t") 0x5B (by decide)
      (by decide) hw (Or.inl rfl)⟩

/-- C4, against the claim as stated: the file `\thello` starts with neither
signature, has no NUL byte, is not all white space, and its first byte that
is not white space is `h`; its first 4096 bytes contain a tab, yet `Detect`
answers "not supported" and not "csv". -/
theorem C4_counterexample :
    ¬ [0x50, 0x4B] <+: ascii "\thello" ∧
    ¬ [0xD0, 0xCF, 0x11, 0xE0] <+: ascii "\thello" ∧
    (∀ b ∈ (ascii "\thello").take 4096, b ≠ 0) ∧
    ((ascii "\thello").take 4096).dropWhile asciiSpace = ascii "hello" ∧
    TrimSpace ((ascii "\thello").take 4096) = ascii "hello" ∧
    0x09 ∈ (ascii "\thello").take 4096 ∧
    Detect (.regular (ascii "\thello")) = .error .notSupported := by
  decide

/-- C4, amended: for every file that does not begin with the ZIP or OLE2
signature, has no NUL byte in its first 4096 bytes, and whose sample, once
`strings.TrimSpace` has removed the white space on both ends, is not empty
and starts with neither `[` nor `{`: `Detect` returns "csv" if and only if
the sample contains a comma or the trimmed sample contains a horizontal tab,
and returns the unsupported error otherwise. -/
theorem C4_detect_csv (data : Bytes)
    (hzip : ¬ [0x50, 0x4B] <+: data)
    (hole : ¬ [0xD0, 0xCF, 0x11, 0xE0] <+: data)
    (hnul : ∀ b ∈ data.take 4096, b ≠ 0)
    (hne : TrimSpace (data.take 4096) ≠ [])
    (hfirst : (TrimSpace (data.take 4096)).head? ≠ some 0x5B ∧
      (TrimSpace (data.take 4096)).head? ≠ some 0x7B) :
    (Detect (.regular data) = .ok "csv" ↔
      (0x2C ∈ data.take 4096 ∨ 0x09 ∈ TrimSpace (data.take 4096))) ∧
    (¬ (0x2C ∈ data.take 4096 ∨ 0x09 ∈ TrimSpace (data.take 4096)) →
      Detect (.regular data) = .error .notSupported) := by
  have hany : (data.take 4096).any (fun b => decide (b = 0)) = false := by
    rw [List.any_eq_false]
    intro b hb
    simpa using hnul b hb
  have hcomma := mem_TrimSpace (data.take 4096) 0x2C (by decide) (by decide)
  rw [Detect_text data hzip hole, hany, ← hcomma,
    ← Contains_singleton, ← Contains_singleton]
  cases hcont : TrimSpace (data.take 4096) with
  | nil => exact absurd hcont hne
  | cons c r =>
    rw [hcont] at hfirst
    simp only [List.head?_cons, ne_eq, Option.some.injEq] at hfirst
    have hj : ¬ ((c :: r).getD 0 0 = 0x5B ∨ (c :: r).getD 0 0 = 0x7B) := by
      simpa using hfirst
    simp only [Bool.false_eq_true, if_false, List.length_cons, Nat.succ_ne_zero, hj,
      Bool.or_eq_true]
    by_cases hd : Contains (c :: r) [0x2C] = true ∨ Contains (c :: r) [0x09] = true
    · simp [hd]
    · simp [hd]

/-- A file to which C4 applies: two lines of comma-separated text. -/
theorem C4_detect_csv_witness :
    ¬ [0x50, 0x4B] <+: ascii "a,b,c\n1,2,3" ∧
    ¬ [0xD0, 0xCF, 0x11, 0xE0] <+: ascii "a,b,c\n1,2,3" ∧
    (∀ b ∈ (ascii "a,b,c\n1,2,3").take 4096, b ≠ 0) ∧
    TrimSpace ((ascii "a,b,c\n1,2,3").take 4096) ≠ [] ∧
    ((TrimSpace ((ascii "a,b,c\n1,2,3").take 4096)).head? ≠ some 0x5B ∧
      (TrimSpace ((ascii "a,b,c\n1,2,3").take 4096)).head? ≠ some 0x7B) ∧
    (Detect (.regular (ascii "a,b,c\n1,2,3")) = .ok "csv" ↔
      (0x2C ∈ (ascii "a,b,c\n1,2,3").take 4096 ∨
        0x09 ∈ TrimSpace ((ascii "a,b,c\n1,2,3").take 4096))) ∧
    (¬ (0x2C ∈ (ascii "a,b,c\n1,2,3").take 4096 ∨
        0x09 ∈ TrimSpace ((ascii "a,b,c\n1,2,3").take 4096)) →
      Detect (.regular (ascii "a,b,c\n1,2,3")) = .error .notSupported) :=
  ⟨by decide, by decide, by decide, by decide, by decide,
    C4_detect_csv (ascii "a,b,c\n1,2,3") (by decide) (by decide) (by decide) (by decide)
      (by decide)⟩

/-! ## sanitize: the claims -/

/-- C5: `sanitize` is idempotent: for every string `x`,
`sanitize (sanitize x) = sanitize x`. -/
theorem C5_sanitize_idempotent (x : Bytes) : sanitize (sanitize x) = sanitize x :=
  sanitize_idem x

/-! ## The readers: the claims -/

/-- C6, the reader that breaks it: for the file `a,b\n1\n`, whose two
records `encoding/csv` reads as `[a b]` and `[1]`, `ReadCSV` succeeds and
returns them as they are, so row 1 has one cell where row 0 has two.
`ReadXLSX` and `ReadXLS` pad such a row; `ReadCSV` does not. -/
theorem C6_ReadCSV_short_row :
    ReadCSV ⟨id, id, id⟩ (fun _ => [some [ascii "a", ascii "b"], some [ascii "1"]])
        (.regular (ascii "a,b\n1\n"))
      = .ok [[ascii "a", ascii "b"], [ascii "1"]] ∧
    ([ascii "1"] : List Bytes).length < ([ascii "a", ascii "b"] : List Bytes).length := by
  decide

/-- C7, the reader that breaks it: for the file `[{"a":"x\ny"}]`, which
`encoding/json` decodes to one object whose value for `a` is `x`, a line
feed, `y`, `ReadJSON` succeeds and returns that value untouched: the cell
contains a line feed and is not its own `sanitize`.  `ReadCSV`, `ReadXLSX`
and `ReadXLS` sanitize every cell; `ReadJSON` never calls `sanitize`. -/
theorem C7_ReadJSON_unsanitized :
    (∀ seed, ReadJSON (.array [[(ascii "a", .str (ascii "x\ny"))]]) seed
      = .ok [[ascii "a"], [ascii "x\ny"]]) ∧
    0x0A ∈ ascii "x\ny" ∧
    sanitize (ascii "x\ny") = ascii "x y" ∧
    sanitize (ascii "x\ny") ≠ ascii "x\ny" := by
  refine ⟨fun seed => ?_, by decide, by decide, by decide⟩
  rw [ReadJSON_array, show GoMap.keys [(ascii "a", JValue.str (ascii "x\ny"))] = [ascii "a"]
    from by decide, rangeKeys_singleton]
  decide

/-- C8, against the claim as stated: the object of `[{"a":"1","b":"2"}]` has
the keys `a` and `b`, and the `range` statement of one run hands them out as
`a`, `b`, that of another as `b`, `a`.  The two reads of the same content
return different record sets, and the second is not the one the claim
names. -/
theorem C8_counterexample :
    ReadJSON (.array [[(ascii "a", .str (ascii "1")), (ascii "b", .str (ascii "2"))]]) 0
      = .ok [[ascii "a", ascii "b"], [ascii "1", ascii "2"]] ∧
    ReadJSON (.array [[(ascii "a", .str (ascii "1")), (ascii "b", .str (ascii "2"))]]) 1
      = .ok [[ascii "b", ascii "a"], [ascii "2", ascii "1"]] ∧
    ReadJSON (.array [[(ascii "a", .str (ascii "1")), (ascii "b", .str (ascii "2"))]]) 0
      ≠ ReadJSON (.array [[(ascii "a", .str (ascii "1")), (ascii "b", .str (ascii "2"))]]) 1 := by
  decide

/-- C8, amended: for every array with a first element, every read succeeds
and its header row is the keys of the first element in the order in which
`range` hands them out in that read, a permutation of these keys, whatever
the later elements are; every order of the keys is the header of some read;
and two reads in which `range` hands out the keys in the same order return
the same record set.  For `[{"a":"1","b":"2"}]` every read returns the
header `[a, b]` with the row `[1, 2]`, or the header `[b, a]` with the row
`[2, 1]`. -/
theorem C8_ReadJSON_header (item0 : GoMap JValue) (more : List (GoMap JValue)) :
    (∀ seed, ∃ rows,
      ReadJSON (.array (item0 :: more)) seed = .ok (rangeKeys seed item0.keys :: rows) ∧
      (rangeKeys seed item0.keys).Perm item0.keys) ∧
    (∀ order : List Bytes, order.Perm item0.keys →
      ∃ seed rows, ReadJSON (.array (item0 :: more)) seed = .ok (order :: rows)) ∧
    (∀ seed1 seed2, rangeKeys seed1 item0.keys = rangeKeys seed2 item0.keys →
      ReadJSON (.array (item0 :: more)) seed1 = ReadJSON (.array (item0 :: more)) seed2) ∧
    (∀ seed,
      ReadJSON (.array [[(ascii "a", .str (ascii "1")), (ascii "b", .str (ascii "2"))]]) seed
        = .ok [[ascii "a", ascii "b"], [ascii "1", ascii "2"]] ∨
      ReadJSON (.array [[(ascii "a", .str (ascii "1")), (ascii "b", .str (ascii "2"))]]) seed
        = .ok [[ascii "b", ascii "a"], [ascii "2", ascii "1"]]) := by
  refine ⟨fun seed => ⟨_, ReadJSON_array item0 more seed, rangeKeys_perm seed _⟩, ?_, ?_, ?_⟩
  · intro order horder
    obtain ⟨seed, hs⟩ := rangeKeys_surj item0.keys order horder
    exact ⟨seed, _, by rw [ReadJSON_array, hs]⟩
  · intro seed1 seed2 h
    rw [ReadJSON_array, ReadJSON_array, h]
  · intro seed
    have hk : GoMap.keys [(ascii "a", JValue.str (ascii "1")),
        (ascii "b", JValue.str (ascii "2"))] = [ascii "a", ascii "b"] := by decide
    have hp := rangeKeys_perm seed [ascii "a", ascii "b"]
    rw [ReadJSON_array, hk]
    rcases perm_pair (ascii "a") (ascii "b") (by decide) _ hp with h | h
    · left; rw [h]; decide
    · right; rw [h]; decide

/-- An array for C8: `[{"a":"1","b":"2"},{"b":"3","c":"4"}]`.  One read
returns the header `[a, b]`, another the header `[b, a]`; the key `c` of the
second element is in neither. -/
theorem C8_ReadJSON_header_witness :
    ReadJSON (.array ([(ascii "a", .str (ascii "1")), (ascii "b", .str (ascii "2"))] ::
        [[(ascii "b", .str (ascii "3")), (ascii "c", .str (ascii "4"))]])) 0
      = .ok [[ascii "a", ascii "b"], [ascii "1", ascii "2"], [[], ascii "3"]] ∧
    ReadJSON (.array ([(ascii "a", .str (ascii "1")), (ascii "b", .str (ascii "2"))] ::
        [[(ascii "b", .str (ascii "3")), (ascii "c", .str (ascii "4"))]])) 1
      = .ok [[ascii "b", ascii "a"], [ascii "2", ascii "1"], [ascii "3", []]] ∧
    ∀ seed, ∃ rows,
      ReadJSON (.array ([(ascii "a", .str (ascii "1")), (ascii "b", .str (ascii "2"))] ::
        [[(ascii "b", .str (ascii "3")), (ascii "c", .str (ascii "4"))]])) seed
        = .ok (rangeKeys seed (GoMap.keys [(ascii "a", JValue.str (ascii "1")),
            (ascii "b", JValue.str (ascii "2"))]) :: rows) ∧
      (rangeKeys seed (GoMap.keys [(ascii "a", JValue.str (ascii "1")),
        (ascii "b", JValue.str (ascii "2"))])).Perm
          (GoMap.keys [(ascii "a", JValue.str (ascii "1")), (ascii "b", JValue.str (ascii "2"))]) :=
  ⟨by decide, by decide,
    (C8_ReadJSON_header [(ascii "a", .str (ascii "1")), (ascii "b", .str (ascii "2"))]
      [[(ascii "b", .str (ascii "3")), (ascii "c", .str (ascii "4"))]]).1⟩

/-- C9: for a decoded array of `n >= 1` objects, every read succeeds and
returns a header and `n` data rows; the header is a permutation of the first
object's keys, and every row has as many cells as the first object has
distinct keys; the cell of data row `k` under the key `h` of the header is
the text of object `k`'s value for `h`, and the empty string when object `k`
has no such key.  A key that the first object does not have is no column, and
leaving such keys out of the later objects changes nothing in the result. -/
theorem C9_ReadJSON_projection (item0 : GoMap JValue) (more : List (GoMap JValue))
    (seed : Nat) :
    ∃ header rows, ReadJSON (.array (item0 :: more)) seed = .ok (header :: rows) ∧
      (header :: rows).length = (item0 :: more).length + 1 ∧
      (∀ row ∈ header :: rows, row.length = item0.keys.length) ∧
      header.Perm item0.keys ∧
      (∀ k i, k < rows.length → i < header.length →
        (rows.getD k []).getD i [] =
          match ((item0 :: more).getD k []).lookup (header.getD i []) with
          | some val => sprintV val
          | none => []) ∧
      (∀ key, key ∉ item0.keys → key ∉ header) ∧
      ReadJSON (.array (item0 :: more.map
        (fun m => m.filter (fun e => decide (e.1 ∈ item0.keys))))) seed = .ok (header :: rows) := by
  have horder := rangeKeys_perm seed item0.keys
  refine ⟨rangeKeys seed item0.keys, (item0 :: more).map (projectItem (rangeKeys seed item0.keys)),
    ReadJSON_array item0 more seed, by simp, ?_, horder, ?_, ?_, ?_⟩
  · intro row hrow
    rw [List.mem_cons, List.mem_map] at hrow
    rcases hrow with rfl | ⟨m, _, rfl⟩
    · exact horder.length_eq
    · simp [projectItem, horder.length_eq]
  · intro k i hk hi
    rw [List.length_map] at hk
    rw [getD_map_of_lt (projectItem _) (item0 :: more) k hk [] [],
      projectItem_getD _ _ _ hi]
  · intro key hkey hmem
    exact hkey (horder.subset hmem)
  · rw [ReadJSON_array]
    simp only [List.map_cons, List.map_map]
    congr 3
    apply List.map_congr_left
    intro m _
    exact projectItem_filter _ item0.keys m (fun k hk => horder.subset hk)

/-- An array for C9: `[{"a":"1","b":"2"},{"b":"3","c":"4"}]`, in a read in
which `range` hands out `b` before `a`: the result is the header `[b, a]`
with the rows `[2, 1]` and `[3, ""]`, and `c` is no column. -/
theorem C9_ReadJSON_projection_witness :
    ReadJSON (.array ([(ascii "a", .str (ascii "1")), (ascii "b", .str (ascii "2"))] ::
        [[(ascii "b", .str (ascii "3")), (ascii "c", .str (ascii "4"))]])) 1
      = .ok [[ascii "b", ascii "a"], [ascii "2", ascii "1"], [ascii "3", []]] ∧
    ∃ header rows,
      ReadJSON (.array ([(ascii "a", .str (ascii "1")), (ascii "b", .str (ascii "2"))] ::
        [[(ascii "b", .str (ascii "3")), (ascii "c", .str (ascii "4"))]])) 1
        = .ok (header :: rows) ∧
      (header :: rows).length =
        (([(ascii "a", .str (ascii "1")), (ascii "b", .str (ascii "2"))] ::
          [[(ascii "b", .str (ascii "3")), (ascii "c", .str (ascii "4"))]] :
            List (GoMap JValue))).length + 1 ∧
      (∀ row ∈ header :: rows, row.length =
        (GoMap.keys [(ascii "a", JValue.str (ascii "1")),
          (ascii "b", JValue.str (ascii "2"))]).length) ∧
      header.Perm (GoMap.keys [(ascii "a", JValue.str (ascii "1")),
          (ascii "b", JValue.str (ascii "2"))]) ∧
      (∀ k i, k < rows.length → i < header.length →
        (rows.getD k []).getD i [] =
          match ((([(ascii "a", .str (ascii "1")), (ascii "b", .str (ascii "2"))] ::
            [[(ascii "b", .str (ascii "3")), (ascii "c", .str (ascii "4"))]] :
              List (GoMap JValue))).getD k []).lookup (header.getD i []) with
          | some val => sprintV val
          | none => []) ∧
      (∀ key, key ∉ GoMap.keys [(ascii "a", JValue.str (ascii "1")),
          (ascii "b", JValue.str (ascii "2"))] → key ∉ header) ∧
      ReadJSON (.array ([(ascii "a", .str (ascii "1")), (ascii "b", .str (ascii "2"))] ::
        [[(ascii "b", .str (ascii "3")), (ascii "c", .str (ascii "4"))]].map
          (fun m => m.filter (fun e => decide (e.1 ∈
            GoMap.keys [(ascii "a", JValue.str (ascii "1")),
              (ascii "b", JValue.str (ascii "2"))]))))) 1
        = .ok (header :: rows) :=
  ⟨by decide,
    C9_ReadJSON_projection [(ascii "a", .str (ascii "1")), (ascii "b", .str (ascii "2"))]
      [[(ascii "b", .str (ascii "3")), (ascii "c", .str (ascii "4"))]] 1⟩

/-! ## The writers: the claims -/

/-- C10, against the claim as stated: the header names `\xff` and `\xfe` are
distinct and neither is valid UTF-8.  For the record set with that header
and the row `[1, 2]`, `encoding/json` writes each name as U+FFFD: the object
in the file has two members of that one name, with the values "2" and "1",
and neither header name is among its keys.  A cell is written the same way:
for the header `[a]` and the row `[\xff]` the member `a` has the value
U+FFFD, not the cell. -/
theorem C10_counterexample :
    ([[0xFF], [0xFE]] : List Bytes).Nodup ∧
    WriteJSON [[[0xFF], [0xFE]], [ascii "1", ascii "2"]] true true
      = .ok (.array [[([0xEF, 0xBF, 0xBD], ascii "2"), ([0xEF, 0xBF, 0xBD], ascii "1")]]) ∧
    [0xFF] ∉ ([([0xEF, 0xBF, 0xBD], ascii "2"), ([0xEF, 0xBF, 0xBD], ascii "1")] :
      JsonObject).map Prod.fst ∧
    List.lookup [0xFF] ([([0xEF, 0xBF, 0xBD], ascii "2"), ([0xEF, 0xBF, 0xBD], ascii "1")] :
      JsonObject) = none ∧
    WriteJSON [[ascii "a"], [[0xFF]]] true true
      = .ok (.array [[(ascii "a", [0xEF, 0xBF, 0xBD])]]) ∧
    ([0xEF, 0xBF, 0xBD] : Bytes) ≠ [0xFF] := by
  decide

/-- C10, amended: `WriteJSON` returns the no-data error for a record set
without rows.  For a record set with a header of pairwise distinct names,
names and cells valid UTF-8, written to a file that can be created and
written to, the document in the file has one object for each data row, in
row order; the names of the members of the object of a row are the header
names, each once, and the member named `header[i]` has the value `row[i]`
when `i < len(row)` and the empty string otherwise.  For `[[a, b], [1, 2]]`
that is one object, with "1" for `a` and "2" for `b`. -/
theorem C10_WriteJSON (header : List Bytes) (rows : Records) (hn : header.Nodup)
    (hh : ∀ name ∈ header, Valid name = true)
    (hc : ∀ row ∈ rows, ∀ cell ∈ row, Valid cell = true) :
    (∀ created encoded, WriteJSON [] created encoded = .error .noData) ∧
    (∃ out, WriteJSON (header :: rows) true true = .ok out ∧
      out.objects.length = (header :: rows).length - 1 ∧
      ∀ k, k < rows.length →
        ((out.objects.getD k []).map Prod.fst).Perm header ∧
        ∀ i, i < header.length →
          (out.objects.getD k []).lookup (header.getD i []) =
            some (if i < (rows.getD k []).length then (rows.getD k []).getD i [] else [])) ∧
    WriteJSON [[ascii "a", ascii "b"], [ascii "1", ascii "2"]] true true
      = .ok (.array [[(ascii "a", ascii "1"), (ascii "b", ascii "2")]]) := by
  refine ⟨fun _ _ => rfl, ⟨_, WriteJSON_ok header rows, ?_, ?_⟩, by decide⟩
  · rw [encodeData_objects]
    simp
  · intro k hk
    have hrow : rows.getD k [] ∈ rows := by
      rw [List.getD_eq_getElem _ _ hk]; exact List.getElem_mem hk
    rw [encodeData_objects, List.map_map,
      getD_map_of_lt (encodeItem ∘ rowItem header) rows k hk [] []]
    refine ⟨encodeItem_names_perm header _ hn hh, fun i hi => ?_⟩
    rw [← getD_of_length_le]
    exact encodeItem_lookup header _ hn hh (hc _ hrow) i hi

/-- A record set to which C10 applies: the header `[a, b]` and the rows
`[1, 2]` and `[3]`; the document is `[{"a":"1","b":"2"},{"a":"3","b":""}]`. -/
theorem C10_WriteJSON_witness :
    WriteJSON ([ascii "a", ascii "b"] :: [[ascii "1", ascii "2"], [ascii "3"]]) true true
      = .ok (.array [[(ascii "a", ascii "1"), (ascii "b", ascii "2")],
          [(ascii "a", ascii "3"), (ascii "b", [])]]) ∧
    [ascii "a", ascii "b"].Nodup ∧
    (∀ name ∈ [ascii "a", ascii "b"], Valid name = true) ∧
    (∀ row ∈ ([[ascii "1", ascii "2"], [ascii "3"]] : Records), ∀ cell ∈ row,
      Valid cell = true) ∧
    ((∀ created encoded, WriteJSON [] created encoded = .error .noData) ∧
    (∃ out, WriteJSON ([ascii "a", ascii "b"] :: [[ascii "1", ascii "2"], [ascii "3"]])
        true true = .ok out ∧
      out.objects.length =
        ([ascii "a", ascii "b"] :: [[ascii "1", ascii "2"], [ascii "3"]]).length - 1 ∧
      ∀ k, k < ([[ascii "1", ascii "2"], [ascii "3"]] : Records).length →
        ((out.objects.getD k []).map Prod.fst).Perm [ascii "a", ascii "b"] ∧
        ∀ i, i < [ascii "a", ascii "b"].length →
          (out.objects.getD k []).lookup ([ascii "a", ascii "b"].getD i []) =
            some (if i < (([[ascii "1", ascii "2"], [ascii "3"]] : Records).getD k []).length
              then (([[ascii "1", ascii "2"], [ascii "3"]] : Records).getD k []).getD i []
              else [])) ∧
    WriteJSON [[ascii "a", ascii "b"], [ascii "1", ascii "2"]] true true
      = .ok (.array [[(ascii "a", ascii "1"), (ascii "b", ascii "2")]])) :=
  ⟨by decide, by decide, by decide, by decide,
    C10_WriteJSON [ascii "a", ascii "b"] [[ascii "1", ascii "2"], [ascii "3"]]
      (by decide) (by decide) (by decide)⟩

/-! ## Detect, Read and Convert: more claims -/

/-- C13: for every file that begins with neither the ZIP signature nor the
OLE2 signature, a NUL byte among its first 4096 bytes makes `Detect` return
an error, the "not supported" one, and no format tag. -/
theorem C13_detect_nul (data : Bytes)
    (hzip : ¬ [0x50, 0x4B] <+: data)
    (hole : ¬ [0xD0, 0xCF, 0x11, 0xE0] <+: data)
    (hnul : ∃ b ∈ data.take 4096, b = 0) :
    Detect (.regular data) = .error .notSupported := by
  obtain ⟨b, hb, rfl⟩ := hnul
  exact Detect_nul data hzip hole hb

/-- A file to which C13 applies: the bytes 00 01 02. -/
theorem C13_detect_nul_witness :
    ¬ [0x50, 0x4B] <+: [0x00, 0x01, 0x02] ∧
    ¬ [0xD0, 0xCF, 0x11, 0xE0] <+: [0x00, 0x01, 0x02] ∧
    (∃ b ∈ [0x00, 0x01, 0x02].take 4096, b = 0) ∧
    Detect (.regular [0x00, 0x01, 0x02]) = .error .notSupported :=
  ⟨by decide, by decide, ⟨0, by decide, rfl⟩,
    C13_detect_nul [0x00, 0x01, 0x02] (by decide) (by decide) ⟨0, by decide, rfl⟩⟩

/-- C15: `Convert` returns the error of an unsupported output format if and
only if the lower-cased extension of the output path is none of `.csv`,
`.json` and `.xlsx`; and with such an extension it returns that error for
every input, absent or not, detectable or not. -/
theorem C15_Convert_unsupported (L : Libs) (seed : Nat) (created encoded : Bool) (f : File)
    (out : Bytes) :
    (Convert L seed created encoded f out = .error .unsupportedOutput ↔
      ¬ (L.toLower (Ext out) = ascii ".csv" ∨ L.toLower (Ext out) = ascii ".json" ∨
        L.toLower (Ext out) = ascii ".xlsx")) ∧
    (¬ (L.toLower (Ext out) = ascii ".csv" ∨ L.toLower (Ext out) = ascii ".json" ∨
        L.toLower (Ext out) = ascii ".xlsx") →
      ∀ (seed2 : Nat) (created2 encoded2 : Bool) (f2 : File),
        Convert L seed2 created2 encoded2 f2 out = .error .unsupportedOutput) := by
  have hno : ¬ (L.toLower (Ext out) = ascii ".csv" ∨ L.toLower (Ext out) = ascii ".json" ∨
      L.toLower (Ext out) = ascii ".xlsx") →
      ∀ (seed2 : Nat) (created2 encoded2 : Bool) (f2 : File),
        Convert L seed2 created2 encoded2 f2 out = .error .unsupportedOutput := by
    intro h seed2 created2 encoded2 f2
    simp only [not_or] at h
    unfold Convert
    simp only [h.1, h.2.1, h.2.2, if_false]
  refine ⟨⟨?_, fun h => hno h seed created encoded f⟩, hno⟩
  intro hc hext
  unfold Convert at hc
  dsimp only at hc
  split_ifs at hc with h1 h2 h3
  · exact ToCSV_ne_unsupportedOutput L seed created f hc
  · exact ToJSON_ne_unsupportedOutput L seed created encoded f hc
  · exact ToXLSX_ne_unsupportedOutput L seed created f hc
  · exact hext.elim h1 (fun h => h.elim h2 h3)

/-- C16, the conversion that breaks it: an XLS workbook whose first sheet has
no rows.  `Detect` takes the file for "xls", `ReadXLS` returns an empty
record set and no error, `WriteCSV` writes its zero records, and `ToCSV`
succeeds and reports -1 rows, not 0. -/
theorem C16_ToCSV_reports_minus_one :
    Read ⟨⟨id, id, id⟩, fun _ => [], fun _ => [], fun _ => none,
        fun _ => some (some ⟨0, fun _ => none⟩), fun _ => none, id⟩ 0
        (.regular [0xD0, 0xCF, 0x11, 0xE0, 0xA1, 0xB1, 0x1A, 0xE1]) = .ok [] ∧
    ToCSV ⟨⟨id, id, id⟩, fun _ => [], fun _ => [], fun _ => none,
        fun _ => some (some ⟨0, fun _ => none⟩), fun _ => none, id⟩ 0 true
        (.regular [0xD0, 0xCF, 0x11, 0xE0, 0xA1, 0xB1, 0x1A, 0xE1]) = .ok (-1) ∧
    ((-1 : Int) ≠ max 0 (((([] : Records).length : Int)) - 1)) := by
  decide

/-- C17: with `W` the number of cells of the first row of the sheet, the row
`ReadXLSX` returns for a row of the sheet is the sanitized cells of that row
followed by `W - len(row)` empty strings (none when the row has `W` cells or
more): a row narrower than `W` comes back with exactly `W` cells, and a row
of width `W` or more comes back with the width it has, no cell dropped. -/
theorem C17_ReadXLSX_alignment (f : XlsxFile) (sheet0 : String) (others : List String)
    (row0 : List Bytes) (more : List (List Bytes))
    (hs : f.sheets = sheet0 :: others) (hr : f.rows sheet0 = some (row0 :: more)) :
    ∃ records, ReadXLSX (some f) = .ok records ∧
      records.length = (row0 :: more).length ∧
      ∀ k, k < (row0 :: more).length →
        records.getD k [] = ((row0 :: more).getD k []).map sanitize ++
          List.replicate (row0.length - ((row0 :: more).getD k []).length) [] ∧
        (((row0 :: more).getD k []).length < row0.length →
          (records.getD k []).length = row0.length) ∧
        (row0.length ≤ ((row0 :: more).getD k []).length →
          records.getD k [] = ((row0 :: more).getD k []).map sanitize) := by
  refine ⟨_, ReadXLSX_rows f sheet0 others row0 more hs hr, by simp, ?_⟩
  intro k hk
  rw [getD_map_of_lt _ (row0 :: more) k hk [] []]
  generalize (row0 :: more).getD k [] = row
  refine ⟨by simp [padRow], ?_, ?_⟩
  · intro h
    simp only [padRow, List.length_append, List.length_map, List.length_replicate]
    omega
  · intro h
    simp [padRow, Nat.sub_eq_zero_of_le h]

/-- A sheet to which C17 applies: the rows `[a, b]`, `[ c ]` and `[d, e, f]`. -/
theorem C17_ReadXLSX_alignment_witness :
    ReadXLSX (some ⟨["Sheet1"], fun _ => some
        [[ascii "a", ascii "b"], [ascii " c "], [ascii "d", ascii "e", ascii "f"]]⟩) =
      .ok [[ascii "a", ascii "b"], [ascii "c", []], [ascii "d", ascii "e", ascii "f"]] ∧
    ∃ records, ReadXLSX (some ⟨["Sheet1"], fun _ => some
        [[ascii "a", ascii "b"], [ascii " c "], [ascii "d", ascii "e", ascii "f"]]⟩) =
        .ok records ∧
      records.length =
        ([ascii "a", ascii "b"] :: [[ascii " c "], [ascii "d", ascii "e", ascii "f"]]).length ∧
      ∀ k, k < ([ascii "a", ascii "b"] ::
          [[ascii " c "], [ascii "d", ascii "e", ascii "f"]]).length →
        records.getD k [] = (([ascii "a", ascii "b"] ::
            [[ascii " c "], [ascii "d", ascii "e", ascii "f"]]).getD k []).map sanitize ++
          List.replicate ([ascii "a", ascii "b"].length - (([ascii "a", ascii "b"] ::
            [[ascii " c "], [ascii "d", ascii "e", ascii "f"]]).getD k []).length) [] ∧
        ((([ascii "a", ascii "b"] ::
            [[ascii " c "], [ascii "d", ascii "e", ascii "f"]]).getD k []).length <
            [ascii "a", ascii "b"].length →
          (records.getD k []).length = [ascii "a", ascii "b"].length) ∧
        ([ascii "a", ascii "b"].length ≤ (([ascii "a", ascii "b"] ::
            [[ascii " c "], [ascii "d", ascii "e", ascii "f"]]).getD k []).length →
          records.getD k [] = (([ascii "a", ascii "b"] ::
            [[ascii " c "], [ascii "d", ascii "e", ascii "f"]]).getD k []).map sanitize) :=
  ⟨by decide,
    C17_ReadXLSX_alignment ⟨["Sheet1"], fun _ => some
        [[ascii "a", ascii "b"], [ascii " c "], [ascii "d", ascii "e", ascii "f"]]⟩
      "Sheet1" [] [ascii "a", ascii "b"] [[ascii " c "], [ascii "d", ascii "e", ascii "f"]]
      rfl rfl⟩

/-- C19: a file that is a UTF-16 byte-order mark followed by UTF-16 code
units, one of which is below 0x100 and lies within the first 4096 bytes:
`Detect` returns the "not supported" error; `Read` fails with the detection
error and `Convert` with that error or the one of an unsupported output
format, whatever the CSV reader and the decoders would do: `ReadCSV` is not
called. -/
theorem C19_utf16_rejected (units : List Nat) (k : Nat) (data : Bytes)
    (hk : k < units.length) (hu : units.getD k 0 < 0x100) (hin : 2 + 2 * k + 1 < 4096)
    (hdata : data = [0xFF, 0xFE] ++ utf16le units ∨ data = [0xFE, 0xFF] ++ utf16be units) :
    Detect (.regular data) = .error .notSupported ∧
    ∀ (L : Libs) (seed : Nat),
      Read L seed (.regular data) = .error .detectFailed ∧
      ∀ (created encoded : Bool) (out : Bytes),
        Convert L seed created encoded (.regular data) out = .error .detectFailed ∨
        Convert L seed created encoded (.regular data) out = .error .unsupportedOutput := by
  have hd := Detect_utf16 units k data hk hu hin hdata
  exact ⟨hd, fun L seed => ⟨Read_of_Detect_error L seed _ _ hd,
    fun created encoded out => Convert_of_Detect_error L seed created encoded _ out _ hd⟩⟩

/-- A file to which C19 applies: FF FE and the UTF-16 text `a,b`. -/
theorem C19_utf16_rejected_witness :
    0 < [0x61, 0x2C, 0x62].length ∧ [0x61, 0x2C, 0x62].getD 0 0 < 0x100 ∧
    2 + 2 * 0 + 1 < 4096 ∧
    [0xFF, 0xFE, 0x61, 0x00, 0x2C, 0x00, 0x62, 0x00] = [0xFF, 0xFE] ++ utf16le [0x61, 0x2C, 0x62] ∧
    (Detect (.regular [0xFF, 0xFE, 0x61, 0x00, 0x2C, 0x00, 0x62, 0x00]) = .error .notSupported ∧
    ∀ (L : Libs) (seed : Nat),
      Read L seed (.regular [0xFF, 0xFE, 0x61, 0x00, 0x2C, 0x00, 0x62, 0x00])
        = .error .detectFailed ∧
      ∀ (created encoded : Bool) (out : Bytes),
        Convert L seed created encoded
            (.regular [0xFF, 0xFE, 0x61, 0x00, 0x2C, 0x00, 0x62, 0x00]) out
          = .error .detectFailed ∨
        Convert L seed created encoded
            (.regular [0xFF, 0xFE, 0x61, 0x00, 0x2C, 0x00, 0x62, 0x00]) out
          = .error .unsupportedOutput) :=
  ⟨by decide, by decide, by decide, by decide,
    C19_utf16_rejected [0x61, 0x2C, 0x62] 0 [0xFF, 0xFE, 0x61, 0x00, 0x2C, 0x00, 0x62, 0x00]
      (by decide) (by decide) (by decide) (Or.inl (by decide))⟩

/-- C20, against the claim as stated: 4096 spaces followed by `{"a":1}` is a
well-formed JSON object, its first character that is not white space is `{`
and it has no NUL byte; the sample `Detect` reads is white space only, and
`Detect` answers "not supported", not "json". -/
theorem C20_counterexample :
    (∀ b ∈ List.replicate 4096 0x20 ++ ascii "\x7b\"a\":1\x7d", b ≠ 0) ∧
    (List.replicate 4096 0x20 ++ ascii "\x7b\"a\":1\x7d").dropWhile asciiSpace = ascii "\x7b\"a\":1\x7d" ∧
    Detect (.regular (List.replicate 4096 0x20 ++ ascii "\x7b\"a\":1\x7d")) = .error .notSupported ∧
    Detect (.regular (List.replicate 4096 0x20 ++ ascii "\x7b\"a\":1\x7d")) ≠ .ok "json" := by
  have hd : Detect (.regular (List.replicate 4096 0x20 ++ ascii "\x7b\"a\":1\x7d"))
      = .error .notSupported := by
    apply Detect_white_sample
    rw [List.take_left' (List.length_replicate _ _)]
    intro b hb
    rw [List.eq_of_mem_replicate hb]
    rfl
  refine ⟨?_, ?_, hd, by rw [hd]; simp⟩
  · intro b hb
    rw [List.mem_append] at hb
    rcases hb with hb | hb
    · rw [List.eq_of_mem_replicate hb]; decide
    · revert b; decide
  · rw [dropWhile_replicate_append asciiSpace 0x20 4096 _ rfl]
    decide

/-- C20, amended: for a file that is JSON white space followed by `{` and
the rest of an object, has no NUL byte, and which `json.Unmarshal` does not
decode into an array of objects, `Read` returns an error and no record set.
When the `{` lies within the first 4096 bytes, `Detect` returns "json" and
the error of `Read` is the one of `ReadJSON`; when 4096 bytes of white space
or more come first, `Detect` itself returns the "not supported" error. -/
theorem C20_json_object (L : Libs) (seed : Nat) (data ws rest : Bytes)
    (hdata : data = ws ++ 0x7B :: rest)
    (hws : ∀ b ∈ ws, b = 0x20 ∨ b = 0x09 ∨ b = 0x0A ∨ b = 0x0D)
    (hnul : ∀ b ∈ data, b ≠ 0)
    (hobj : L.unmarshal data = none) :
    (ws.length < 4096 →
      Detect (.regular data) = .ok "json" ∧
      Read L seed (.regular data) = .error .jsonParse) ∧
    (4096 ≤ ws.length →
      Detect (.regular data) = .error .notSupported ∧
      Read L seed (.regular data) = .error .detectFailed) := by
  have hascii : ∀ b ∈ ws, asciiSpace b = true := by
    intro b hb
    rcases hws b hb with rfl | rfl | rfl | rfl <;> rfl
  constructor
  · intro hlen
    have hsample : data.take 4096 = ws ++ 0x7B :: rest.take (4096 - ws.length - 1) := by
      rw [hdata, List.take_append_eq_append_take, List.take_of_length_le (by omega)]
      obtain ⟨m, hm⟩ : ∃ m, 4096 - ws.length = m + 1 := ⟨4096 - ws.length - 1, by omega⟩
      rw [hm, List.take_succ_cons]
      simp
    have hd := Detect_json_of_white data ws _ 0x7B hsample
      (fun b hb => hnul b (List.mem_of_mem_take hb)) (White_of_ascii ws hascii) (Or.inr rfl)
    exact ⟨hd, Read_json_malformed L seed data hd hobj⟩
  · intro hlen
    have hd : Detect (.regular data) = .error .notSupported := by
      apply Detect_white_sample
      rw [hdata, List.take_append_eq_append_take]
      have : 4096 - ws.length = 0 := by omega
      rw [this, List.take_zero, List.append_nil]
      exact fun b hb => hascii b (List.mem_of_mem_take hb)
    exact ⟨hd, Read_of_Detect_error L seed _ _ hd⟩

/-- A file to which C20 applies: `{"a":1}`, with a JSON library that
refuses to decode an object into an array. -/
theorem C20_json_object_witness :
    ascii "\x7b\"a\":1\x7d" = [] ++ 0x7B :: ascii "\"a\":1\x7d" ∧
    (∀ b ∈ ascii "\x7b\"a\":1\x7d", b ≠ 0) ∧
    (([] : Bytes).length < 4096 →
      Detect (.regular (ascii "\x7b\"a\":1\x7d")) = .ok "json" ∧
      Read ⟨⟨id, id, id⟩, fun _ => [], fun _ => [], fun _ => none, fun _ => none,
        fun _ => none, id⟩ 0 (.regular (ascii "\x7b\"a\":1\x7d")) = .error .jsonParse) ∧
    (4096 ≤ ([] : Bytes).length →
      Detect (.regular (ascii "\x7b\"a\":1\x7d")) = .error .notSupported ∧
      Read ⟨⟨id, id, id⟩, fun _ => [], fun _ => [], fun _ => none, fun _ => none,
        fun _ => none, id⟩ 0 (.regular (ascii "\x7b\"a\":1\x7d")) = .error .detectFailed) :=
  ⟨by decide, by decide,
    C20_json_object ⟨⟨id, id, id⟩, fun _ => [], fun _ => [], fun _ => none, fun _ => none,
        fun _ => none, id⟩ 0 (ascii "\x7b\"a\":1\x7d") [] (ascii "\"a\":1\x7d") (by decide)
      (by simp) (by decide) rfl⟩

/-! ## detectEncoding: the claim -/

/-- C14: for every byte sequence, `detectEncoding` is decided by the first
rule that matches: a start of EF BB BF gives "utf-8-bom", a start of FF FE
"utf-16-le", a start of FE FF "utf-16-be", well-formed UTF-8 "utf-8", and
anything else "euc-kr".  The result is one of these five tags, and a UTF-16
tag comes only with its byte-order mark. -/
theorem C14_detectEncoding (d : Bytes) :
    (detectEncoding d =
      if [0xEF, 0xBB, 0xBF] <+: d then "utf-8-bom"
      else if [0xFF, 0xFE] <+: d then "utf-16-le"
      else if [0xFE, 0xFF] <+: d then "utf-16-be"
      else if wellFormed d = true then "utf-8"
      else "euc-kr") ∧
    (detectEncoding d = "utf-8-bom" ∨ detectEncoding d = "utf-16-le" ∨
      detectEncoding d = "utf-16-be" ∨ detectEncoding d = "utf-8" ∨
      detectEncoding d = "euc-kr") ∧
    (detectEncoding d = "utf-16-le" → [0xFF, 0xFE] <+: d) ∧
    (detectEncoding d = "utf-16-be" → [0xFE, 0xFF] <+: d) ∧
    detectEncoding [] = "utf-8" := by
  have hmain : detectEncoding d =
      if [0xEF, 0xBB, 0xBF] <+: d then "utf-8-bom"
      else if [0xFF, 0xFE] <+: d then "utf-16-le"
      else if [0xFE, 0xFF] <+: d then "utf-16-be"
      else if wellFormed d = true then "utf-8"
      else "euc-kr" := by
    unfold detectEncoding
    simp only [isPrefixOf_iff, Valid_eq_wellFormed]
  refine ⟨hmain, ?_, ?_, ?_, by decide⟩
  · rw [hmain]
    split_ifs <;> simp
  · rw [hmain]
    split_ifs with h1 h2 h3 h4 <;> simp
    exact h2
  · rw [hmain]
    split_ifs with h1 h2 h3 h4 <;> simp
    exact h3

/-! ## sanitize: more claims -/

/-- C18: for every string `s`, `sanitize s` contains no carriage return and
no line feed, has no two spaces next to each other, and neither begins nor
ends with a white-space character: no complete encoding of a white-space
rune stands at its start or at its end. -/
theorem C18_sanitize_clean (s : Bytes) :
    0x0D ∉ sanitize s ∧ 0x0A ∉ sanitize s ∧ ¬ [0x20, 0x20] <:+: sanitize s ∧
    (∀ enc rest, sanitize s = enc ++ rest → (DecodeRune enc).2 = enc.length →
      IsSpace (DecodeRune enc).1 = false) ∧
    (∀ pre enc, sanitize s = pre ++ enc → (DecodeRune enc).2 = enc.length →
      IsSpace (DecodeRune enc).1 = false) ∧
    (∀ b, (sanitize s).head? = some b → asciiSpace b = false) ∧
    (∀ b, (sanitize s).getLast? = some b → asciiSpace b = false) := by
  have hfirst : ∀ enc rest, sanitize s = enc ++ rest → (DecodeRune enc).2 = enc.length →
      IsSpace (DecodeRune enc).1 = false := by
    intro enc rest he _
    by_contra hsp
    simp only [Bool.not_eq_false] at hsp
    have h1 := prefix_decode enc (sanitize s) ⟨rest, he.symm⟩ hsp
    have h2 : IsSpace (DecodeRune (sanitize s)).1 = false := by
      unfold sanitize; exact TrimSpace_first _
    rw [h1, hsp] at h2
    exact absurd h2 (by decide)
  have hlast : ∀ pre enc, sanitize s = pre ++ enc → (DecodeRune enc).2 = enc.length →
      IsSpace (DecodeRune enc).1 = false := by
    intro pre enc he hw
    by_contra hsp
    simp only [Bool.not_eq_false] at hsp
    have h1 := DecodeLastRune_of_space pre enc hsp hw
    have h2 : IsSpace (DecodeLastRune (sanitize s)).1 = false := by
      unfold sanitize; exact TrimSpace_last _
    rw [he, h1, hsp] at h2
    exact absurd h2 (by decide)
  refine ⟨not_mem_sanitize_CR s, not_mem_sanitize_LF s, ?_, hfirst, hlast, ?_, ?_⟩
  · intro h
    have := (Contains_iff_part _ _).mpr h
    rw [sanitize_no_double_space] at this
    exact absurd this (by decide)
  · intro b hb
    cases ht : sanitize s with
    | nil => rw [ht] at hb; simp at hb
    | cons c t =>
      rw [ht] at hb
      simp only [List.head?_cons, Option.some.injEq] at hb
      subst hb
      by_contra hsp
      simp only [Bool.not_eq_false] at hsp
      have hlt := asciiSpace_lt c hsp
      have := hfirst [c] t (by rw [ht]; rfl) (by rw [DecodeRune_ascii c [] hlt]; rfl)
      rw [DecodeRune_ascii c [] hlt, IsSpace_ascii c hlt, hsp] at this
      exact absurd this (by decide)
  · intro b hb
    rw [List.getLast?_eq_some_iff] at hb
    obtain ⟨pre, hpre⟩ := hb
    by_contra hsp
    simp only [Bool.not_eq_false] at hsp
    have hlt := asciiSpace_lt b hsp
    have := hlast pre [b] hpre (by rw [DecodeRune_ascii b [] hlt]; rfl)
    rw [DecodeRune_ascii b [] hlt, IsSpace_ascii b hlt, hsp] at this
    exact absurd this (by decide)

/-- C11, against the claim as stated: for a tab followed by `a` the
reference procedure, which removes only the character U+0020 at the ends,
leaves the tab in place; `sanitize` ends with `strings.TrimSpace` and
removes it. -/
theorem C11_counterexample :
    sanitize (ascii "\ta") = ascii "a" ∧
    sanitizeRef (ascii "\ta") = ascii "\ta" ∧
    sanitize (ascii "\ta") ≠ sanitizeRef (ascii "\ta") := by
  decide

/-- C11, amended: for every string `s`, `sanitize s` is the result of this
procedure: every CR LF pair, every other CR and every other LF becomes one
space; every run of two or more spaces becomes a single space; and the white
space at the start and at the end is removed as `strings.TrimSpace` removes
it, that is every leading and trailing white-space character of Unicode
(tab, vertical tab, form feed, U+0085, U+00A0 and the others, not U+0020
alone), every other character staying in place. -/
theorem C11_sanitize_reference (s : Bytes) :
    sanitize s = TrimSpace (refCollapse (refNewlines s)) :=
  sanitize_eq_ref s


/-! ## The round trip: the claim -/

/-- C12, against the claim as stated, all cells printable ASCII.  The record
set `[[a]]`: `WriteJSON` writes `null`, and `ReadJSON` fails on it with the
error of an empty array.  The record set `[[" a"]]`: `WriteCSV` writes the
line `" a"`, in quotes, and `ReadCSV` returns the cell sanitized, `a`.  The
record set `[[""]]`, one empty cell: `WriteCSV` writes an empty line, and
`ReadCSV` returns no row.  The record set `[[a, a], [1, 2]]`: `WriteJSON`
writes one member, `a` with "2", and `ReadJSON` returns one column.  The
record set `[[a, b], [1]]`: `WriteJSON` writes `b` with the empty string, and
in one read `ReadJSON` returns the columns as `b`, `a`, the row as two
cells. -/
theorem C12_counterexample :
    WriteJSON [[ascii "a"]] true true = .ok .null ∧
    (∀ seed, ReadJSON (jsonDecoded .null) seed = .error .emptyArray) ∧
    WriteCSV csvWriter [[ascii " a"]] true = .ok (ascii "\" a\"\n") ∧
    ReadCSV ⟨id, id, id⟩ csvReader (.regular (ascii "\" a\"\n")) = .ok [[ascii "a"]] ∧
    ([[ascii "a"]] : Records) ≠ [[ascii " a"]] ∧
    WriteCSV csvWriter [[[]]] true = .ok (ascii "\n") ∧
    ReadCSV ⟨id, id, id⟩ csvReader (.regular (ascii "\n")) = .ok [] ∧
    WriteJSON [[ascii "a", ascii "a"], [ascii "1", ascii "2"]] true true
      = .ok (.array [[(ascii "a", ascii "2")]]) ∧
    (∀ seed, ReadJSON (jsonDecoded (.array [[(ascii "a", ascii "2")]])) seed
      = .ok [[ascii "a"], [ascii "2"]]) ∧
    WriteJSON [[ascii "a", ascii "b"], [ascii "1"]] true true
      = .ok (.array [[(ascii "a", ascii "1"), (ascii "b", [])]]) ∧
    ReadJSON (jsonDecoded (.array [[(ascii "a", ascii "1"), (ascii "b", [])]])) 0
      = .ok [[ascii "b", ascii "a"], [[], ascii "1"]] := by
  refine ⟨by decide, fun _ => rfl, by decide, by decide, by decide, by decide, by decide,
    by decide, fun seed => ?_, by decide, by decide⟩
  have hd : jsonDecoded (.array [[(ascii "a", ascii "2")]])
      = .array [[(ascii "a", JValue.str (ascii "2"))]] := rfl
  have hk : GoMap.keys [(ascii "a", JValue.str (ascii "2"))] = [ascii "a"] := by decide
  rw [hd, ReadJSON_array, hk, rangeKeys_singleton]
  decide

/-- C12, amended.  CSV: for a record set of printable ASCII cells in which
no row is empty or a single empty cell, `WriteCSV` followed by `ReadCSV`
succeeds and returns the record set with every cell sanitized: the same
number of rows, and the same cells when every cell is its own `sanitize`.
JSON: for a record set of printable ASCII cells with a header of pairwise
distinct names and at least one data row, `WriteJSON` followed by `ReadJSON`
succeeds and returns as many rows; the header comes back as a permutation of
the written header, and in every data row the cell under a header name is
the cell that was written under that name, the empty string where the
written row was too short; every row that comes back is as wide as the
header, the cells of a written row beyond that width are not in the file. -/
theorem C12_round_trip (d : Decoders) (records : Records)
    (header : List Bytes) (rows : Records) (seed : Nat)
    (hcsv : ∀ r ∈ records, ∀ cell ∈ r, printable cell = true)
    (hne : ∀ r ∈ records, r ≠ [] ∧ r ≠ [[]])
    (hjson : ∀ r ∈ header :: rows, ∀ cell ∈ r, printable cell = true)
    (hn : header.Nodup) (hrows : rows ≠ []) :
    (WriteCSV csvWriter records true = .ok (csvWriter records) ∧
      ReadCSV d csvReader (.regular (csvWriter records)) =
        .ok (records.map (fun r => r.map sanitize)) ∧
      ((∀ r ∈ records, ∀ c ∈ r, sanitize c = c) →
        ReadCSV d csvReader (.regular (csvWriter records)) = .ok records)) ∧
    (∃ out header2 back, WriteJSON (header :: rows) true true = .ok out ∧
      ReadJSON (jsonDecoded out) seed = .ok (header2 :: back) ∧
      header2.Perm header ∧
      (header2 :: back).length = (header :: rows).length ∧
      (∀ row ∈ header2 :: back, row.length = header.length) ∧
      ∀ k i j, k < rows.length → i < header.length → j < header2.length →
        header2.getD j [] = header.getD i [] →
        (back.getD k []).getD j [] = (rows.getD k []).getD i []) := by
  have hread : ReadCSV d csvReader (.regular (csvWriter records)) =
      .ok (records.map (fun r => r.map sanitize)) := by
    rw [ReadCSV_of_ascii d csvReader _ (csvWriter_ascii records hcsv),
      csvReader_csvWriter records hcsv hne, readCSVLoop_some]
  refine ⟨⟨rfl, hread, ?_⟩, ?_⟩
  · intro hs
    rw [hread]
    congr 1
    conv_rhs => rw [← List.map_id records]
    apply List.map_congr_left
    intro r hr
    conv_rhs => rw [id, ← List.map_id r]
    exact List.map_congr_left (fun c hc => hs r hr c hc)
  · have hh : ∀ name ∈ header, Valid name = true := fun name hname =>
      Valid_of_printable name (hjson header (List.mem_cons_self _ _) name hname)
    have hc : ∀ row ∈ rows, ∀ cell ∈ row, Valid cell = true := fun row hrow cell hcell =>
      Valid_of_printable cell (hjson row (List.mem_cons_of_mem _ hrow) cell hcell)
    obtain ⟨row0, more, rfl⟩ : ∃ row0 more, rows = row0 :: more := by
      cases rows with
      | nil => exact absurd rfl hrows
      | cons a b => exact ⟨a, b, rfl⟩
    have hdec : jsonDecoded (encodeData ((row0 :: more).map (rowItem header))) =
        .array ((row0 :: more).map (fun row =>
          (encodeItem (rowItem header row)).reverse.map (fun e => (e.1, JValue.str e.2)))) := by
      simp [encodeData, jsonDecoded]
    have hperm := (rangeKeys_perm seed _).trans (decoded_keys header row0 hn hh)
    refine ⟨_, _,
      ((row0 :: more).map (fun row =>
        (encodeItem (rowItem header row)).reverse.map (fun e => (e.1, JValue.str e.2)))).map
          (projectItem (rangeKeys seed (GoMap.keys ((encodeItem (rowItem header row0)).reverse.map
            (fun e => (e.1, JValue.str e.2)))))),
      WriteJSON_ok header (row0 :: more), ?_, hperm, ?_, ?_, ?_⟩
    · rw [hdec, List.map_cons, ReadJSON_array]
    · simp
    · intro row hrow
      rw [List.mem_cons, List.mem_map] at hrow
      rcases hrow with rfl | ⟨m, _, rfl⟩
      · exact hperm.length_eq
      · unfold projectItem
        rw [List.length_map]
        exact hperm.length_eq
    · intro k i j hk hi hj hij
      rw [List.map_map,
        getD_map_of_lt _ (row0 :: more) k hk [] [],
        Function.comp_apply, projectItem_getD _ _ _ hj, hij,
        decoded_lookup header _ hn hh
          (hc _ (by rw [List.getD_eq_getElem _ _ hk]; exact List.getElem_mem hk)) i hi]
      rfl

/-- A record set to which C12 applies: the header `[a, b]` and the row
`[1, 2]`, in a read in which `range` hands out `b` before `a`. -/
theorem C12_round_trip_witness :
    (∀ r ∈ ([[ascii "a", ascii "b"], [ascii "1", ascii "2"]] : Records), ∀ cell ∈ r,
      printable cell = true) ∧
    (∀ r ∈ ([[ascii "a", ascii "b"], [ascii "1", ascii "2"]] : Records), r ≠ [] ∧ r ≠ [[]]) ∧
    [ascii "a", ascii "b"].Nodup ∧
    ([[ascii "1", ascii "2"]] : Records) ≠ [] ∧
    csvWriter [[ascii "a", ascii "b"], [ascii "1", ascii "2"]] = ascii "a,b\n1,2\n" ∧
    ReadCSV ⟨id, id, id⟩ csvReader (.regular (ascii "a,b\n1,2\n"))
      = .ok [[ascii "a", ascii "b"], [ascii "1", ascii "2"]] ∧
    ReadJSON (jsonDecoded (.array [[(ascii "a", ascii "1"), (ascii "b", ascii "2")]])) 0
      = .ok [[ascii "b", ascii "a"], [ascii "2", ascii "1"]] ∧
    ((WriteCSV csvWriter [[ascii "a", ascii "b"], [ascii "1", ascii "2"]] true
        = .ok (csvWriter [[ascii "a", ascii "b"], [ascii "1", ascii "2"]]) ∧
      ReadCSV ⟨id, id, id⟩ csvReader
        (.regular (csvWriter [[ascii "a", ascii "b"], [ascii "1", ascii "2"]])) =
        .ok ([[ascii "a", ascii "b"], [ascii "1", ascii "2"]].map (fun r => r.map sanitize)) ∧
      ((∀ r ∈ ([[ascii "a", ascii "b"], [ascii "1", ascii "2"]] : Records),
          ∀ c ∈ r, sanitize c = c) →
        ReadCSV ⟨id, id, id⟩ csvReader
          (.regular (csvWriter [[ascii "a", ascii "b"], [ascii "1", ascii "2"]])) =
          .ok [[ascii "a", ascii "b"], [ascii "1", ascii "2"]])) ∧
    (∃ out header2 back,
      WriteJSON ([ascii "a", ascii "b"] :: [[ascii "1", ascii "2"]]) true true = .ok out ∧
      ReadJSON (jsonDecoded out) 0 = .ok (header2 :: back) ∧
      header2.Perm [ascii "a", ascii "b"] ∧
      (header2 :: back).length = ([ascii "a", ascii "b"] :: [[ascii "1", ascii "2"]]).length ∧
      (∀ row ∈ header2 :: back, row.length = [ascii "a", ascii "b"].length) ∧
      ∀ k i j, k < ([[ascii "1", ascii "2"]] : Records).length →
        i < [ascii "a", ascii "b"].length → j < header2.length →
        header2.getD j [] = [ascii "a", ascii "b"].getD i [] →
        (back.getD k []).getD j [] =
          (([[ascii "1", ascii "2"]] : Records).getD k []).getD i [])) :=
  ⟨by decide, by decide, by decide, by decide, by decide, by decide, by decide,
    C12_round_trip ⟨id, id, id⟩ [[ascii "a", ascii "b"], [ascii "1", ascii "2"]]
      [ascii "a", ascii "b"] [[ascii "1", ascii "2"]] 0
      (by decide) (by decide) (by decide) (by decide) (by decide)⟩

end Toxjc
